import Mathlib

/-!
# SigMF.ts — verification of the core library against its specification

A shallow embedding of the SigMF TypeScript library (datatype parser,
sample codec, chunked sample reader, metadata model and validator, and
TAR archive layer), with theorems settling the specification claims.

Conventions of the embedding:
* JavaScript numbers are modelled as `JsNum` (a finite rational, `NaN`,
  or a signed infinity); metadata values are modelled as `JsVal`
  (finite numbers, strings, booleans, `null`, arrays and objects —
  the values JSON can carry).
* Binary buffers are `List Nat` with every element `< 256`.
* Functions that can `throw` in JavaScript return `Option`/`Except`.
-/

namespace SigMF

/-! ## JavaScript value model -/

/-- A JavaScript number: a finite (double) value modelled as a rational,
`NaN`, or one of the two infinities. -/
inductive JsNum where
  | num : ℚ → JsNum
  | nan : JsNum
  | inf : JsNum
  | ninf : JsNum
deriving DecidableEq, Repr

/-- A JSON-representable JavaScript value: finite numbers, strings,
booleans, `null`, arrays and (insertion-ordered) objects. -/
inductive JsVal where
  | num : ℚ → JsVal
  | str : String → JsVal
  | bool : Bool → JsVal
  | null : JsVal
  | arr : List JsVal → JsVal
  | obj : List (String × JsVal) → JsVal

/-- Property lookup on an object-shaped value (`undefined` is `none`). -/
def JsVal.getProp : JsVal → String → Option JsVal
  | .obj kvs, k => (kvs.find? (fun kv => kv.1 == k)).map (·.2)
  | _, _ => none

/-- Lookup in an (insertion-ordered) string-keyed map. -/
def jsGet (m : List (String × JsVal)) (k : String) : Option JsVal :=
  (m.find? (fun kv => kv.1 == k)).map (·.2)

/-- JavaScript property assignment `m[k] = v`: replaces the value in
place when the key exists, otherwise appends the pair. -/
def jsSet (m : List (String × JsVal)) (k : String) (v : JsVal) :
    List (String × JsVal) :=
  if m.any (fun kv => kv.1 == k) then
    m.map (fun kv => if kv.1 == k then (k, v) else kv)
  else m ++ [(k, v)]

/-- JavaScript truthiness of a modelled value (`undefined` is handled by
callers via `Option`): `0`, `""`, `false` and `null` are falsy. -/
def JsVal.truthy : JsVal → Bool
  | .num q => q != 0
  | .str s => s != ""
  | .bool b => b
  | .null => false
  | .arr _ => true
  | .obj _ => true

/-- `typeof v === 'object'` for a modelled value (arrays and `null` are
objects in JavaScript). -/
def JsVal.isObjectTypeof : JsVal → Bool
  | .obj _ => true
  | .arr _ => true
  | .null => true
  | _ => false

/-- `typeof v === 'number'`. -/
def JsVal.isNumber : JsVal → Bool
  | .num _ => true
  | _ => false

/-! ## Datatype parser (`src/metadata.ts`, `parseDatatype`; pattern from
`src/types.ts`, `DATATYPE_PATTERN`) -/

/-- The alternatives of the second capture group of
`DATATYPE_PATTERN = /^(c|r)(f32|f64|i32|i16|u32|u16|i8|u8)(_le|_be)?$/`. -/
def datatypeBases : List String :=
  ["f32", "f64", "i32", "i16", "u32", "u16", "i8", "u8"]

/-- The alternatives of the optional third capture group (the empty
string stands for the group not matching). -/
def datatypeSuffixes : List String := ["", "_le", "_be"]

/-- Match a token against `DATATYPE_PATTERN`, returning the three
capture groups (`c|r`, the type string, the endianness suffix or `""`
when the optional group did not match). -/
def matchDatatypePattern (s : String) : Option (String × String × String) :=
  (["c", "r"].flatMap fun pre =>
    datatypeBases.flatMap fun base =>
      datatypeSuffixes.map fun suf => (pre, base, suf)).find?
    (fun g => s = g.1 ++ g.2.1 ++ g.2.2)

/-- Decimal digit value of a character, when it is a digit. -/
def charDigit? (c : Char) : Option Nat :=
  if '0' ≤ c ∧ c ≤ '9' then some (c.toNat - '0'.toNat) else none

/-- Accumulating decimal evaluation of a digit list (`none` on the
first non-digit). -/
def digitsVal : List Char → Nat → Option Nat
  | [], acc => some acc
  | c :: cs, acc =>
    match charDigit? c with
    | some d => digitsVal cs (acc * 10 + d)
    | none => none

/-- `parseInt(s, 10)` on an all-digit string (`none` when empty or not
all digits), as used for the width field of a datatype token. -/
def strToNat? (s : String) : Option Nat :=
  if s.data.isEmpty then none else digitsVal s.data 0

/-- The numeric format of a datatype component. -/
inductive NumFormat where
  | float : NumFormat
  | int : NumFormat
deriving DecidableEq, Repr

/-- Parsed datatype information (`DatatypeInfo` in `src/types.ts`). -/
structure DatatypeInfo where
  isComplex : Bool
  format : NumFormat
  signed : Bool
  bitsPerComponent : Nat
  bytesPerComponent : Nat
  bytesPerSample : Nat
  littleEndian : Option Bool
  datatype : String
deriving DecidableEq, Repr

/-- `parseDatatype` from `src/metadata.ts`: matches the token against
`DATATYPE_PATTERN` (throwing — here `none` — on failure) and derives the
descriptor fields from the capture groups. -/
def parseDatatype (datatype : String) : Option DatatypeInfo :=
  match matchDatatypePattern datatype with
  | none => none
  | some (complexOrReal, typeStr, endianStr) =>
    let isComplex := complexOrReal = "c"
    let startsF := typeStr.data.head? == some 'f'
    let startsI := typeStr.data.head? == some 'i'
    let format := if startsF then NumFormat.float else NumFormat.int
    let signed := startsF || startsI
    let bitsPerComponent := (strToNat? ⟨typeStr.data.drop 1⟩).getD 0
    let bytesPerComponent := bitsPerComponent / 8
    let bytesPerSample :=
      if isComplex then bytesPerComponent * 2 else bytesPerComponent
    let littleEndian : Option Bool :=
      if bitsPerComponent > 8 then some (endianStr = "_le") else none
    some {
      isComplex := isComplex
      format := format
      signed := signed
      bitsPerComponent := bitsPerComponent
      bytesPerComponent := bytesPerComponent
      bytesPerSample := bytesPerSample
      littleEndian := littleEndian
      datatype := datatype
    }

/-! ## Byte-level helpers (DataView primitives) -/

/-- Little-endian byte decomposition of a bit pattern into `w` bytes. -/
def toLEBytes : Nat → Nat → List Nat
  | 0, _ => []
  | w + 1, n => n % 256 :: toLEBytes w (n / 256)

/-- Recompose a little-endian byte list into a bit pattern. -/
def fromLEBytes : List Nat → Nat
  | [] => 0
  | b :: bs => b + 256 * fromLEBytes bs

/-! ## IEEE-754 component codec

`readValue`/`writeValue` in `src/samples.ts` dispatch to the DataView
primitives `get/setFloat32/64`, `get/setInt8/16/32` and
`get/setUint8/16/32`.  Those platform primitives are modelled here
bit-exactly: two's-complement storage for integers and IEEE-754 binary
interchange (sign / biased exponent / fraction, round-to-nearest-even)
for floats, with the value domain `JsNum`. -/

/-- An IEEE-754 binary format: `E` exponent bits and `F` fraction bits
(binary32 is `E = 8, F = 23`; binary64 is `E = 11, F = 52`). -/
structure FloatFmt where
  E : Nat
  F : Nat
deriving DecidableEq, Repr

def f32Fmt : FloatFmt := ⟨8, 23⟩
def f64Fmt : FloatFmt := ⟨11, 52⟩

/-- The exponent bias `2^(E-1) - 1`. -/
def FloatFmt.bias (fmt : FloatFmt) : ℤ := 2 ^ (fmt.E - 1) - 1

/-- Decode an IEEE-754 bit pattern into a JavaScript number. -/
def fmtDecode (fmt : FloatFmt) (bits : Nat) : JsNum :=
  let s := bits / 2 ^ (fmt.E + fmt.F) % 2
  let e := bits / 2 ^ fmt.F % 2 ^ fmt.E
  let f := bits % 2 ^ fmt.F
  let sign : ℚ := if s = 1 then -1 else 1
  if e = 2 ^ fmt.E - 1 then
    if f = 0 then (if s = 1 then .ninf else .inf) else .nan
  else if e = 0 then
    .num (sign * f * (2 : ℚ) ^ (1 - fmt.bias - fmt.F))
  else
    .num (sign * (2 ^ fmt.F + f) * (2 : ℚ) ^ ((e : ℤ) - fmt.bias - fmt.F))

/-- Round a rational to the nearest integer, ties to even. -/
def roundHalfEven (q : ℚ) : ℤ :=
  let n := ⌊q⌋
  let r := q - n
  if r < 1 / 2 then n
  else if 1 / 2 < r then n + 1
  else if n % 2 = 0 then n else n + 1

/-- Encode a finite rational as an IEEE-754 bit pattern with
round-to-nearest-even (overflow producing an infinity pattern). -/
def fmtEncode (fmt : FloatFmt) (v : ℚ) : Nat :=
  if v = 0 then 0
  else
    let s : Nat := if v < 0 then 1 else 0
    let a := |v|
    let e : ℤ := Int.log 2 a
    if e < 1 - fmt.bias then
      -- subnormal range (the rounded value may reach the least normal)
      let m := (roundHalfEven (a * (2 : ℚ) ^ (fmt.bias - 1 + fmt.F))).toNat
      if m < 2 ^ fmt.F then s * 2 ^ (fmt.E + fmt.F) + m
      else s * 2 ^ (fmt.E + fmt.F) + 2 ^ fmt.F + (m - 2 ^ fmt.F)
    else
      let m := (roundHalfEven (a * (2 : ℚ) ^ ((fmt.F : ℤ) - e))).toNat
      let e' := if m = 2 ^ (fmt.F + 1) then e + 1 else e
      let m' := if m = 2 ^ (fmt.F + 1) then 2 ^ fmt.F else m
      if 2 ^ fmt.E - 1 ≤ e' + fmt.bias then
        s * 2 ^ (fmt.E + fmt.F) + (2 ^ fmt.E - 1) * 2 ^ fmt.F
      else
        s * 2 ^ (fmt.E + fmt.F) + (e' + fmt.bias).toNat * 2 ^ fmt.F +
          (m' - 2 ^ fmt.F)

/-- Encode a JavaScript number (canonical quiet-NaN pattern for `NaN`). -/
def fmtEncodeNum (fmt : FloatFmt) : JsNum → Nat
  | .num q => fmtEncode fmt q
  | .nan => (2 ^ fmt.E - 1) * 2 ^ fmt.F + 2 ^ (fmt.F - 1)
  | .inf => (2 ^ fmt.E - 1) * 2 ^ fmt.F
  | .ninf => 2 ^ (fmt.E + fmt.F) + (2 ^ fmt.E - 1) * 2 ^ fmt.F

/-- A rational is representable in the format when it is a finite
IEEE-754 value there: zero, a subnormal `k·2^(emin−F)` with
`|k| < 2^F`, or a normal `k·2^(e−F)` with `2^F ≤ |k| < 2^(F+1)` and
`emin ≤ e ≤ emax` (`emin = 1 − bias`, `emax = bias`). -/
def FloatFmt.representable (fmt : FloatFmt) (v : ℚ) : Prop :=
  v = 0 ∨
    (∃ k : ℤ, k ≠ 0 ∧ |k| < 2 ^ fmt.F ∧
      v = k * (2 : ℚ) ^ (1 - fmt.bias - fmt.F)) ∨
    (∃ k e : ℤ, 2 ^ fmt.F ≤ |k| ∧ |k| < 2 ^ (fmt.F + 1) ∧
      1 - fmt.bias ≤ e ∧ e ≤ fmt.bias ∧
      v = k * (2 : ℚ) ^ (e - fmt.F))

/-! ## Integer component codec (two's complement DataView primitives) -/

/-- JavaScript `ToIntegerOrInfinity` followed by the int-width clamp:
truncation toward zero, with `NaN` and the infinities mapping to `0`. -/
def jsTruncInt : JsNum → ℤ
  | .num q => if 0 ≤ q then ⌊q⌋ else -⌊-q⌋
  | _ => 0

/-- The stored `width`-bit two's-complement pattern of a value
(`setInt*`/`setUint*` store the value modulo `2^width`). -/
def intStored (width : Nat) (v : JsNum) : Nat :=
  ((jsTruncInt v) % (2 ^ width : ℤ)).toNat

/-! ## `readValue` / `writeValue` (`src/samples.ts`) -/

/-- The float format selected by `readValue`/`writeValue`: `Float32`
DataView access for 32-bit components, `Float64` otherwise. -/
def DatatypeInfo.floatFmt (info : DatatypeInfo) : FloatFmt :=
  if info.bitsPerComponent = 32 then f32Fmt else f64Fmt

/-- The bit pattern a component write stores (the format dispatch of
`writeValue`). -/
def encodeBits (info : DatatypeInfo) (v : JsNum) : Nat :=
  match info.format with
  | .float => fmtEncodeNum info.floatFmt v
  | .int => intStored info.bitsPerComponent v

/-- The value a component read returns from a stored bit pattern (the
format dispatch of `readValue`). -/
def decodeBits (info : DatatypeInfo) (bits : Nat) : JsNum :=
  match info.format with
  | .float => fmtDecode info.floatFmt bits
  | .int =>
    if info.signed then
      if 2 ^ (info.bitsPerComponent - 1) ≤ bits then
        .num ((bits : ℚ) - 2 ^ info.bitsPerComponent)
      else .num bits
    else .num bits

/-- `writeValue`: the bytes a single component write stores, in buffer
order (`info.littleEndian ?? true` selects the byte order). -/
def writeValueBytes (info : DatatypeInfo) (v : JsNum) : List Nat :=
  let le := info.littleEndian.getD true
  let bytes := toLEBytes info.bytesPerComponent (encodeBits info v)
  if le then bytes else bytes.reverse

/-- `readValue`: decode one component from its bytes in buffer order. -/
def readValueBytes (info : DatatypeInfo) (bytes : List Nat) : JsNum :=
  let le := info.littleEndian.getD true
  decodeBits info (fromLEBytes (if le then bytes else bytes.reverse))

/-! ## Sample codec (`readSamples` / `writeSamples`, `src/samples.ts`) -/

/-- Errors thrown by the sample codec: the datatype-parser `Error`, or a
`RangeError` from a `DataView`/typed-array construction or access. -/
inductive JsErr where
  | invalidDatatype : JsErr
  | rangeError : JsErr
deriving DecidableEq, Repr

/-- Result of reading samples (`SampleData` in `src/samples.ts`): the
`real` field is populated for real datatypes and `complex` (interleaved
`[I0, Q0, I1, Q1, …]`) for complex ones. -/
structure SampleData where
  real : Option (List JsNum)
  complex : Option (List JsNum)
  sampleCount : Nat
  datatypeInfo : DatatypeInfo

/-- The populated value sequence of a `SampleData`. -/
def SampleData.values (sd : SampleData) : List JsNum :=
  (sd.complex.orElse fun _ => sd.real).getD []

set_option linter.unusedVariables false in
/-- Split a list into chunks of `w` elements (the tail chunk may be
short; callers pass lists whose length is a multiple of `w`). -/
def chunksOf (w : Nat) (l : List Nat) : List (List Nat) :=
  if hwl : w = 0 ∨ l = [] then []
  else l.take w :: chunksOf w (l.drop w)
termination_by l.length
decreasing_by
  push_neg at hwl
  have hl : 0 < l.length := List.length_pos.mpr hwl.2
  have hw : 0 < w := Nat.pos_of_ne_zero hwl.1
  simp only [List.length_drop]
  omega

/-- Decode every component of a window (the body of the `readSamples`
loops: components are read consecutively, `I` then `Q` for complex). -/
def decodeComponents (info : DatatypeInfo) (window : List Nat) : List JsNum :=
  (chunksOf info.bytesPerComponent window).map (readValueBytes info)

/-- `readSamples(buffer, datatype, {offset, count})` from
`src/samples.ts`.  The arithmetic follows the source: `byteOffset =
offset * bytesPerSample`, `maxSamples = Math.floor((byteLength -
byteOffset) / bytesPerSample)` (computed in ℤ since the JavaScript
subtraction may go negative), then `new DataView(buffer, byteOffset,
sampleCount * bytesPerSample)` — which throws a `RangeError` whenever
`byteOffset` exceeds the buffer length or the view length is negative. -/
def readSamples (buffer : List Nat) (datatype : String)
    (offset count : Option Nat) : Except JsErr SampleData :=
  match parseDatatype datatype with
  | none => .error .invalidDatatype
  | some info =>
    let off := offset.getD 0
    let byteOffset := off * info.bytesPerSample
    let availableBytes : ℤ := (buffer.length : ℤ) - byteOffset
    let maxSamples : ℤ := availableBytes.fdiv info.bytesPerSample
    let sampleCount : ℤ :=
      match count with
      | some c => min (c : ℤ) maxSamples
      | none => maxSamples
    if byteOffset > buffer.length ∨ sampleCount < 0 then .error .rangeError
    else
      let n := sampleCount.toNat
      let window := (buffer.drop byteOffset).take (n * info.bytesPerSample)
      let vals := decodeComponents info window
      if info.isComplex then
        .ok { real := none, complex := some vals, sampleCount := n,
              datatypeInfo := info }
      else
        .ok { real := some vals, complex := none, sampleCount := n,
              datatypeInfo := info }

/-- `writeSamples(samples, datatype)` from `src/samples.ts`: allocates
`bytesPerSample × (length/2 or length)` bytes and writes the components
in order.  For a complex datatype an odd-length input makes the loop
write one component pair past the allocated buffer, so the final
`setX` call throws a `RangeError`. -/
def writeSamples (samples : List JsNum) (datatype : String) :
    Except JsErr (List Nat) :=
  match parseDatatype datatype with
  | none => .error .invalidDatatype
  | some info =>
    if info.isComplex ∧ samples.length % 2 = 1 then .error .rangeError
    else .ok (samples.flatMap (writeValueBytes info))

set_option linter.unusedVariables false in
/-- The generator loop of `streamSamples` (`src/samples.ts`).  The
state is the working `buffer`, the chunks not yet delivered by the
stream reader (`inc`), and the `done` flag.  Each recursion step is
either one `reader.read()` of the inner fill loop, or one
process-and-loop-back step of the outer loop: slice off all whole
samples (`completeSamples = Math.floor(buffer.length /
bytesPerSample)`), keep the remainder, and return to the fill test.
Returns the yielded byte slices and the final buffer.  In the branch
where the buffer is at least `chunkBytes` yet holds no whole sample
(possible only when `chunkBytes < bps`, i.e. `chunkSamples = 0`, a
state unreachable from `streamSamples`, whose JavaScript loops
forever) the loop state is returned directly. -/
def sLoop (bps chunkBytes : Nat) (buffer : List Nat)
    (inc : List (List Nat)) (done : Bool) :
    List (List Nat) × List Nat :=
  if done then ([], buffer)
  else if buffer.length < chunkBytes then
    match inc with
    | [] =>
      if buffer.length = 0 then ([], buffer)
      else
        let cs := buffer.length / bps
        if hcs : 0 < cs then
          let rest := sLoop bps chunkBytes (buffer.drop (cs * bps)) [] true
          (buffer.take (cs * bps) :: rest.1, rest.2)
        else ([], buffer)
    | c :: rest => sLoop bps chunkBytes (buffer ++ c) rest false
  else
    if buffer.length = 0 then ([], buffer)
    else
      let cs := buffer.length / bps
      if hcs : 0 < cs then
        let rest := sLoop bps chunkBytes (buffer.drop (cs * bps)) inc false
        (buffer.take (cs * bps) :: rest.1, rest.2)
      else ([], buffer)
termination_by inc.length + (inc.map List.length).sum + buffer.length
decreasing_by
· have hcsv : 0 < buffer.length / bps := hcs
  have hbps : 0 < bps := by
    rcases Nat.eq_zero_or_pos bps with h | h
    · subst h; simp [Nat.div_zero] at hcsv
    · exact h
  have h1 : 0 < buffer.length / bps * bps := Nat.mul_pos hcsv hbps
  have h2 : buffer.length / bps * bps ≤ buffer.length :=
    Nat.div_mul_le_self _ _
  have h3 : (List.drop (buffer.length / bps * bps) buffer).length
      = buffer.length - buffer.length / bps * bps := by simp
  omega
· simp only [List.length_cons, List.map_cons, List.sum_cons,
    List.length_append]
  omega
· have hcsv : 0 < buffer.length / bps := hcs
  have hbps : 0 < bps := by
    rcases Nat.eq_zero_or_pos bps with h | h
    · subst h; simp [Nat.div_zero] at hcsv
    · exact h
  have h1 : 0 < buffer.length / bps * bps := Nat.mul_pos hcsv hbps
  have h2 : buffer.length / bps * bps ≤ buffer.length :=
    Nat.div_mul_le_self _ _
  have h3 : (List.drop (buffer.length / bps * bps) buffer).length
      = buffer.length - buffer.length / bps * bps := by simp
  omega

/-- `streamSamples(source, datatype, chunkSamples)` from
`src/samples.ts`, with the byte source modelled as the list of chunks
the stream reader delivers.  `none` models the `parseDatatype` throw.
After the loop, the source's trailing remainder block re-checks the
final buffer for whole samples (dead in practice: the loop never exits
with a whole sample buffered). -/
def streamSamples (source : List (List Nat)) (datatype : String)
    (chunkSamples : Nat) : Option (List (Except JsErr SampleData)) :=
  match parseDatatype datatype with
  | none => none
  | some info =>
    let chunkBytes := chunkSamples * info.bytesPerSample
    let r := sLoop info.bytesPerSample chunkBytes [] source false
    let tail : List (List Nat) :=
      if info.bytesPerSample ≤ r.2.length then
        [r.2.take
          (r.2.length / info.bytesPerSample * info.bytesPerSample)]
      else []
    some ((r.1 ++ tail).map fun b => readSamples b datatype none none)

/-- The `sampleCount` carried by a yielded chunk (`0` for a failed
read, which the stream loop never produces). -/
def countOf : Except JsErr SampleData → Nat
  | .ok sd => sd.sampleCount
  | .error _ => 0

/-! ## Regular-expression models (`src/metadata.ts` patterns) -/

/-- Consume exactly `n` decimal digits. -/
def takeDigitsExact : Nat → List Char → Option (List Char)
  | 0, cs => some cs
  | n + 1, c :: cs => if c.isDigit then takeDigitsExact n cs else none
  | _ + 1, [] => none

/-- Consume one expected character. -/
def expectCharL (c : Char) : List Char → Option (List Char)
  | d :: cs => if d = c then some cs else none
  | [] => none

/-- Consume `\d+` (greedy, at least one digit). -/
def takeDigitsPlus : List Char → Option (List Char)
  | c :: cs => if c.isDigit then some (cs.dropWhile Char.isDigit) else none
  | [] => none

/-- A case-insensitive hexadecimal digit. -/
def isHexDigit (c : Char) : Bool :=
  c.isDigit || ('a' ≤ c && c ≤ 'f') || ('A' ≤ c && c ≤ 'F')

/-- Consume exactly `n` hex digits. -/
def takeHexExact : Nat → List Char → Option (List Char)
  | 0, cs => some cs
  | n + 1, c :: cs => if isHexDigit c then takeHexExact n cs else none
  | _ + 1, [] => none

/-- `ISO8601_PATTERN = /^\d{4}-\d{2}-\d{2}T\d{2}:\d{2}:\d{2}(\.\d+)?Z$/`. -/
def matchISO8601 (s : String) : Bool :=
  (do
    let r ← takeDigitsExact 4 s.data
    let r ← expectCharL '-' r
    let r ← takeDigitsExact 2 r
    let r ← expectCharL '-' r
    let r ← takeDigitsExact 2 r
    let r ← expectCharL 'T' r
    let r ← takeDigitsExact 2 r
    let r ← expectCharL ':' r
    let r ← takeDigitsExact 2 r
    let r ← expectCharL ':' r
    let r ← takeDigitsExact 2 r
    let r ← match r with
      | '.' :: r2 => takeDigitsPlus r2
      | _ => some r
    let r ← expectCharL 'Z' r
    if r.isEmpty then some () else none) |>.isSome

/-- `UUID_PATTERN` (8-4-4-4-12 hex groups, case-insensitive). -/
def matchUUID (s : String) : Bool :=
  (do
    let r ← takeHexExact 8 s.data
    let r ← expectCharL '-' r
    let r ← takeHexExact 4 r
    let r ← expectCharL '-' r
    let r ← takeHexExact 4 r
    let r ← expectCharL '-' r
    let r ← takeHexExact 4 r
    let r ← expectCharL '-' r
    let r ← takeHexExact 12 r
    if r.isEmpty then some () else none) |>.isSome

/-- `VERSION_PATTERN = /^\d+\.\d+\.\d+/` (prefix match). -/
def matchVersionPrefix (s : String) : Bool :=
  (do
    let r ← takeDigitsPlus s.data
    let r ← expectCharL '.' r
    let r ← takeDigitsPlus r
    let r ← expectCharL '.' r
    let _ ← takeDigitsPlus r
    some ()) |>.isSome

/-! ## Metadata model (`src/metadata.ts`, class `SigMFRecording`) -/

/-- Current SigMF specification version supported by the library. -/
def SIGMF_VERSION : String := "1.2.0"

/-- A validation error (`ValidationError` in `src/types.ts`); `value` is
`none` when the source does not attach one (`undefined`). -/
structure ValidationError where
  path : String
  message : String
  value : Option JsVal

/-- A validation result (`ValidationResult` in `src/types.ts`). -/
structure ValidationResult where
  valid : Bool
  errors : List ValidationError

/-- The `SigMFRecording` state: the open `global` map and the capture
and annotation sequences (entries are arbitrary JavaScript values,
normally objects). -/
structure SigMFRecording where
  global : List (String × JsVal)
  captures : List JsVal
  annotations : List JsVal

/-- JavaScript strict equality on modelled values: value equality for
primitives; distinct object/array literals compare unequal (reference
semantics — the functional model cannot express aliasing here, and no
caller below compares shared references). -/
def jsStrictEq : JsVal → JsVal → Bool
  | .num a, .num b => a == b
  | .str a, .str b => a == b
  | .bool a, .bool b => a == b
  | .null, .null => true
  | _, _ => false

/-- Strict equality on possibly-`undefined` values
(`undefined === undefined` is `true`). -/
def optStrictEq : Option JsVal → Option JsVal → Bool
  | none, none => true
  | some a, some b => jsStrictEq a b
  | _, _ => false

/-- JavaScript `ToNumber` on modelled values, `none` for `NaN`
(string-to-number coercion is approximated by `NaN`; no caller below
reaches it with a numeric string). -/
def jsToNumber : JsVal → Option ℚ
  | .num q => some q
  | .bool b => some (if b then 1 else 0)
  | .null => some 0
  | _ => none

/-- JavaScript `a < b` on modelled values (`false` when either side
coerces to `NaN`). -/
def jsLtVal (a b : JsVal) : Bool :=
  match jsToNumber a, jsToNumber b with
  | some x, some y => x < y
  | _, _ => false

/-- `Number.isInteger` on a modelled value. -/
def JsVal.isInt : JsVal → Bool
  | .num q => q.den == 1
  | _ => false

/-- Options of the `SigMFRecording` constructor. -/
structure RecordingOptions where
  datatype : String
  version : Option String := none
  sampleRate : Option ℚ := none
  author : Option String := none
  description : Option String := none
  hw : Option String := none
  license : Option String := none
  numChannels : Option ℚ := none
  recorder : Option String := none
  geolocation : Option JsVal := none
  extensions : Option (List JsVal) := none
  dataset : Option String := none
  trailingBytes : Option ℚ := none
  metadataOnly : Option Bool := none

/-- Conditionally assign `g[k] = v` when the option is supplied. -/
def setOptField (g : List (String × JsVal)) (k : String)
    (v : Option JsVal) : List (String × JsVal) :=
  match v with
  | some x => jsSet g k x
  | none => g

/-- The `SigMFRecording` constructor: populates `global` with
`core:datatype`, `core:version` (defaulting to `SIGMF_VERSION`) and the
explicitly supplied options, and starts with empty `captures` and
`annotations`. -/
def SigMFRecording.mk' (o : RecordingOptions) : SigMFRecording :=
  let g := [("core:datatype", JsVal.str o.datatype),
            ("core:version", JsVal.str (o.version.getD SIGMF_VERSION))]
  let g := setOptField g "core:sample_rate" (o.sampleRate.map JsVal.num)
  let g := setOptField g "core:author" (o.author.map JsVal.str)
  let g := setOptField g "core:description" (o.description.map JsVal.str)
  let g := setOptField g "core:hw" (o.hw.map JsVal.str)
  let g := setOptField g "core:license" (o.license.map JsVal.str)
  let g := setOptField g "core:num_channels" (o.numChannels.map JsVal.num)
  let g := setOptField g "core:recorder" (o.recorder.map JsVal.str)
  let g := setOptField g "core:geolocation" o.geolocation
  let g := setOptField g "core:extensions" (o.extensions.map JsVal.arr)
  let g := setOptField g "core:dataset" (o.dataset.map JsVal.str)
  let g := setOptField g "core:trailing_bytes" (o.trailingBytes.map JsVal.num)
  let g := setOptField g "core:metadata_only" (o.metadataOnly.map JsVal.bool)
  { global := g, captures := [], annotations := [] }

/-- Arguments of `addCapture`. -/
structure CaptureArgs where
  sampleStart : ℚ
  datetime : Option String := none
  frequency : Option ℚ := none
  globalIndex : Option ℚ := none
  headerBytes : Option ℚ := none
  geolocation : Option JsVal := none

/-- The capture object `addCapture` builds. -/
def captureObjOf (c : CaptureArgs) : JsVal :=
  .obj ([("core:sample_start", JsVal.num c.sampleStart)]
    ++ (match c.datetime with
        | some d => [("core:datetime", JsVal.str d)] | none => [])
    ++ (match c.frequency with
        | some f => [("core:frequency", JsVal.num f)] | none => [])
    ++ (match c.globalIndex with
        | some g => [("core:global_index", JsVal.num g)] | none => [])
    ++ (match c.headerBytes with
        | some h => [("core:header_bytes", JsVal.num h)] | none => [])
    ++ (match c.geolocation with
        | some g => [("core:geolocation", g)] | none => []))

/-- Arguments of `addAnnotation`. -/
structure AnnotationArgs where
  sampleStart : ℚ
  sampleCount : Option ℚ := none
  freqLowerEdge : Option ℚ := none
  freqUpperEdge : Option ℚ := none
  label : Option String := none
  comment : Option String := none
  generator : Option String := none
  uuid : Option String := none

/-- The annotation object `addAnnotation` builds. -/
def annotationObjOf (a : AnnotationArgs) : JsVal :=
  .obj ([("core:sample_start", JsVal.num a.sampleStart)]
    ++ (match a.sampleCount with
        | some v => [("core:sample_count", JsVal.num v)] | none => [])
    ++ (match a.freqLowerEdge with
        | some v => [("core:freq_lower_edge", JsVal.num v)] | none => [])
    ++ (match a.freqUpperEdge with
        | some v => [("core:freq_upper_edge", JsVal.num v)] | none => [])
    ++ (match a.label with
        | some v => [("core:label", JsVal.str v)] | none => [])
    ++ (match a.comment with
        | some v => [("core:comment", JsVal.str v)] | none => [])
    ++ (match a.generator with
        | some v => [("core:generator", JsVal.str v)] | none => [])
    ++ (match a.uuid with
        | some v => [("core:uuid", JsVal.str v)] | none => []))

/-- The sort key `a['core:sample_start']` used by the
`(a, b) => a[...] - b[...]` comparator (numeric on every object the
claims reach; the comparator is not a consistent comparator for
non-numeric keys, which no `addCapture`/`addAnnotation` history
produces). -/
def sampleStartKey (o : JsVal) : ℚ :=
  match o.getProp "core:sample_start" with
  | some (.num q) => q
  | _ => 0

/-- Stable insertion of `x` after all entries with key `≤ key x`. -/
def sInsertBy (key : JsVal → ℚ) (x : JsVal) : List JsVal → List JsVal
  | [] => [x]
  | y :: ys => if key x < key y then x :: y :: ys else y :: sInsertBy key x ys

/-- `Array.prototype.sort` with an ascending numeric-key comparator:
modelled as the (unique) stable sort by the key. -/
def stableSortBy (key : JsVal → ℚ) (l : List JsVal) : List JsVal :=
  l.foldl (fun acc x => sInsertBy key x acc) []

/-- `sortCaptures`: re-sort captures by `core:sample_start` ascending. -/
def SigMFRecording.sortCaptures (r : SigMFRecording) : SigMFRecording :=
  { r with captures := stableSortBy sampleStartKey r.captures }

/-- `sortAnnotations`. -/
def SigMFRecording.sortAnnotations (r : SigMFRecording) : SigMFRecording :=
  { r with annotations := stableSortBy sampleStartKey r.annotations }

/-- `addCapture`: push the normalized capture object, then sort. -/
def SigMFRecording.addCapture (r : SigMFRecording) (c : CaptureArgs) :
    SigMFRecording :=
  SigMFRecording.sortCaptures
    { r with captures := r.captures ++ [captureObjOf c] }

/-- `addAnnotation`: push the normalized annotation object, then sort. -/
def SigMFRecording.addAnnotation (r : SigMFRecording) (a : AnnotationArgs) :
    SigMFRecording :=
  SigMFRecording.sortAnnotations
    { r with annotations := r.annotations ++ [annotationObjOf a] }

/-! ## Validator (`src/metadata.ts`, `validate` and helpers) -/

/-- `RegExp.test` as applied to a metadata value: only strings can
match (non-string values coerce to strings that never match the
patterns used here). -/
def testOnVal (pat : String → Bool) : JsVal → Bool
  | .str s => pat s
  | _ => false

/-- `validateGeoJSON` from `src/metadata.ts`. -/
def validateGeoJSON (point : JsVal) (path : String) :
    List ValidationError :=
  match point with
  | .obj _ | .arr _ =>
    let typeErr :=
      if optStrictEq (point.getProp "type") (some (.str "Point")) then []
      else [⟨path ++ ".type", "must be 'Point'", point.getProp "type"⟩]
    let coordErrs :=
      match point.getProp "coordinates" with
      | some (.arr coords) =>
        if coords.length < 2 ∨ coords.length > 3 then
          [⟨path ++ ".coordinates",
            "must have 2 or 3 elements [lon, lat] or [lon, lat, alt]",
            some (.arr coords)⟩]
        else
          let lon := coords.get? 0
          let lat := coords.get? 1
          let alt := coords.get? 2
          (match lon with
           | some (.num q) =>
             if q < -180 ∨ q > 180 then
               [⟨path ++ ".coordinates[0]",
                 "longitude must be between -180 and 180", lon⟩]
             else []
           | _ => [⟨path ++ ".coordinates[0]",
                    "longitude must be between -180 and 180", lon⟩])
          ++ (match lat with
           | some (.num q) =>
             if q < -90 ∨ q > 90 then
               [⟨path ++ ".coordinates[1]",
                 "latitude must be between -90 and 90", lat⟩]
             else []
           | _ => [⟨path ++ ".coordinates[1]",
                    "latitude must be between -90 and 90", lat⟩])
          ++ (match alt with
           | some (.num _) | none => []
           | some _ => [⟨path ++ ".coordinates[2]",
                         "altitude must be a number", alt⟩])
      | other =>
        [⟨path ++ ".coordinates", "must be an array", other⟩]
    typeErr ++ coordErrs
  | _ => [⟨path, "must be an object", some point⟩]

/-- `validateGlobal` from `src/metadata.ts`. -/
def SigMFRecording.validateGlobal (r : SigMFRecording) :
    List ValidationError :=
  let g := r.global
  let datatypeErrs :=
    match jsGet g "core:datatype" with
    | some v =>
      if v.truthy then
        if testOnVal (fun s => (matchDatatypePattern s).isSome) v then []
        else [⟨"global.core:datatype", "is not a valid datatype", some v⟩]
      else [⟨"global.core:datatype", "is required", none⟩]
    | none => [⟨"global.core:datatype", "is required", none⟩]
  let versionErrs :=
    match jsGet g "core:version" with
    | some v =>
      if v.truthy then
        if testOnVal matchVersionPrefix v then []
        else [⟨"global.core:version", "must match pattern X.Y.Z", some v⟩]
      else [⟨"global.core:version", "is required", none⟩]
    | none => [⟨"global.core:version", "is required", none⟩]
  let sampleRateErrs :=
    match jsGet g "core:sample_rate" with
    | some v =>
      match v with
      | .num q =>
        if q ≤ 0 then
          [⟨"global.core:sample_rate", "must be a positive number", some v⟩]
        else if q > 1000000000000 then
          [⟨"global.core:sample_rate", "must be ≤ 1000000000000", some v⟩]
        else []
      | _ => [⟨"global.core:sample_rate", "must be a positive number", some v⟩]
    | none => []
  let numChannelsErrs :=
    match jsGet g "core:num_channels" with
    | some v =>
      if v.isNumber && v.isInt &&
          (match v with | .num q => decide (1 ≤ q) | _ => false) then []
      else [⟨"global.core:num_channels", "must be a positive integer",
             some v⟩]
    | none => []
  let offsetErrs :=
    match jsGet g "core:offset" with
    | some v =>
      if v.isNumber && v.isInt &&
          (match v with | .num q => decide (0 ≤ q) | _ => false) then []
      else [⟨"global.core:offset", "must be a non-negative integer",
             some v⟩]
    | none => []
  let sha512Errs :=
    match jsGet g "core:sha512" with
    | some v =>
      match v with
      | .str s =>
        if s.length ≠ 128 then
          [⟨"global.core:sha512", "must be 128 hex characters", some v⟩]
        else if s.data.all isHexDigit then []
        else [⟨"global.core:sha512", "must contain only hex characters",
               some v⟩]
      | _ => [⟨"global.core:sha512", "must be 128 hex characters", some v⟩]
    | none => []
  let geoErrs :=
    match jsGet g "core:geolocation" with
    | some v => validateGeoJSON v "global.core:geolocation"
    | none => []
  datatypeErrs ++ versionErrs ++ sampleRateErrs ++ numChannelsErrs ++
    offsetErrs ++ sha512Errs ++ geoErrs

/-- `sample_start` checks shared by captures and annotations: required,
non-negative integer, and not below the previous entry
(`sortedMsg` names the owning sequence); returns the errors and the new
`lastSampleStart`. -/
def sampleStartErrors (path : String) (sortedMsg : String) (last : JsVal)
    (entry : JsVal) : List ValidationError × JsVal :=
  match entry.getProp "core:sample_start" with
  | none => ([⟨path ++ ".core:sample_start", "is required", none⟩], last)
  | some ss =>
    let errs :=
      if ss.isNumber && ss.isInt &&
          (match ss with | .num q => decide (0 ≤ q) | _ => false) then
        if jsLtVal ss last then
          [⟨path ++ ".core:sample_start", sortedMsg, some ss⟩]
        else []
      else
        [⟨path ++ ".core:sample_start", "must be a non-negative integer",
          some ss⟩]
    (errs, ss)

/-- Per-capture validation (one iteration of `validateCaptures`). -/
def captureEntryErrors (i : Nat) (last : JsVal) (c : JsVal) :
    List ValidationError × JsVal :=
  let path := "captures[" ++ Nat.repr i ++ "]"
  let (ssErrs, last') := sampleStartErrors path
    "captures must be sorted by sample_start ascending" last c
  let dtErrs :=
    match c.getProp "core:datetime" with
    | some v =>
      if testOnVal matchISO8601 v then []
      else [⟨path ++ ".core:datetime",
             "must be ISO-8601 UTC format (YYYY-MM-DDTHH:MM:SS.SSSZ)",
             some v⟩]
    | none => []
  let freqErrs :=
    match c.getProp "core:frequency" with
    | some v =>
      match v with
      | .num q =>
        if |q| > 1000000000000 then
          [⟨path ++ ".core:frequency",
            "must be a number between -1000000000000 and 1000000000000",
            some v⟩]
        else []
      | _ => [⟨path ++ ".core:frequency",
               "must be a number between -1000000000000 and 1000000000000",
               some v⟩]
    | none => []
  let geoErrs :=
    match c.getProp "core:geolocation" with
    | some v => validateGeoJSON v (path ++ ".core:geolocation")
    | none => []
  (ssErrs ++ dtErrs ++ freqErrs ++ geoErrs, last')

/-- `validateCaptures` as a fold over the capture sequence. -/
def validateCapturesGo : Nat → JsVal → List JsVal → List ValidationError
  | _, _, [] => []
  | i, last, c :: rest =>
    let (es, last') := captureEntryErrors i last c
    es ++ validateCapturesGo (i + 1) last' rest

def SigMFRecording.validateCaptures (r : SigMFRecording) :
    List ValidationError :=
  validateCapturesGo 0 (.num (-1)) r.captures

/-- The paired-frequency-edge rule of `validateAnnotations`: both edges
present or both absent; when both present, each numeric and
`lower ≤ upper`. -/
def freqEdgeRuleErrors (i : Nat) (a : JsVal) : List ValidationError :=
  let path := "annotations[" ++ Nat.repr i ++ "]"
  let lower? := a.getProp "core:freq_lower_edge"
  let upper? := a.getProp "core:freq_upper_edge"
  let mismatchErrs :=
    if lower?.isSome ≠ upper?.isSome then
      [⟨path,
        "core:freq_lower_edge and core:freq_upper_edge must both be present or absent",
        none⟩]
    else []
  let pairErrs :=
    match lower?, upper? with
    | some lower, some upper =>
      (if lower.isNumber then []
       else [⟨path ++ ".core:freq_lower_edge", "must be a number",
              some lower⟩])
      ++ (if upper.isNumber then []
          else [⟨path ++ ".core:freq_upper_edge", "must be a number",
                 some upper⟩])
      ++ (match lower, upper with
          | .num ql, .num qu =>
            if ql > qu then
              [⟨path, "core:freq_lower_edge must be ≤ core:freq_upper_edge",
                some (.obj [("lower", lower), ("upper", upper)])⟩]
            else []
          | _, _ => [])
    | _, _ => []
  mismatchErrs ++ pairErrs

/-- Per-annotation validation (one iteration of
`validateAnnotations`). -/
def annotationEntryErrors (i : Nat) (last : JsVal) (a : JsVal) :
    List ValidationError × JsVal :=
  let path := "annotations[" ++ Nat.repr i ++ "]"
  let (ssErrs, last') := sampleStartErrors path
    "annotations must be sorted by sample_start ascending" last a
  let countErrs :=
    match a.getProp "core:sample_count" with
    | some v =>
      if v.isNumber && v.isInt &&
          (match v with | .num q => decide (0 ≤ q) | _ => false) then []
      else [⟨path ++ ".core:sample_count",
             "must be a non-negative integer", some v⟩]
    | none => []
  let uuidErrs :=
    match a.getProp "core:uuid" with
    | some v =>
      if testOnVal matchUUID v then []
      else [⟨path ++ ".core:uuid", "must be a valid UUID", some v⟩]
    | none => []
  (ssErrs ++ countErrs ++ freqEdgeRuleErrors i a ++ uuidErrs, last')

/-- `validateAnnotations` as a fold over the annotation sequence. -/
def validateAnnotationsGo : Nat → JsVal → List JsVal → List ValidationError
  | _, _, [] => []
  | i, last, a :: rest =>
    let (es, last') := annotationEntryErrors i last a
    es ++ validateAnnotationsGo (i + 1) last' rest

def SigMFRecording.validateAnnotations (r : SigMFRecording) :
    List ValidationError :=
  validateAnnotationsGo 0 (.num (-1)) r.annotations

/-- `validate`: global, then captures, then annotations; never throws. -/
def SigMFRecording.validate (r : SigMFRecording) : ValidationResult :=
  let errors := r.validateGlobal ++ r.validateCaptures ++
    r.validateAnnotations
  { valid := errors.length == 0, errors := errors }

/-! ## `fromJSON` (`src/metadata.ts`, `SigMFRecording.fromJSON`) -/

/-- Errors thrown by `fromJSON`. -/
inductive FromJsonError where
  | missingGlobal : FromJsonError
  | missingField : String → FromJsonError
deriving DecidableEq, Repr

/-- The object spread `{...v}`: key-value pairs of an object; an array
spreads to its index keys; primitives contribute nothing (unreachable
behind the object check). -/
def spreadToPairs : JsVal → List (String × JsVal)
  | .obj kvs => kvs
  | .arr l => (List.range l.length).zip l |>.map fun p => (Nat.repr p.1, p.2)
  | _ => []

/-- `fromJSON` on an already-parsed value (the string overload runs
`JSON.parse` first): `missingGlobal` when `global` is absent, falsy or
not of object type; `missingField` when `core:datatype` or
`core:version` is absent **or falsy** in `global`; captures and
annotations default to `[]` unless the input field is an array. -/
def SigMFRecording.fromJSON (input : JsVal) :
    Except FromJsonError SigMFRecording :=
  match input.getProp "global" with
  | none => .error .missingGlobal
  | some g =>
    if ¬(g.truthy ∧ g.isObjectTypeof) then .error .missingGlobal
    else if ((g.getProp "core:datatype").map JsVal.truthy).getD false
        = false then
      .error (.missingField "core:datatype")
    else if ((g.getProp "core:version").map JsVal.truthy).getD false
        = false then
      .error (.missingField "core:version")
    else
      .ok {
        global := spreadToPairs g
        captures :=
          match input.getProp "captures" with
          | some (.arr l) => l
          | _ => []
        annotations :=
          match input.getProp "annotations" with
          | some (.arr l) => l
          | _ => []
      }

/-! ## `addExtension` (`src/metadata.ts`) -/

/-- `addExtension`: initialise `core:extensions` to `[]` when absent or
falsy, then append the declaration unless one with the same `name` is
already present (`.find(e => e.name === extension.name)`).  `none`
models the `TypeError` of calling `.find` on a truthy non-array. -/
def SigMFRecording.addExtension (r : SigMFRecording) (ext : JsVal) :
    Option SigMFRecording :=
  let g0 :=
    match jsGet r.global "core:extensions" with
    | some v =>
      if v.truthy then r.global
      else jsSet r.global "core:extensions" (.arr [])
    | none => jsSet r.global "core:extensions" (.arr [])
  match jsGet g0 "core:extensions" with
  | some (.arr l) =>
    if (l.find? fun e =>
        optStrictEq (e.getProp "name") (ext.getProp "name")).isSome then
      some { r with global := g0 }
    else
      some { r with global := jsSet g0 "core:extensions" (.arr (l ++ [ext])) }
  | _ => none

/-- A mutation step of the C3 claim: one `addCapture` or
`addAnnotation` call. -/
inductive RecOp where
  | cap : CaptureArgs → RecOp
  | ann : AnnotationArgs → RecOp

/-- Apply one mutation step. -/
def applyOp (r : SigMFRecording) : RecOp → SigMFRecording
  | .cap c => r.addCapture c
  | .ann a => SigMFRecording.addAnnotation r a

/-- A sequence is sorted non-decreasing by `core:sample_start`. -/
def keySorted (l : List JsVal) : Prop :=
  l.Pairwise (fun a b => sampleStartKey a ≤ sampleStartKey b)

/-- A value is representable in the component type of a descriptor:
for float formats, a finite IEEE-754 value of the selected format; for
integer formats, an integer within the signed/unsigned width range. -/
def representableIn (info : DatatypeInfo) (v : JsNum) : Prop :=
  match info.format with
  | .float => ∃ q : ℚ, v = .num q ∧ info.floatFmt.representable q
  | .int => ∃ n : ℤ, v = .num (n : ℚ) ∧
      (if info.signed then
        -(2 ^ (info.bitsPerComponent - 1) : ℤ) ≤ n ∧
          n < 2 ^ (info.bitsPerComponent - 1)
      else 0 ≤ n ∧ n < 2 ^ info.bitsPerComponent)

/-! ## `addExtension` histories -/

/-- Apply a sequence of `addExtension` calls in order, propagating the
`TypeError` outcome (`none`). -/
def addExtensions (r : SigMFRecording) (exts : List JsVal) :
    Option SigMFRecording :=
  exts.foldlM SigMFRecording.addExtension r

/-- No two entries of the declared `core:extensions` array answer `true`
to the `e.name === extension.name` test used by `addExtension`. -/
def extNamesDistinct (r : SigMFRecording) : Prop :=
  ∀ l, jsGet r.global "core:extensions" = some (.arr l) →
    l.Pairwise (fun a b =>
      optStrictEq (a.getProp "name") (b.getProp "name") = false)

/-! ## Heap model for `toMetadata` (`src/metadata.ts`)

`toMetadata()` returns a fresh document whose three containers are
built by spread: the top-level `global` pairs and the
capture/annotation array elements are copied, but the values they hold
are JavaScript references, so the heap objects behind them stay
shared.  The heap is modelled explicitly as a list of objects indexed
by allocation address. -/

/-- A heap-aware JavaScript value: a primitive, or a reference to a
heap-allocated object. -/
inductive HVal where
  | num : ℚ → HVal
  | str : String → HVal
  | bool : Bool → HVal
  | null : HVal
  | ref : Nat → HVal
deriving DecidableEq

/-- A heap object: a plain object (property list) or an array. -/
inductive HObj where
  | obj : List (String × HVal) → HObj
  | arr : List HVal → HObj
deriving DecidableEq

/-- The heap: objects indexed by allocation address. -/
abbrev Store := List HObj

/-- Property lookup on a heap object's property list. -/
def hGet (m : List (String × HVal)) (k : String) : Option HVal :=
  (m.find? (fun kv => kv.1 == k)).map (·.2)

/-- Property assignment on a property list (replace in place when the
key exists, else append), as in `jsSet`. -/
def hSet (m : List (String × HVal)) (k : String) (v : HVal) :
    List (String × HVal) :=
  if m.any (fun kv => kv.1 == k) then
    m.map (fun kv => if kv.1 == k then (k, v) else kv)
  else m ++ [(k, v)]

/-- The mutable state of a `SigMFRecording`: its three container
fields.  Capture/annotation entries and nested global values are
references into the heap. -/
structure RecordingH where
  global : List (String × HVal)
  captures : List HVal
  annotations : List HVal
deriving DecidableEq

/-- The plain document returned by `toMetadata()`. -/
structure MetadataSnapshot where
  global : List (String × HVal)
  captures : List HVal
  annotations : List HVal
deriving DecidableEq

/-- `toMetadata()`: the spreads copy the top-level pairs and the
capture and annotation references into fresh containers; the heap
objects they point to are not copied. -/
def toMetadataH (r : RecordingH) : MetadataSnapshot :=
  ⟨r.global, r.captures, r.annotations⟩

/-- Observe `snapshot.captures[i][k]` by dereferencing the capture
entry through the heap. -/
def readCaptureField (s : Store) (m : MetadataSnapshot) (i : Nat)
    (k : String) : Option HVal :=
  match m.captures.get? i with
  | some (.ref a) =>
    match s.get? a with
    | some (.obj pairs) => hGet pairs k
    | _ => none
  | _ => none

/-- Interior mutation `recording.captures[i][k] = v`: updates the heap
object in place, leaving the recording's containers untouched. -/
def setCaptureFieldH (s : Store) (r : RecordingH) (i : Nat) (k : String)
    (v : HVal) : Store :=
  match r.captures.get? i with
  | some (.ref a) =>
    match s.get? a with
    | some (.obj pairs) => s.set a (.obj (hSet pairs k v))
    | _ => s
  | _ => s

/-- A structural mutation of the recording: push a freshly allocated
capture object, or assign a top-level global key. -/
inductive HOp where
  | addCap : List (String × HVal) → HOp
  | setGlobal : String → HVal → HOp

/-- Apply a structural mutation: `addCap` allocates the capture object
at the end of the heap and pushes a reference onto `captures`;
`setGlobal` assigns a top-level key of `global`. -/
def applyHOp : Store × RecordingH → HOp → Store × RecordingH
  | (s, r), .addCap pairs =>
    (s ++ [.obj pairs],
      { r with captures := r.captures ++ [.ref s.length] })
  | (s, r), .setGlobal k v => (s, { r with global := hSet r.global k v })

/-- Apply a sequence of structural mutations. -/
def applyHOps (sr : Store × RecordingH) (ops : List HOp) :
    Store × RecordingH :=
  ops.foldl applyHOp sr

/-- Every reference in the list points to an existing heap address. -/
def validRefsB (s : Store) (l : List HVal) : Bool :=
  l.all fun v => match v with
    | .ref a => decide (a < s.length)
    | _ => true

/-! ## JSON model (`JSON.stringify(·, null, 2)` and `JSON.parse`)

`createArchive` serialises each recording's metadata with
`JSON.stringify(metadata, null, 2)` and `readArchive` parses it back
with `JSON.parse`.  Both are host built-ins; they are modelled here on
the JSON fragment the archive code can round-trip exactly: numbers
that are integers below `10^21` (beyond which `JSON.stringify` switches
to exponent notation), strings of printable ASCII without `"` or `\`
(no escape sequences), and objects with pairwise-distinct keys (a
JavaScript object cannot carry duplicate keys); the serialiser returns
`none` outside this fragment.  The parser follows `JSON.parse` on the
same fragment, building object properties left to right with
last-key-wins assignment. -/

/-- JSON whitespace. -/
def isWsC (c : Char) : Bool :=
  c == ' ' || c == '\n' || c == '\t' || c == '\r'

/-- Skip leading whitespace. -/
def skipWs : List Char → List Char
  | [] => []
  | c :: cs => if isWsC c then skipWs cs else c :: cs

/-- Decimal digits of `n`, most significant first (`fuel` bounds the
digit count; callers pass `n + 1`). -/
def natCharsAux : Nat → Nat → List Char
  | 0, _ => []
  | fuel + 1, n =>
    if n < 10 then [Char.ofNat (48 + n)]
    else natCharsAux fuel (n / 10) ++ [Char.ofNat (48 + n % 10)]

/-- Decimal digits of `n`. -/
def natChars (n : Nat) : List Char := natCharsAux (n + 1) n

/-- Decimal rendering of an integer. -/
def intChars (n : ℤ) : List Char :=
  if n < 0 then '-' :: natChars n.natAbs else natChars n.toNat

/-- A string the serialiser emits verbatim: printable ASCII without
quote or backslash. -/
def strOkB (s : String) : Bool :=
  s.data.all fun c =>
    decide (31 < c.toNat) && decide (c.toNat < 128)
      && !(c == '"') && !(c == '\\')

/-- The indentation of nesting depth `d` under gap `"  "`. -/
def wsIndent (d : Nat) : List Char := List.replicate (2 * d) ' '

/-- The rendering of an object key including the `": "` separator. -/
def keyPart (k : String) : List Char :=
  '"' :: (k.data ++ ['"', ':', ' '])

/-- `JSON.stringify(v, null, 2)` at nesting depth `d`, with recursion
fuel (callers pass more than the value's depth).  `none` when the value
leaves the modelled fragment. -/
def printJF : Nat → JsVal → Nat → Option (List Char)
  | 0, _, _ => none
  | fuel + 1, v, d =>
    match v with
    | .null => some ['n', 'u', 'l', 'l']
    | .bool true => some ['t', 'r', 'u', 'e']
    | .bool false => some ['f', 'a', 'l', 's', 'e']
    | .num q =>
      if q.den = 1 ∧ -(10 ^ 21 : ℤ) < q.num ∧ q.num < 10 ^ 21 then
        some (intChars q.num)
      else none
    | .str s => if strOkB s then some ('"' :: (s.data ++ ['"'])) else none
    | .arr [] => some ['[', ']']
    | .arr (v0 :: vs) => do
      let it0 ← printJF fuel v0 (d + 1)
      let its ← vs.mapM fun w => printJF fuel w (d + 1)
      pure ('[' :: '\n' :: (wsIndent (d + 1) ++ it0
        ++ (its.flatMap fun it => ',' :: '\n' :: (wsIndent (d + 1) ++ it))
        ++ '\n' :: (wsIndent d ++ [']'])))
    | .obj [] => some ['{', '}']
    | .obj (kv0 :: kvs) =>
      if ((kv0 :: kvs).map Prod.fst).Nodup ∧ strOkB kv0.1
          ∧ (kvs.all fun kv => strOkB kv.1) then do
        let it0 ← printJF fuel kv0.2 (d + 1)
        let its ← kvs.mapM fun kv =>
          (printJF fuel kv.2 (d + 1)).map ((kv.1, ·))
        pure ('{' :: '\n' :: (wsIndent (d + 1) ++ keyPart kv0.1 ++ it0
          ++ (its.flatMap fun p =>
            ',' :: '\n' :: (wsIndent (d + 1) ++ keyPart p.1 ++ p.2))
          ++ '\n' :: (wsIndent d ++ ['}'])))
      else none

/-- `JSON.stringify(v, null, 2)`.  The fuel `2 ^ 64` exceeds the
nesting depth of any value a JavaScript engine can build (the engine's
stack overflows orders of magnitude earlier). -/
def jsonStringify (v : JsVal) : Option (List Char) :=
  printJF (2 ^ 64) v 0

/-- Body of a JSON string after the opening quote: characters up to
the closing quote (`none` on escapes or control characters, outside
the modelled fragment). -/
def parseStringBody : List Char → Option (List Char × List Char)
  | [] => none
  | c :: cs =>
    if c = '"' then some ([], cs)
    else if c = '\\' ∨ c.toNat < 32 then none
    else (parseStringBody cs).map fun p => (c :: p.1, p.2)

/-- Consume a maximal run of decimal digits, folding into `acc`. -/
def takeDigits : List Char → Nat → Nat × List Char
  | [], acc => (acc, [])
  | c :: cs, acc =>
    match charDigit? c with
    | some d => takeDigits cs (acc * 10 + d)
    | none => (acc, c :: cs)

/-- Drop an expected literal prefix. -/
def dropPrefix? : List Char → List Char → Option (List Char)
  | [], s => some s
  | _ :: _, [] => none
  | p :: ps, c :: cs => if c = p then dropPrefix? ps cs else none

/-- Parser mode: a top-level value, or the continuation of an array or
object after its first element. -/
inductive PMode where
  | top : PMode
  | arrRest : List JsVal → PMode
  | objRest : List (String × JsVal) → PMode

/-- `JSON.parse` on the modelled fragment, by recursion on fuel (one
unit per grammar step; the fuel exceeds the input length at every call
from `jsonParse`).  Object properties accumulate with JavaScript
last-key-wins assignment (`jsSet`). -/
def parseJM : Nat → PMode → List Char → Option (JsVal × List Char)
  | 0, _, _ => none
  | fuel + 1, .top, s =>
    match skipWs s with
    | [] => none
    | c :: r =>
      if c = 'n' then
        (dropPrefix? ['u', 'l', 'l'] r).map fun r2 => (.null, r2)
      else if c = 't' then
        (dropPrefix? ['r', 'u', 'e'] r).map fun r2 => (.bool true, r2)
      else if c = 'f' then
        (dropPrefix? ['a', 'l', 's', 'e'] r).map fun r2 =>
          (.bool false, r2)
      else if c = '"' then
        (parseStringBody r).map fun p => (.str ⟨p.1⟩, p.2)
      else if c = '[' then
        let t := skipWs r
        if t.head? = some ']' then some (.arr [], t.tail)
        else do
          let (v, r2) ← parseJM fuel .top r
          parseJM fuel (.arrRest [v]) r2
      else if c = '{' then
        let t := skipWs r
        if t.head? = some '}' then some (.obj [], t.tail)
        else if t.head? = some '"' then do
          let p ← parseStringBody t.tail
          let t2 := skipWs p.2
          if t2.head? = some ':' then do
            let (v, r4) ← parseJM fuel .top t2.tail
            parseJM fuel (.objRest (jsSet [] ⟨p.1⟩ v)) r4
          else none
        else none
      else if c = '-' then
        match r with
        | c2 :: r2 =>
          match charDigit? c2 with
          | some d =>
            let p := takeDigits r2 d
            some (.num (-(p.1 : ℚ)), p.2)
          | none => none
        | [] => none
      else
        match charDigit? c with
        | some d =>
          let p := takeDigits r d
          some (.num (p.1 : ℚ), p.2)
        | none => none
  | fuel + 1, .arrRest acc, s =>
    let t := skipWs s
    if t.head? = some ']' then some (.arr acc, t.tail)
    else if t.head? = some ',' then do
      let (v, r2) ← parseJM fuel .top t.tail
      parseJM fuel (.arrRest (acc ++ [v])) r2
    else none
  | fuel + 1, .objRest acc, s =>
    let t := skipWs s
    if t.head? = some '}' then some (.obj acc, t.tail)
    else if t.head? = some ',' then
      let t1 := skipWs t.tail
      if t1.head? = some '"' then do
        let p ← parseStringBody t1.tail
        let t2 := skipWs p.2
        if t2.head? = some ':' then do
          let (v, r4) ← parseJM fuel .top t2.tail
          parseJM fuel (.objRest (jsSet acc ⟨p.1⟩ v)) r4
        else none
      else none
    else none

/-- The rest of a parse input does not begin with a digit (so a number
parse stops exactly at the boundary). -/
def headNotDigit (rest : List Char) : Prop :=
  ∀ c, rest.head? = some c → charDigit? c = none

/-- `JSON.parse`: parse one value and require only trailing whitespace
after it. -/
def jsonParse (cs : List Char) : Option JsVal :=
  match parseJM (cs.length + 1) .top cs with
  | some (v, r) => if skipWs r = [] then some v else none
  | none => none

/-! ## Archive model (`src/archive.ts`) -/

/-- A recording passed to `createArchive` (`ArchiveOptions` in
`src/types.ts`). -/
structure ArchiveOptions where
  name : String
  metadata : JsVal
  data : List Nat

/-- An entry returned by `readArchive` (`ArchiveEntry` in
`src/types.ts`). -/
structure ArchiveEntry where
  name : String
  metadata : JsVal
  data : List Nat

/-- A parsed TAR entry (`TarEntry` in `src/archive.ts`). -/
structure TarEntry where
  name : String
  size : Nat
  data : List Nat
  isFile : Bool
deriving DecidableEq

/-- Fixed-width big-endian octal digits (ASCII bytes), least
significant digit written by the deepest call. -/
def octChars : Nat → Nat → List Nat
  | 0, _ => []
  | w + 1, n => octChars w (n / 8) ++ [48 + n % 8]

/-- `decodeString` from `src/archive.ts`: ASCII-decode up to the first
NUL byte. -/
def decodeString (bytes : List Nat) : String :=
  ⟨(bytes.takeWhile fun b => b ≠ 0).map Char.ofNat⟩

/-- `String.prototype.trim`: strip whitespace from both ends. -/
def trimChars (cs : List Char) : List Char :=
  ((cs.dropWhile isWsC).reverse.dropWhile isWsC).reverse

/-- The octal digits of `parseInt(s, 8)`: fold leading octal digits
(`parseInt` ignores a trailing non-digit suffix; on no leading digit it
yields `NaN`, which the caller never produces). -/
def takeOctal : List Char → Nat → Nat
  | [], acc => acc
  | c :: cs, acc =>
    if '0' ≤ c ∧ c ≤ '7' then
      takeOctal cs (acc * 8 + (c.toNat - 48))
    else acc

/-- `decodeOctal` from `src/archive.ts`: decode, trim, `parseInt(s, 8)`
(`0` for the empty string). -/
def decodeOctal (bytes : List Nat) : Nat :=
  takeOctal (trimChars (decodeString bytes).data) 0

/-- The zero padding that completes `n` bytes to a 512 multiple. -/
def padLen (n : Nat) : Nat := (512 - n % 512) % 512

/-- Modelled from the spec: the `tarts` library writes one POSIX
ustar-style 512-byte header per file — the NUL-padded path in the
`name` field (offsets 0–99), the content length as 11 zero-padded
octal digits plus NUL in the `size` field (offsets 124–135), spaces in
the checksum field (offsets 148–155, which `parseTar` never reads) and
typeflag `'0'` (offset 156, a regular file); the remaining fields
(mode/uid/gid/mtime at 100–123 and 136–147, and everything from 157 on,
including the `prefix` field) are NUL. -/
def tarHeader (path : String) (size : Nat) : List Nat :=
  let nameB := path.data.map Char.toNat
  (nameB ++ List.replicate (100 - nameB.length) 0)
    ++ List.replicate 24 0
    ++ (octChars 11 size ++ [0])
    ++ List.replicate 12 0
    ++ List.replicate 8 32
    ++ [48]
    ++ List.replicate 355 0

/-- Modelled from the spec: `Tar(files)` concatenates, per file, the
header, the content, and zero padding to the next 512-byte boundary,
and terminates the archive with two zero blocks. -/
def Tar (files : List (String × List Nat)) : List Nat :=
  (files.flatMap fun f =>
    tarHeader f.1 f.2.length ++ f.2 ++ List.replicate (padLen f.2.length) 0)
    ++ List.replicate 1024 0

/-- The loop of `parseTar` from `src/archive.ts`: while a full header
block remains, stop at an all-zero block, otherwise decode the
`name`/`prefix`/`size`/`typeflag` fields, slice out `size` bytes of
data and skip to the next block boundary (entries with `size = 0` are
recorded only for regular files).  One unit of fuel per header
(`parseTar` passes more fuel than the archive has blocks). -/
def parseTarGo : Nat → List Nat → List TarEntry
  | 0, _ => []
  | fuel + 1, v =>
    if 512 ≤ v.length then
      let header := v.take 512
      if header.all fun b => b = 0 then []
      else
        let nameBytes := header.take 100
        let prefixBytes := (header.drop 345).take 155
        let sizeBytes := (header.drop 124).take 12
        let typeflag := header.getD 156 0
        let name0 := decodeString nameBytes
        let pfx := decodeString prefixBytes
        let name := if pfx ≠ "" then pfx ++ "/" ++ name0 else name0
        let size := decodeOctal sizeBytes
        let isFile := typeflag = 48 ∨ typeflag = 0
        let after := v.drop 512
        if 0 < size then
          ⟨name, size, after.take size, decide isFile⟩
            :: parseTarGo fuel (after.drop ((size + 511) / 512 * 512))
        else if isFile then
          ⟨name, 0, [], true⟩ :: parseTarGo fuel after
        else parseTarGo fuel after
    else []

/-- `parseTar` from `src/archive.ts`. -/
def parseTar (buffer : List Nat) : List TarEntry :=
  parseTarGo (buffer.length / 512 + 1) buffer

/-- The regex `/^[^\/]+\//` replacement of `readArchive`: strip one
leading directory component when present. -/
def stripTopDir (s : String) : String :=
  let pre := s.data.takeWhile fun c => c ≠ '/'
  let rest := s.data.drop pre.length
  if pre ≠ [] ∧ rest.head? = some '/' then ⟨rest.drop 1⟩ else s

/-- `String.prototype.endsWith` on character lists. -/
def endsWithL (s suf : List Char) : Bool :=
  if suf.length ≤ s.length then s.drop (s.length - suf.length) == suf
  else false

/-- `Map.prototype.set`: replace in place when the key exists,
otherwise append (JavaScript `Map`s iterate in insertion order and
keep the original position on overwrite). -/
def mapSet (m : List (String × List Nat)) (k : String) (v : List Nat) :
    List (String × List Nat) :=
  if m.any fun kv => kv.1 == k then
    m.map fun kv => if kv.1 == k then (k, v) else kv
  else m ++ [(k, v)]

/-- `Map.prototype.get`. -/
def mapGet (m : List (String × List Nat)) (k : String) :
    Option (List Nat) :=
  (m.find? fun kv => kv.1 == k).map (·.2)

/-- UTF-8 decoding of the modelled fragment (`TextDecoder('utf-8')`
restricted to ASCII bytes, the only bytes the serialiser emits;
`none` outside it). -/
def utf8DecodeAscii : List Nat → Option (List Char)
  | [] => some []
  | b :: bs =>
    if b < 128 then
      (utf8DecodeAscii bs).map fun cs => Char.ofNat b :: cs
    else none

/-- The bucketing loop of `readArchive`: group regular files by base
name after stripping the leading directory, into the meta and data
maps. -/
def bucketFiles (entries : List TarEntry) :
    List (String × List Nat) × List (String × List Nat) :=
  entries.foldl
    (fun maps entry =>
      if ¬ entry.isFile then maps
      else
        let name := stripTopDir entry.name
        if endsWithL name.data ".sigmf-meta".data then
          (mapSet maps.1 ⟨name.data.take (name.data.length - 11)⟩
            entry.data, maps.2)
        else if endsWithL name.data ".sigmf-data".data then
          (maps.1, mapSet maps.2
            ⟨name.data.take (name.data.length - 11)⟩ entry.data)
        else maps)
    ([], [])

/-- `readArchive` from `src/archive.ts`: parse the TAR, bucket the
`.sigmf-meta`/`.sigmf-data` files by base name, then pair every meta
file with its (optional) data file, decoding and `JSON.parse`-ing the
metadata.  `none` models a `JSON.parse` (or decoding) throw. -/
def readArchive (buffer : List Nat) : Option (List ArchiveEntry) :=
  let maps := bucketFiles (parseTar buffer)
  maps.1.mapM fun kv => do
    let chars ← utf8DecodeAscii kv.2
    let metadata ← jsonParse chars
    pure ⟨kv.1, metadata, (mapGet maps.2 kv.1).getD []⟩

/-- `createArchive` from `src/archive.ts`: per recording, a
`dirName/name.sigmf-meta` file holding the UTF-8 bytes of
`JSON.stringify(metadata, null, 2)` (ASCII by construction, so the
encoding is the byte map) and a `dirName/name.sigmf-data` file holding
the data, all passed to `Tar`.  `none` when a metadata value leaves
the modelled `JSON.stringify` fragment. -/
def createArchive (recordings : List ArchiveOptions)
    (archiveName : Option String) : Option (List Nat) := do
  let dirName := archiveName.getD
    (((recordings.head?.map (·.name)).getD "recording"))
  let fileLists ← recordings.mapM fun r => do
    let metaJson ← jsonStringify r.metadata
    pure [(dirName ++ "/" ++ r.name ++ ".sigmf-meta",
            metaJson.map Char.toNat),
          (dirName ++ "/" ++ r.name ++ ".sigmf-data", r.data)]
  pure (Tar fileLists.flatten)

/-! ## Lemmas: byte-level codec -/

theorem toLEBytes_length (w n : Nat) : (toLEBytes w n).length = w := by
  induction w generalizing n with
  | zero => rfl
  | succ w ih => simp [toLEBytes, ih]

theorem fromLEBytes_toLEBytes (w n : Nat) (h : n < 256 ^ w) :
    fromLEBytes (toLEBytes w n) = n := by
  induction w generalizing n with
  | zero =>
    simp only [pow_zero, Nat.lt_one_iff] at h
    simp [toLEBytes, fromLEBytes, h]
  | succ w ih =>
    have hdiv : n / 256 < 256 ^ w := by
      rw [Nat.div_lt_iff_lt_mul (by norm_num)]
      calc n < 256 ^ (w + 1) := h
        _ = 256 ^ w * 256 := by ring
    simp only [toLEBytes, fromLEBytes, ih _ hdiv]
    omega

/-! ## Lemmas: IEEE-754 component codec -/

theorem roundHalfEven_intCast (n : ℤ) : roundHalfEven (n : ℚ) = n := by
  simp [roundHalfEven]

/-- Decomposition of a packed sign/exponent/fraction bit pattern. -/
theorem floatFields_decompose (E F s eF f : Nat) (hs : s < 2)
    (he : eF < 2 ^ E) (hf : f < 2 ^ F) :
    (s * 2 ^ (E + F) + eF * 2 ^ F + f) / 2 ^ (E + F) % 2 = s ∧
    (s * 2 ^ (E + F) + eF * 2 ^ F + f) / 2 ^ F % 2 ^ E = eF ∧
    (s * 2 ^ (E + F) + eF * 2 ^ F + f) % 2 ^ F = f ∧
    s * 2 ^ (E + F) + eF * 2 ^ F + f < 2 ^ (1 + E + F) := by
  have hpow : 2 ^ (E + F) = 2 ^ E * 2 ^ F := pow_add 2 E F
  have hFpos : 0 < 2 ^ F := Nat.pos_pow_of_pos F (by norm_num)
  have hEFpos : 0 < 2 ^ (E + F) := Nat.pos_pow_of_pos _ (by norm_num)
  have hrest : eF * 2 ^ F + f < 2 ^ (E + F) := by
    calc eF * 2 ^ F + f < eF * 2 ^ F + 2 ^ F := by omega
      _ = (eF + 1) * 2 ^ F := by ring
      _ ≤ 2 ^ E * 2 ^ F := Nat.mul_le_mul_right _ (by omega)
      _ = 2 ^ (E + F) := hpow.symm
  refine ⟨?_, ?_, ?_, ?_⟩
  · have h1 : s * 2 ^ (E + F) + eF * 2 ^ F + f
        = 2 ^ (E + F) * s + (eF * 2 ^ F + f) := by ring
    rw [h1, Nat.mul_add_div hEFpos, Nat.div_eq_of_lt hrest, Nat.add_zero,
      Nat.mod_eq_of_lt hs]
  · have h1 : s * 2 ^ (E + F) + eF * 2 ^ F + f
        = 2 ^ F * (s * 2 ^ E + eF) + f := by rw [hpow]; ring
    have h2 : s * 2 ^ E + eF = eF + 2 ^ E * s := by ring
    rw [h1, Nat.mul_add_div hFpos, Nat.div_eq_of_lt hf, Nat.add_zero, h2,
      Nat.add_mul_mod_self_left, Nat.mod_eq_of_lt he]
  · have h1 : s * 2 ^ (E + F) + eF * 2 ^ F + f
        = f + (s * 2 ^ E + eF) * 2 ^ F := by rw [hpow]; ring
    rw [h1, Nat.add_mul_mod_self_right, Nat.mod_eq_of_lt hf]
  · have h1 : 2 ^ (1 + E + F) = 2 * 2 ^ (E + F) := by
      rw [pow_add, pow_add, pow_one]; ring
    interval_cases s <;> omega

/-- `Int.log 2` of `K · 2^(e−F)` when `2^F ≤ K < 2^(F+1)`. -/
theorem intLog_of_mantissa (F : Nat) (K : Nat) (e : ℤ) (hlo : 2 ^ F ≤ K)
    (hhi : K < 2 ^ (F + 1)) :
    Int.log 2 ((K : ℚ) * (2 : ℚ) ^ (e - (F : ℤ))) = e := by
  have hkpos : (0 : ℚ) < (K : ℚ) := by
    have : 0 < K := lt_of_lt_of_le (Nat.pos_pow_of_pos _ (by norm_num)) hlo
    exact_mod_cast this
  have hzpos : (0 : ℚ) < (2 : ℚ) ^ (e - (F : ℤ)) := by positivity
  have hapos : (0 : ℚ) < (K : ℚ) * (2 : ℚ) ^ (e - (F : ℤ)) := by positivity
  have hle : (2 : ℚ) ^ e ≤ (K : ℚ) * (2 : ℚ) ^ (e - (F : ℤ)) := by
    have h1 : ((2 : ℚ) ^ (F : ℤ)) ≤ (K : ℚ) := by
      rw [zpow_natCast]
      exact_mod_cast hlo
    calc (2 : ℚ) ^ e = (2 : ℚ) ^ (F : ℤ) * (2 : ℚ) ^ (e - (F : ℤ)) := by
          rw [← zpow_add₀ (by norm_num : (2 : ℚ) ≠ 0)]; ring_nf
      _ ≤ (K : ℚ) * (2 : ℚ) ^ (e - (F : ℤ)) :=
          mul_le_mul_of_nonneg_right h1 (le_of_lt hzpos)
  have hlt : (K : ℚ) * (2 : ℚ) ^ (e - (F : ℤ)) < (2 : ℚ) ^ (e + 1) := by
    have h1 : (K : ℚ) < (2 : ℚ) ^ ((F : ℤ) + 1) := by
      have h2 : ((F : ℤ) + 1) = ((F + 1 : ℕ) : ℤ) := by push_cast; ring
      rw [h2, zpow_natCast]
      exact_mod_cast hhi
    calc (K : ℚ) * (2 : ℚ) ^ (e - (F : ℤ))
        < (2 : ℚ) ^ ((F : ℤ) + 1) * (2 : ℚ) ^ (e - (F : ℤ)) :=
          mul_lt_mul_of_pos_right h1 hzpos
      _ = (2 : ℚ) ^ (e + 1) := by
          rw [← zpow_add₀ (by norm_num : (2 : ℚ) ≠ 0)]; ring_nf
  have hup : Int.log 2 ((K : ℚ) * (2 : ℚ) ^ (e - (F : ℤ))) < e + 1 :=
    (Int.lt_zpow_iff_log_lt (by norm_num) hapos).mp hlt
  have hdn : e ≤ Int.log 2 ((K : ℚ) * (2 : ℚ) ^ (e - (F : ℤ))) :=
    (Int.zpow_le_iff_le_log (by norm_num) hapos).mp hle
  omega

/-- Auxiliary facts about a sane float format (`2 ≤ E`, `1 ≤ F`). -/
theorem FloatFmt.bias_facts (fmt : FloatFmt) (hE : 2 ≤ fmt.E) :
    1 ≤ fmt.bias ∧ 2 * fmt.bias = 2 ^ fmt.E - 2 ∧
      ((2 ^ fmt.E : ℕ) : ℤ) = 2 ^ fmt.E ∧ 4 ≤ (2 ^ fmt.E : ℕ) := by
  have h1 : fmt.E - 1 + 1 = fmt.E := by omega
  have h2 : (2 : ℤ) ^ (fmt.E - 1 + 1) = 2 ^ (fmt.E - 1) * 2 := pow_succ 2 _
  have h3 : (2 : ℤ) ^ (fmt.E - 1) ≥ 2 ^ 1 :=
    pow_le_pow_right₀ (by norm_num) (by omega)
  have h4 : (4 : ℕ) = 2 ^ 2 := by norm_num
  have h5 : (2 : ℤ) ^ fmt.E = 2 ^ (fmt.E - 1) * 2 := by rw [← h2, h1]
  refine ⟨?_, ?_, by push_cast; ring, ?_⟩
  · simp only [FloatFmt.bias]; omega
  · simp only [FloatFmt.bias]; linarith [h5]
  · rw [h4]; exact Nat.pow_le_pow_right (by norm_num) hE

set_option linter.unusedVariables false in
/-- Round trip of the IEEE-754 component codec on representable finite
values. -/
theorem fmtDecode_fmtEncode (fmt : FloatFmt) (hE : 2 ≤ fmt.E)
    (hF : 1 ≤ fmt.F) (v : ℚ) (hv : fmt.representable v) :
    fmtEncode fmt v < 2 ^ (1 + fmt.E + fmt.F) ∧
      fmtDecode fmt (fmtEncode fmt v) = .num v := by
  obtain ⟨hbias1, hbias2, hbias3, hbias4⟩ := fmt.bias_facts hE
  have hq2 : (2 : ℚ) ≠ 0 := by norm_num
  rcases hv with hv0 | ⟨k, hk0, hkF, hveq⟩ | ⟨k, e, hklo, hkhi, helo, hehi, hveq⟩
  · -- v = 0
    subst hv0
    have henc : fmtEncode fmt 0 = 0 := by simp [fmtEncode]
    refine ⟨by rw [henc]; positivity, ?_⟩
    rw [henc]
    simp only [fmtDecode, Nat.zero_div, Nat.zero_mod]
    rw [if_neg (by omega : ¬(0 = 2 ^ fmt.E - 1))]
    simp
  · -- subnormal: v = k · 2^(1 − bias − F), 0 < |k| < 2^F
    have hkabs : 0 < |k| := abs_pos.mpr hk0
    set K : ℕ := |k|.toNat with hK
    have hKk : (K : ℤ) = |k| := Int.toNat_of_nonneg (abs_nonneg k)
    have hKpos : 0 < K := by omega
    have hKF : K < 2 ^ fmt.F := by
      have : (K : ℤ) < 2 ^ fmt.F := by rw [hKk]; exact_mod_cast hkF
      exact_mod_cast this
    have hzp : (0 : ℚ) < (2 : ℚ) ^ (1 - fmt.bias - fmt.F) := by positivity
    have hvne : v ≠ 0 := by
      rw [hveq]
      exact mul_ne_zero (Int.cast_ne_zero.mpr hk0) (ne_of_gt hzp)
    have habs : |v| = (K : ℚ) * (2 : ℚ) ^ (1 - fmt.bias - (fmt.F : ℤ)) := by
      rw [hveq, abs_mul, abs_of_pos hzp, ← Int.cast_abs, ← hKk]
      push_cast
      ring_nf
    have hapos : (0 : ℚ) < |v| := abs_pos.mpr hvne
    have hlog : Int.log 2 |v| < 1 - fmt.bias := by
      rw [← Int.lt_zpow_iff_log_lt (by norm_num) hapos]
      rw [habs]
      have h1 : ((K : ℚ)) < (2 : ℚ) ^ (fmt.F : ℤ) := by
        rw [zpow_natCast]; exact_mod_cast hKF
      calc (K : ℚ) * (2 : ℚ) ^ (1 - fmt.bias - (fmt.F : ℤ))
          < (2 : ℚ) ^ (fmt.F : ℤ) * (2 : ℚ) ^ (1 - fmt.bias - (fmt.F : ℤ)) :=
            mul_lt_mul_of_pos_right h1 (by positivity)
        _ = (2 : ℚ) ^ (1 - fmt.bias) := by rw [← zpow_add₀ hq2]; ring_nf
    have hscale : |v| * (2 : ℚ) ^ (fmt.bias - 1 + fmt.F) = (K : ℚ) := by
      rw [habs, mul_assoc, ← zpow_add₀ hq2]
      have h1 : 1 - fmt.bias - (fmt.F : ℤ) + (fmt.bias - 1 + fmt.F) = 0 := by ring
      rw [h1, zpow_zero, mul_one]
    have hm : (roundHalfEven (|v| * (2 : ℚ) ^ (fmt.bias - 1 + fmt.F))).toNat
        = K := by
      rw [hscale]
      have h1 : ((K : ℚ)) = ((K : ℤ) : ℚ) := by push_cast; ring
      rw [h1, roundHalfEven_intCast]
      exact Int.toNat_natCast K
    set s : ℕ := if v < 0 then 1 else 0 with hs
    have hs2 : s < 2 := by rw [hs]; split <;> norm_num
    have henc : fmtEncode fmt v = s * 2 ^ (fmt.E + fmt.F) + K := by
      rw [fmtEncode, if_neg hvne]
      simp only [← hs]
      rw [if_pos hlog, hm, if_pos hKF]
    have hfields := floatFields_decompose fmt.E fmt.F s 0 K hs2
      (Nat.pos_pow_of_pos _ (by norm_num)) hKF
    rw [henc]
    have hbits : s * 2 ^ (fmt.E + fmt.F) + K
        = s * 2 ^ (fmt.E + fmt.F) + 0 * 2 ^ fmt.F + K := by ring
    refine ⟨by rw [hbits]; exact hfields.2.2.2, ?_⟩
    rw [hbits]
    simp only [fmtDecode]
    rw [hfields.1, hfields.2.1, hfields.2.2.1]
    rw [if_neg (by omega : ¬(0 = 2 ^ fmt.E - 1)), if_pos rfl]
    have hsign : (if s = 1 then (-1 : ℚ) else 1) * (K : ℚ) = (k : ℚ) := by
      rcases lt_trichotomy k 0 with hneg | hzero | hpos
      · have hvneg : v < 0 := by
          rw [hveq]
          exact mul_neg_of_neg_of_pos (by exact_mod_cast hneg) hzp
        have : s = 1 := by rw [hs, if_pos hvneg]
        rw [this, if_pos rfl]
        have : (K : ℤ) = -k := by rw [hKk, abs_of_neg hneg]
        have h2 : ((K : ℤ) : ℚ) = ((-k : ℤ) : ℚ) := by exact_mod_cast this
        push_cast at h2
        linarith
      · exact absurd hzero hk0
      · have hvpos : 0 < v := by
          rw [hveq]
          exact mul_pos (by exact_mod_cast hpos) hzp
        have hs0 : s = 0 := by rw [hs, if_neg (not_lt.mpr (le_of_lt hvpos))]
        have h3 : ((K : ℕ) : ℚ) = (k : ℚ) := by
          exact_mod_cast hKk.trans (abs_of_pos hpos)
        rw [hs0]
        simp [h3]
    rw [hsign, hveq]
  · -- normal: v = k · 2^(e − F), 2^F ≤ |k| < 2^(F+1), 1 − bias ≤ e ≤ bias
    have hkabs : 0 < |k| := lt_of_lt_of_le (by positivity) hklo
    have hk0 : k ≠ 0 := by
      intro h; rw [h] at hkabs; simp at hkabs
    set K : ℕ := |k|.toNat with hK
    have hKk : (K : ℤ) = |k| := Int.toNat_of_nonneg (abs_nonneg k)
    have hKlo : 2 ^ fmt.F ≤ K := by
      have : (2 : ℤ) ^ fmt.F ≤ (K : ℤ) := by rw [hKk]; exact_mod_cast hklo
      exact_mod_cast this
    have hKhi : K < 2 ^ (fmt.F + 1) := by
      have : (K : ℤ) < 2 ^ (fmt.F + 1) := by rw [hKk]; exact_mod_cast hkhi
      exact_mod_cast this
    have hzp : (0 : ℚ) < (2 : ℚ) ^ (e - fmt.F) := by positivity
    have hvne : v ≠ 0 := by
      rw [hveq]
      exact mul_ne_zero (Int.cast_ne_zero.mpr hk0) (ne_of_gt hzp)
    have habs : |v| = (K : ℚ) * (2 : ℚ) ^ (e - (fmt.F : ℤ)) := by
      rw [hveq, abs_mul, abs_of_pos hzp, ← Int.cast_abs, ← hKk]
      push_cast
      ring_nf
    have hlog : Int.log 2 |v| = e := by
      rw [habs]; exact intLog_of_mantissa fmt.F K e hKlo hKhi
    have hscale : |v| * (2 : ℚ) ^ ((fmt.F : ℤ) - e) = (K : ℚ) := by
      rw [habs, mul_assoc, ← zpow_add₀ hq2]
      have h1 : e - (fmt.F : ℤ) + ((fmt.F : ℤ) - e) = 0 := by ring
      rw [h1, zpow_zero, mul_one]
    have hm : (roundHalfEven (|v| * (2 : ℚ) ^ ((fmt.F : ℤ) - e))).toNat
        = K := by
      rw [hscale]
      have h1 : ((K : ℚ)) = ((K : ℤ) : ℚ) := by push_cast; ring
      rw [h1, roundHalfEven_intCast]
      exact Int.toNat_natCast K
    set s : ℕ := if v < 0 then 1 else 0 with hs
    have hs2 : s < 2 := by rw [hs]; split <;> norm_num
    set eF : ℕ := (e + fmt.bias).toNat with heF
    have heFval : (eF : ℤ) = e + fmt.bias :=
      Int.toNat_of_nonneg (by omega)
    have heFlo : 1 ≤ eF := by omega
    have heFhi : eF < 2 ^ fmt.E - 1 := by
      have h1 : (eF : ℤ) ≤ 2 * fmt.bias := by omega
      have h2 : (eF : ℤ) < ((2 ^ fmt.E : ℕ) : ℤ) - 1 := by omega
      omega
    have hfsub : K - 2 ^ fmt.F < 2 ^ fmt.F := by
      have : 2 ^ (fmt.F + 1) = 2 ^ fmt.F * 2 := pow_succ 2 _
      omega
    have henc : fmtEncode fmt v
        = s * 2 ^ (fmt.E + fmt.F) + eF * 2 ^ fmt.F + (K - 2 ^ fmt.F) := by
      rw [fmtEncode, if_neg hvne]
      simp only [← hs]
      rw [hlog, if_neg (by omega : ¬(e < 1 - fmt.bias)), hm]
      rw [if_neg (by omega : ¬(K = 2 ^ (fmt.F + 1))),
        if_neg (by omega : ¬(K = 2 ^ (fmt.F + 1)))]
      rw [if_neg (show ¬(2 ^ fmt.E - 1 ≤ e + fmt.bias) by omega)]
    have hfields := floatFields_decompose fmt.E fmt.F s eF (K - 2 ^ fmt.F) hs2
      (by omega) hfsub
    refine ⟨by rw [henc]; exact hfields.2.2.2, ?_⟩
    rw [henc]
    simp only [fmtDecode]
    rw [hfields.1, hfields.2.1, hfields.2.2.1]
    rw [if_neg (by omega : ¬(eF = 2 ^ fmt.E - 1)),
      if_neg (by omega : ¬(eF = 0))]
    have hmant : ((2 : ℚ) ^ fmt.F + ((K - 2 ^ fmt.F : ℕ) : ℚ)) = (K : ℚ) := by
      rw [Nat.cast_sub hKlo]
      push_cast
      ring
    have hsign : (if s = 1 then (-1 : ℚ) else 1) * (K : ℚ) = (k : ℚ) := by
      rcases lt_trichotomy k 0 with hneg | hzero | hpos
      · have hvneg : v < 0 := by
          rw [hveq]
          exact mul_neg_of_neg_of_pos (by exact_mod_cast hneg) hzp
        have : s = 1 := by rw [hs, if_pos hvneg]
        rw [this, if_pos rfl]
        have : (K : ℤ) = -k := by rw [hKk, abs_of_neg hneg]
        have h2 : ((K : ℤ) : ℚ) = ((-k : ℤ) : ℚ) := by exact_mod_cast this
        push_cast at h2
        linarith
      · exact absurd hzero hk0
      · have hvpos : 0 < v := by
          rw [hveq]
          exact mul_pos (by exact_mod_cast hpos) hzp
        have hs0 : s = 0 := by rw [hs, if_neg (not_lt.mpr (le_of_lt hvpos))]
        have h3 : ((K : ℕ) : ℚ) = (k : ℚ) := by
          exact_mod_cast hKk.trans (abs_of_pos hpos)
        rw [hs0]
        simp [h3]
    rw [hmant, heFval]
    have hexp : e + fmt.bias - fmt.bias - (fmt.F : ℤ) = e - fmt.F := by ring
    rw [hexp, hsign, hveq]

/-! ## Lemmas: datatype parser -/

theorem matchDatatypePattern_spec (s : String) (g : String × String × String)
    (h : matchDatatypePattern s = some g) :
    g.1 ∈ ["c", "r"] ∧ g.2.1 ∈ datatypeBases ∧ g.2.2 ∈ datatypeSuffixes ∧
      s = g.1 ++ g.2.1 ++ g.2.2 := by
  have hmem := List.mem_of_find?_eq_some h
  have hpred := List.find?_some h
  simp only [List.mem_flatMap, List.mem_map] at hmem
  obtain ⟨pre, hpre, base, hbase, suf, hsuf, hg⟩ := hmem
  refine ⟨?_, ?_, ?_, of_decide_eq_true hpred⟩
  · rw [← hg]; exact hpre
  · rw [← hg]; exact hbase
  · rw [← hg]; exact hsuf

/-- Structural facts about every descriptor the parser can produce. -/
theorem parseDatatype_info (s : String) (info : DatatypeInfo)
    (h : parseDatatype s = some info) :
    1 ≤ info.bytesPerComponent ∧
    info.bitsPerComponent = 8 * info.bytesPerComponent ∧
    info.bytesPerSample
      = (if info.isComplex then 2 else 1) * info.bytesPerComponent ∧
    (info.format = .float →
      (info.floatFmt = f32Fmt ∧ info.bytesPerComponent = 4) ∨
      (info.floatFmt = f64Fmt ∧ info.bytesPerComponent = 8)) ∧
    (info.format = .int →
      info.bitsPerComponent = 8 ∨ info.bitsPerComponent = 16 ∨
        info.bitsPerComponent = 32) := by
  unfold parseDatatype at h
  cases hm : matchDatatypePattern s with
  | none => rw [hm] at h; cases h
  | some g =>
    obtain ⟨g1, g2, g3⟩ := g
    rw [hm] at h
    obtain ⟨hc, hb, -, -⟩ := matchDatatypePattern_spec s _ hm
    simp only at h
    injection h with h
    subst h
    simp only [List.mem_cons, List.mem_singleton, List.not_mem_nil,
      or_false] at hc
    simp only [datatypeBases, List.mem_cons, List.mem_singleton,
      List.not_mem_nil, or_false] at hb
    rcases hc with rfl | rfl <;>
      rcases hb with rfl | rfl | rfl | rfl | rfl | rfl | rfl | rfl <;>
      refine ⟨?_, ?_, ?_, ?_, ?_⟩ <;>
      · dsimp only [DatatypeInfo.floatFmt]
        decide

/-! ## Lemmas: component round trip -/

theorem writeValueBytes_length (info : DatatypeInfo) (v : JsNum) :
    (writeValueBytes info v).length = info.bytesPerComponent := by
  unfold writeValueBytes
  cases info.littleEndian.getD true <;> simp [toLEBytes_length]

/-- The endianness wrappers of write and read cancel. -/
theorem readValueBytes_writeValueBytes_bits (info : DatatypeInfo)
    (v : JsNum) :
    readValueBytes info (writeValueBytes info v)
      = decodeBits info
          (fromLEBytes (toLEBytes info.bytesPerComponent (encodeBits info v))) := by
  unfold readValueBytes writeValueBytes
  cases info.littleEndian.getD true <;> simp

theorem jsTruncInt_intCast (n : ℤ) : jsTruncInt (.num (n : ℚ)) = n := by
  show (if 0 ≤ (n : ℚ) then ⌊(n : ℚ)⌋ else -⌊-(n : ℚ)⌋) = n
  have h1 : (-(n : ℚ)) = ((-n : ℤ) : ℚ) := by push_cast; ring
  have h2 : ⌊((-n : ℤ) : ℚ)⌋ = -n := Int.floor_intCast (-n)
  split
  · exact Int.floor_intCast n
  · rw [h1, h2]; ring

/-- One component decodes back to the value it was encoded from, for
representable values of a parser-produced descriptor. -/
theorem readValueBytes_writeValueBytes (info : DatatypeInfo) (v : JsNum)
    (h1bpc : 1 ≤ info.bytesPerComponent)
    (hbits : info.bitsPerComponent = 8 * info.bytesPerComponent)
    (hfmt : info.format = .float →
      (info.floatFmt = f32Fmt ∧ info.bytesPerComponent = 4) ∨
      (info.floatFmt = f64Fmt ∧ info.bytesPerComponent = 8))
    (hv : representableIn info v) :
    readValueBytes info (writeValueBytes info v) = v := by
  rw [readValueBytes_writeValueBytes_bits]
  unfold encodeBits decodeBits
  cases hfc : info.format with
  | float =>
    simp only [representableIn, hfc] at hv
    obtain ⟨q, rfl, hq⟩ := hv
    simp only [fmtEncodeNum]
    have hfmt2 := hfmt hfc
    have hEF : 2 ≤ info.floatFmt.E ∧ 1 ≤ info.floatFmt.F ∧
        2 ^ (1 + info.floatFmt.E + info.floatFmt.F)
          = 256 ^ info.bytesPerComponent := by
      rcases hfmt hfc with ⟨hf, hc⟩ | ⟨hf, hc⟩ <;> rw [hf, hc] <;>
        refine ⟨by decide, by decide, by norm_num [f32Fmt, f64Fmt]⟩
    obtain ⟨hlt, hdec⟩ :=
      fmtDecode_fmtEncode info.floatFmt hEF.1 hEF.2.1 q hq
    rw [fromLEBytes_toLEBytes _ _ (hEF.2.2 ▸ hlt), hdec]
  | int =>
    simp only [representableIn, hfc] at hv
    obtain ⟨n, rfl, hn⟩ := hv
    have hw1 : 1 ≤ info.bitsPerComponent := by omega
    have hwpos : (0 : ℤ) < 2 ^ info.bitsPerComponent := by positivity
    have h256 : (256 : ℕ) ^ info.bytesPerComponent
        = 2 ^ info.bitsPerComponent := by
      rw [hbits, pow_mul]
      norm_num
    have hsplitZ : (2 : ℤ) ^ info.bitsPerComponent
        = 2 ^ (info.bitsPerComponent - 1) * 2 := by
      rw [← pow_succ]
      congr 1
      omega
    have hsplitN : (2 : ℕ) ^ info.bitsPerComponent
        = 2 ^ (info.bitsPerComponent - 1) * 2 := by
      rw [← pow_succ]
      congr 1
      omega
    have hcastP : ((2 ^ (info.bitsPerComponent - 1) : ℕ) : ℤ)
        = 2 ^ (info.bitsPerComponent - 1) := by push_cast; ring
    simp only [intStored, jsTruncInt_intCast]
    cases hsg : info.signed with
    | true =>
      simp only [hsg, eq_self_iff_true, if_true] at hn ⊢
      rcases le_or_lt 0 n with hpos | hneg
      · have hmod : n % 2 ^ info.bitsPerComponent = n :=
          Int.emod_eq_of_lt hpos (by omega)
        rw [hmod, fromLEBytes_toLEBytes _ _ (by rw [h256]; omega)]
        rw [if_neg (by omega)]
        congr 1
        exact_mod_cast Int.toNat_of_nonneg hpos
      · have hmod : n % 2 ^ info.bitsPerComponent
            = n + 2 ^ info.bitsPerComponent := by
          have h2 : n % 2 ^ info.bitsPerComponent
              = (n + 2 ^ info.bitsPerComponent * 1)
                  % 2 ^ info.bitsPerComponent := by
            rw [Int.add_mul_emod_self_left]
          rw [h2, mul_one]
          exact Int.emod_eq_of_lt (by omega) (by omega)
        rw [hmod, fromLEBytes_toLEBytes _ _ (by rw [h256]; omega)]
        rw [if_pos (by omega)]
        congr 1
        have h3 : ((n + 2 ^ info.bitsPerComponent).toNat : ℤ)
            = n + 2 ^ info.bitsPerComponent := Int.toNat_of_nonneg (by omega)
        have h4 : (((n + 2 ^ info.bitsPerComponent).toNat : ℤ) : ℚ)
            = ((n + 2 ^ info.bitsPerComponent : ℤ) : ℚ) := by
          exact_mod_cast h3
        push_cast at h4
        rw [h4]
        ring
    | false =>
      simp only [hsg, Bool.false_eq_true, if_false] at hn ⊢
      have hmod : n % 2 ^ info.bitsPerComponent = n :=
        Int.emod_eq_of_lt hn.1 hn.2
      rw [hmod, fromLEBytes_toLEBytes _ _ (by rw [h256]; omega)]
      congr 1
      exact_mod_cast Int.toNat_of_nonneg hn.1

/-! ## Lemmas: sample codec -/

theorem flatMap_length_const {α : Type} (f : α → List Nat) (w : Nat)
    (l : List α) (hf : ∀ x ∈ l, (f x).length = w) :
    (l.flatMap f).length = l.length * w := by
  induction l with
  | nil => simp
  | cons x xs ih =>
    simp only [List.flatMap_cons, List.length_append, List.length_cons]
    rw [hf x (by simp), ih (fun y hy => hf y (by simp [hy]))]
    ring

theorem chunksOf_nil (w : Nat) : chunksOf w [] = [] := by
  rw [chunksOf]
  exact dif_pos (Or.inr rfl)

theorem chunksOf_flatMap {α : Type} (w : Nat) (hw : 0 < w) (f : α → List Nat)
    (l : List α) (hf : ∀ x ∈ l, (f x).length = w) :
    chunksOf w (l.flatMap f) = l.map f := by
  induction l with
  | nil => rw [List.flatMap_nil, chunksOf_nil]; rfl
  | cons x xs ih =>
    rw [List.flatMap_cons, chunksOf]
    have hx : (f x).length = w := hf x (by simp)
    have hne : f x ++ xs.flatMap f ≠ [] := by
      intro h
      have h2 := congrArg List.length h
      simp only [List.length_append, List.length_nil, hx] at h2
      omega
    rw [dif_neg (by push_neg; exact ⟨by omega, hne⟩)]
    rw [List.take_left' hx, List.drop_left' hx,
      ih (fun y hy => hf y (by simp [hy]))]
    simp

/-- Decoding the concatenation of per-component encodings recovers the
component list. -/
theorem decodeComponents_flatMap (info : DatatypeInfo)
    (samples : List JsNum) (hbpc : 1 ≤ info.bytesPerComponent)
    (hrt : ∀ v ∈ samples,
      readValueBytes info (writeValueBytes info v) = v) :
    decodeComponents info (samples.flatMap (writeValueBytes info))
      = samples := by
  unfold decodeComponents
  rw [chunksOf_flatMap _ (by omega) _ _
    (fun x _ => writeValueBytes_length info x)]
  rw [List.map_map,
    List.map_congr_left (fun v hv =>
      (Function.comp_apply).trans (hrt v hv))]
  simp

/-- `readSamples` in the in-range case, with the arithmetic carried out
in ℕ. -/
theorem readSamples_eq_ok (buffer : List Nat) (dt : String)
    (info : DatatypeInfo) (offset count : Option Nat)
    (hp : parseDatatype dt = some info) (hbps : 0 < info.bytesPerSample)
    (hoff : (offset.getD 0) * info.bytesPerSample ≤ buffer.length) :
    readSamples buffer dt offset count =
      (let byteOffset := (offset.getD 0) * info.bytesPerSample
       let n : Nat := match count with
         | some c =>
           min c ((buffer.length - byteOffset) / info.bytesPerSample)
         | none => (buffer.length - byteOffset) / info.bytesPerSample
       let window := (buffer.drop byteOffset).take (n * info.bytesPerSample)
       let vals := decodeComponents info window
       if info.isComplex then
         .ok { real := none, complex := some vals, sampleCount := n,
               datatypeInfo := info }
       else
         .ok { real := some vals, complex := none, sampleCount := n,
               datatypeInfo := info }) := by
  unfold readSamples
  rw [hp]
  have h1 : ((buffer.length : ℤ)
        - ((offset.getD 0 * info.bytesPerSample : ℕ) : ℤ))
      = ((buffer.length - offset.getD 0 * info.bytesPerSample : ℕ) : ℤ) := by
    push_cast
    omega
  have h2 : ((buffer.length : ℤ)
        - ((offset.getD 0 * info.bytesPerSample : ℕ) : ℤ)).fdiv
          (info.bytesPerSample : ℤ)
      = (((buffer.length - offset.getD 0 * info.bytesPerSample)
          / info.bytesPerSample : ℕ) : ℤ) := by
    rw [h1, Int.fdiv_eq_ediv _ (by positivity), Int.ofNat_ediv]
  simp only [h2]
  cases count with
  | none =>
    rw [if_neg (by
      push_neg
      exact ⟨by omega, Int.natCast_nonneg _⟩)]
    simp only [Int.toNat_natCast]
  | some c =>
    have h3 : min (c : ℤ)
          (((buffer.length - offset.getD 0 * info.bytesPerSample)
            / info.bytesPerSample : ℕ) : ℤ)
        = ((min c ((buffer.length - offset.getD 0 * info.bytesPerSample)
            / info.bytesPerSample) : ℕ) : ℤ) := by
      rw [Nat.cast_min]
    simp only [h3]
    rw [if_neg (by
      push_neg
      exact ⟨by omega, Int.natCast_nonneg _⟩)]
    simp only [Int.toNat_natCast]

/-- `readSamples` throws the `DataView` `RangeError` when the byte
offset lands beyond the buffer. -/
theorem readSamples_rangeError (buffer : List Nat) (dt : String)
    (info : DatatypeInfo) (offset count : Option Nat)
    (hp : parseDatatype dt = some info)
    (hoff : buffer.length < (offset.getD 0) * info.bytesPerSample) :
    readSamples buffer dt offset count = .error .rangeError := by
  unfold readSamples
  rw [hp]
  dsimp only
  cases count with
  | none => rw [if_pos (Or.inl (by omega))]
  | some c => rw [if_pos (Or.inl (by omega))]

/-! ## Claim C1 -/

/-- **C1**: for every supported datatype token `t` and every sample
array of compatible shape (interleaved even length for complex types,
every value representable in `t`'s component type), decoding the
encoding round-trips: `readSamples(writeSamples(x, t), t)` succeeds and
returns exactly the input values (exact equality — in particular within
floating tolerance for float formats and exact for integer formats),
with the expected sample count. -/
theorem C1_codec_round_trip (dt : String) (info : DatatypeInfo)
    (samples : List JsNum)
    (hp : parseDatatype dt = some info)
    (heven : info.isComplex = true → samples.length % 2 = 0)
    (hrep : ∀ v ∈ samples, representableIn info v) :
    ∃ bytes sd, writeSamples samples dt = .ok bytes ∧
      readSamples bytes dt none none = .ok sd ∧
      sd.values = samples ∧
      sd.sampleCount
        = if info.isComplex then samples.length / 2 else samples.length := by
  obtain ⟨hbpc, hbits, hbps, hffacts, -⟩ := parseDatatype_info dt info hp
  have hbps0 : 0 < info.bytesPerSample := by
    rw [hbps]
    exact Nat.mul_pos (by split <;> omega) (by omega)
  have hrt : ∀ v ∈ samples, readValueBytes info (writeValueBytes info v) = v :=
    fun v hv =>
      readValueBytes_writeValueBytes info v hbpc hbits hffacts (hrep v hv)
  have hwlen : (samples.flatMap (writeValueBytes info)).length
      = samples.length * info.bytesPerComponent :=
    flatMap_length_const _ _ _ (fun x _ => writeValueBytes_length info x)
  have hdec : decodeComponents info (samples.flatMap (writeValueBytes info))
      = samples := decodeComponents_flatMap info samples hbpc hrt
  have hwrite : writeSamples samples dt
      = .ok (samples.flatMap (writeValueBytes info)) := by
    unfold writeSamples
    rw [hp]
    dsimp only
    rw [if_neg (by
      rintro ⟨h1, h2⟩
      have := heven h1
      omega)]
  refine ⟨samples.flatMap (writeValueBytes info), ?_⟩
  rw [readSamples_eq_ok _ dt info none none hp hbps0 (by simp)]
  dsimp only
  simp only [Option.getD_none, Nat.zero_mul, Nat.sub_zero, List.drop_zero]
  cases hcx : info.isComplex with
  | true =>
    obtain ⟨t, ht⟩ : ∃ t, samples.length = 2 * t :=
      ⟨samples.length / 2, by have := heven hcx; omega⟩
    have hbps2 : info.bytesPerSample = 2 * info.bytesPerComponent := by
      rw [hbps, hcx]
      simp
    have hn : (samples.flatMap (writeValueBytes info)).length
        / info.bytesPerSample = t := by
      rw [hwlen, hbps2, ht]
      have h1 : 2 * t * info.bytesPerComponent
          = t * (2 * info.bytesPerComponent) := by ring
      rw [h1, Nat.mul_div_cancel _ (by omega)]
    have hwin : ((samples.flatMap (writeValueBytes info)).take
        (((samples.flatMap (writeValueBytes info)).length
          / info.bytesPerSample) * info.bytesPerSample))
        = samples.flatMap (writeValueBytes info) := by
      apply List.take_of_length_le
      rw [hn, hbps2, hwlen, ht]
      ring_nf
      omega
    rw [if_pos rfl]
    refine ⟨_, hwrite, rfl, ?_, ?_⟩
    · show decodeComponents info _ = samples
      rw [hwin, hdec]
    · show (samples.flatMap (writeValueBytes info)).length
          / info.bytesPerSample = _
      rw [hn]
      simp only [if_pos]
      omega
  | false =>
    have hbps1 : info.bytesPerSample = info.bytesPerComponent := by
      rw [hbps, hcx]
      simp
    have hn : (samples.flatMap (writeValueBytes info)).length
        / info.bytesPerSample = samples.length := by
      rw [hwlen, hbps1, Nat.mul_div_cancel _ (by omega)]
    have hwin : ((samples.flatMap (writeValueBytes info)).take
        (((samples.flatMap (writeValueBytes info)).length
          / info.bytesPerSample) * info.bytesPerSample))
        = samples.flatMap (writeValueBytes info) := by
      apply List.take_of_length_le
      rw [hn, hbps1, hwlen]
    rw [if_neg (by simp)]
    refine ⟨_, hwrite, rfl, ?_, ?_⟩
    · show decodeComponents info _ = samples
      rw [hwin, hdec]
    · show (samples.flatMap (writeValueBytes info)).length
          / info.bytesPerSample = _
      rw [hn]
      simp

/-- Witness for `C1_codec_round_trip`: the `cu8` scenario of the spec,
bytes `[128, 64, 255, 0]` as two complex samples. -/
theorem C1_codec_round_trip_witness :
    ∃ bytes sd,
      writeSamples [JsNum.num 128, JsNum.num 64, JsNum.num 255, JsNum.num 0]
          "cu8" = .ok bytes ∧
      readSamples bytes "cu8" none none = .ok sd ∧
      sd.values
        = [JsNum.num 128, JsNum.num 64, JsNum.num 255, JsNum.num 0] ∧
      sd.sampleCount = 2 := by
  obtain ⟨bytes, sd, h1, h2, h3, h4⟩ :=
    C1_codec_round_trip "cu8"
      { isComplex := true, format := .int, signed := false,
        bitsPerComponent := 8, bytesPerComponent := 1, bytesPerSample := 2,
        littleEndian := none, datatype := "cu8" }
      [JsNum.num 128, JsNum.num 64, JsNum.num 255, JsNum.num 0]
      (by decide)
      (fun _ => by decide)
      (by
        intro v hv
        simp only [List.mem_cons, List.not_mem_nil, or_false] at hv
        rcases hv with rfl | rfl | rfl | rfl
        · exact ⟨128, by norm_num, by norm_num⟩
        · exact ⟨64, by norm_num, by norm_num⟩
        · exact ⟨255, by norm_num, by norm_num⟩
        · exact ⟨0, by norm_num, by norm_num⟩)
  exact ⟨bytes, sd, h1, h2, h3, h4⟩

/-! ## Claim C2 -/

/-- **C2 counterexample**: the claim says `readSamples` never throws for
a valid datatype token and returns zero decoded samples for
out-of-range offsets; but on a 4-byte buffer with `cf32_le`
(8 bytes per sample) and `offset = 1`, the `DataView` construction
throws a `RangeError` (`byteOffset = 8 > 4`). -/
theorem C2_counterexample :
    readSamples [0, 0, 0, 0] "cf32_le" (some 1) none
      = .error .rangeError := by
  rfl

/-- **C2 (amended)**: for every valid datatype token, buffer and
non-negative offset/count, when the byte offset stays within the buffer
`readSamples` succeeds and the effective sample count is
`min(count, ⌊(len − offset·bps)/bps⌋)` (the floor expression alone when
`count` is omitted); when the byte offset lands beyond the buffer the
call throws a `RangeError` instead of returning zero samples. -/
theorem C2_readSamples_count (buffer : List Nat) (dt : String)
    (info : DatatypeInfo) (offset : Nat) (count : Option Nat)
    (hp : parseDatatype dt = some info) :
    (offset * info.bytesPerSample ≤ buffer.length →
      ∃ sd, readSamples buffer dt (some offset) count = .ok sd ∧
        sd.sampleCount = (match count with
          | some c => min c ((buffer.length - offset * info.bytesPerSample)
              / info.bytesPerSample)
          | none => (buffer.length - offset * info.bytesPerSample)
              / info.bytesPerSample)) ∧
    (buffer.length < offset * info.bytesPerSample →
      readSamples buffer dt (some offset) count = .error .rangeError) := by
  obtain ⟨hbpc, -, hbps, -, -⟩ := parseDatatype_info dt info hp
  have hbps0 : 0 < info.bytesPerSample := by
    rw [hbps]
    exact Nat.mul_pos (by split <;> omega) (by omega)
  constructor
  · intro hoff
    rw [readSamples_eq_ok buffer dt info (some offset) count hp hbps0
      (by simpa using hoff)]
    dsimp only
    cases count with
    | none =>
      cases info.isComplex with
      | true => exact ⟨_, rfl, rfl⟩
      | false => exact ⟨_, rfl, rfl⟩
    | some c =>
      cases info.isComplex with
      | true => exact ⟨_, rfl, rfl⟩
      | false => exact ⟨_, rfl, rfl⟩
  · intro hoff
    exact readSamples_rangeError buffer dt info (some offset) count hp
      (by simpa using hoff)

/-- Witness for `C2_readSamples_count`: an 8-byte `cf32_le` buffer read
at offset 1 yields zero samples, and at offset 2 the byte offset `16`
exceeds the buffer so a `RangeError` is thrown. -/
theorem C2_readSamples_count_witness :
    (∃ sd, readSamples [0, 0, 0, 0, 0, 0, 0, 0] "cf32_le" (some 1) none
        = .ok sd ∧ sd.sampleCount = 0) ∧
    readSamples [0, 0, 0, 0, 0, 0, 0, 0] "cf32_le" (some 2) none
      = .error .rangeError := by
  constructor
  · obtain ⟨h1, -⟩ :=
      C2_readSamples_count [0, 0, 0, 0, 0, 0, 0, 0] "cf32_le"
        { isComplex := true, format := .float, signed := true,
          bitsPerComponent := 32, bytesPerComponent := 4,
          bytesPerSample := 8, littleEndian := some true,
          datatype := "cf32_le" }
        1 none (by decide)
    obtain ⟨sd, hsd, hc⟩ := h1 (by decide)
    exact ⟨sd, hsd, hc.trans (by decide)⟩
  · obtain ⟨-, h2⟩ :=
      C2_readSamples_count [0, 0, 0, 0, 0, 0, 0, 0] "cf32_le"
        { isComplex := true, format := .float, signed := true,
          bitsPerComponent := 32, bytesPerComponent := 4,
          bytesPerSample := 8, littleEndian := some true,
          datatype := "cf32_le" }
        2 none (by decide)
    exact h2 (by decide)

/-! ## Claim C5 -/

/-- **C5 counterexample**: the claim says the parser rejects `>8`-bit
tokens without an endianness suffix and 8-bit tokens with one; but
`DATATYPE_PATTERN` makes the suffix group optional for every width, so
`parseDatatype('cf32')` succeeds (with `littleEndian = false`) and
`parseDatatype('cu8_le')` succeeds (suffix accepted and ignored). -/
theorem C5_counterexample :
    (parseDatatype "cf32").map (fun i => i.littleEndian)
        = some (some false) ∧
    (parseDatatype "cu8_le").map (fun i => i.littleEndian)
        = some none := by
  decide

/-- **C5 (amended)**: the parser enforces only the grammar with an
*optional* endianness suffix for every width: every
`(c|r)(base)(ε|_le|_be)` token parses; for widths above 8 bits a
missing suffix yields `littleEndian = false` (big-endian default, not a
parse failure), and for the 8-bit bases a present suffix is accepted
and ignored (`littleEndian` stays undefined). -/
theorem C5_datatype_suffix_optional :
    ∀ pre ∈ ["c", "r"], ∀ base ∈ datatypeBases,
      ∀ suf ∈ datatypeSuffixes,
      (parseDatatype (pre ++ base ++ suf)).map (fun i => i.littleEndian)
        = some (if base = "i8" ∨ base = "u8" then none
                else some (decide (suf = "_le"))) := by
  decide

/-- Witness for `C5_datatype_suffix_optional` at `c`, `f32`, no
suffix. -/
theorem C5_datatype_suffix_optional_witness :
    (parseDatatype ("c" ++ "f32" ++ "")).map (fun i => i.littleEndian)
      = some (if "f32" = "i8" ∨ "f32" = "u8" then none
              else some (decide ("" = "_le"))) :=
  C5_datatype_suffix_optional "c" (by decide) "f32" (by decide) ""
    (by decide)

/-! ## Lemmas: sorted insertion -/

theorem mem_sInsertBy (key : JsVal → ℚ) (x z : JsVal) (l : List JsVal) :
    z ∈ sInsertBy key x l ↔ z = x ∨ z ∈ l := by
  induction l with
  | nil => simp [sInsertBy]
  | cons y ys ih =>
    unfold sInsertBy
    split
    · simp
    · simp only [List.mem_cons, ih]
      tauto

theorem sInsertBy_pairwise (key : JsVal → ℚ) (x : JsVal) (l : List JsVal)
    (h : l.Pairwise (fun a b => key a ≤ key b)) :
    (sInsertBy key x l).Pairwise (fun a b => key a ≤ key b) := by
  induction l with
  | nil => simp [sInsertBy]
  | cons y ys ih =>
    rw [List.pairwise_cons] at h
    obtain ⟨hy, hys⟩ := h
    unfold sInsertBy
    split
    · rename_i hlt
      refine List.Pairwise.cons ?_ (List.Pairwise.cons hy hys)
      intro z hz
      rcases List.mem_cons.mp hz with rfl | hz2
      · exact le_of_lt hlt
      · exact le_trans (le_of_lt hlt) (hy z hz2)
    · rename_i hnlt
      push_neg at hnlt
      refine List.Pairwise.cons ?_ (ih hys)
      intro z hz
      rcases (mem_sInsertBy key x z ys).mp hz with rfl | hz2
      · exact hnlt
      · exact hy z hz2

theorem stableSortBy_pairwise (key : JsVal → ℚ) (l : List JsVal) :
    (stableSortBy key l).Pairwise (fun a b => key a ≤ key b) := by
  have haux : ∀ (l acc : List JsVal),
      acc.Pairwise (fun a b => key a ≤ key b) →
      (l.foldl (fun acc x => sInsertBy key x acc) acc).Pairwise
        (fun a b => key a ≤ key b) := by
    intro l
    induction l with
    | nil => intro acc h; simpa using h
    | cons x xs ih =>
      intro acc h
      exact ih _ (sInsertBy_pairwise key x acc h)
  exact haux l [] (by simp)

/-! ## Claim C3 -/

/-- **C3**: after any sequence of `addCapture`/`addAnnotation` calls on
a freshly constructed `SigMFRecording`, the capture sequence and the
annotation sequence are each sorted non-decreasing by
`core:sample_start`; in particular adding captures with sample starts
`1000, 0, 500` (in that order) leaves the capture keys
`[0, 500, 1000]`. -/
theorem C3_add_keeps_sorted :
    (∀ (o : RecordingOptions) (ops : List RecOp),
      keySorted ((ops.foldl applyOp (SigMFRecording.mk' o)).captures) ∧
      keySorted ((ops.foldl applyOp (SigMFRecording.mk' o)).annotations)) ∧
    ((((SigMFRecording.mk' { datatype := "cf32_le" }).addCapture
        { sampleStart := 1000 }).addCapture
        { sampleStart := 0 }).addCapture
        { sampleStart := 500 }).captures.map sampleStartKey
      = [0, 500, 1000] := by
  constructor
  · intro o ops
    have haux : ∀ (ops : List RecOp) (r : SigMFRecording),
        keySorted r.captures ∧ keySorted r.annotations →
        keySorted ((ops.foldl applyOp r).captures) ∧
          keySorted ((ops.foldl applyOp r).annotations) := by
      intro ops
      induction ops with
      | nil => intro r h; simpa using h
      | cons op rest ih =>
        intro r h
        refine ih _ ?_
        cases op with
        | cap c =>
          exact ⟨stableSortBy_pairwise _ _, h.2⟩
        | ann a =>
          exact ⟨h.1, stableSortBy_pairwise _ _⟩
    exact haux ops _ ⟨by simp [SigMFRecording.mk', keySorted],
      by simp [SigMFRecording.mk', keySorted]⟩
  · decide

/-! ## Lemmas: annotation validation -/

/-- The paired-frequency-edge errors of an annotation appear in the
output of the annotation loop. -/
theorem freqErrs_mem_go (pre : List JsVal) (a : JsVal) (post : List JsVal) :
    ∀ (k : Nat) (last : JsVal) (e : ValidationError),
      e ∈ freqEdgeRuleErrors (k + pre.length) a →
      e ∈ validateAnnotationsGo k last (pre ++ a :: post) := by
  induction pre with
  | nil =>
    intro k last e he
    simp only [List.nil_append, List.length_nil, Nat.add_zero] at he
    unfold validateAnnotationsGo
    apply List.mem_append_left
    exact List.mem_append_left _ (List.mem_append_right _ he)
  | cons p pre ih =>
    intro k last e he
    have harith : k + (p :: pre).length = (k + 1) + pre.length := by
      simp
      omega
    rw [harith] at he
    rw [List.cons_append]
    unfold validateAnnotationsGo
    exact List.mem_append_right _ (ih (k + 1) _ e he)

/-- The paired-frequency-edge errors of the annotation at index `i`
(counted from the front of the sequence) appear in `validate()`'s error
list. -/
theorem freqErrs_mem_validate (r : SigMFRecording) (pre post : List JsVal)
    (a : JsVal) (h : r.annotations = pre ++ a :: post) :
    ∀ e ∈ freqEdgeRuleErrors pre.length a, e ∈ (r.validate).errors := by
  intro e he
  have h1 : e ∈ validateAnnotationsGo 0 (.num (-1)) (pre ++ a :: post) :=
    freqErrs_mem_go pre a post 0 (.num (-1)) e (by simpa using he)
  unfold SigMFRecording.validate
  dsimp only
  apply List.mem_append_right
  unfold SigMFRecording.validateAnnotations
  rw [h]
  exact h1

/-! ## Claim C7 -/

/-- **C7**: for the annotation at index `i = pre.length` of a recording
checked by `validate()`: (i) when exactly one of `core:freq_lower_edge`
and `core:freq_upper_edge` is present, an error on the annotation as a
whole is reported; (ii) when both are present but they are not two
numbers with `lower ≤ upper`, the rule produces at least one error and
every error it produces is reported; (iii) when both are present,
numeric, and `lower ≤ upper`, the rule produces no error. -/
theorem C7_freq_edge_rule (r : SigMFRecording) (pre post : List JsVal)
    (a : JsVal) (h : r.annotations = pre ++ a :: post) :
    ((a.getProp "core:freq_lower_edge").isSome
        ≠ (a.getProp "core:freq_upper_edge").isSome →
      (⟨"annotations[" ++ Nat.repr pre.length ++ "]",
        "core:freq_lower_edge and core:freq_upper_edge must both be present or absent",
        none⟩ : ValidationError) ∈ (r.validate).errors) ∧
    (∀ lower upper, a.getProp "core:freq_lower_edge" = some lower →
      a.getProp "core:freq_upper_edge" = some upper →
      ¬(∃ ql qu, lower = .num ql ∧ upper = .num qu ∧ ql ≤ qu) →
      freqEdgeRuleErrors pre.length a ≠ [] ∧
        ∀ e ∈ freqEdgeRuleErrors pre.length a, e ∈ (r.validate).errors) ∧
    (∀ ql qu, a.getProp "core:freq_lower_edge" = some (.num ql) →
      a.getProp "core:freq_upper_edge" = some (.num qu) → ql ≤ qu →
      freqEdgeRuleErrors pre.length a = []) := by
  refine ⟨?_, ?_, ?_⟩
  · intro hmism
    apply freqErrs_mem_validate r pre post a h
    unfold freqEdgeRuleErrors
    dsimp only
    rw [if_pos hmism]
    exact List.mem_append_left _ (List.mem_singleton_self _)
  · intro lower upper hl hu hbad
    refine ⟨?_, freqErrs_mem_validate r pre post a h⟩
    unfold freqEdgeRuleErrors
    dsimp only
    rw [hl, hu]
    cases lower with
    | num ql =>
      cases upper with
      | num qu =>
        have hgt : qu < ql := by
          by_contra hle
          push_neg at hle
          exact hbad ⟨ql, qu, rfl, rfl, hle⟩
        simp [JsVal.isNumber, hgt]
      | str s => simp [JsVal.isNumber]
      | bool b => simp [JsVal.isNumber]
      | null => simp [JsVal.isNumber]
      | arr l => simp [JsVal.isNumber]
      | obj kvs => simp [JsVal.isNumber]
    | str s => simp [JsVal.isNumber]
    | bool b => simp [JsVal.isNumber]
    | null => simp [JsVal.isNumber]
    | arr l => simp [JsVal.isNumber]
    | obj kvs => simp [JsVal.isNumber]
  · intro ql qu hl hu hle
    unfold freqEdgeRuleErrors
    dsimp only
    rw [hl, hu]
    simp [JsVal.isNumber, not_lt.mpr hle]

/-- Witness for `C7_freq_edge_rule`: an annotation with only
`core:freq_lower_edge` set fails validation with the paired-field
error. -/
theorem C7_freq_edge_rule_witness :
    (⟨"annotations[" ++ Nat.repr 0 ++ "]",
      "core:freq_lower_edge and core:freq_upper_edge must both be present or absent",
      none⟩ : ValidationError) ∈
      ((SigMFRecording.addAnnotation
        (SigMFRecording.mk' { datatype := "cf32_le" })
        { sampleStart := 0, freqLowerEdge := some 100000000 }).validate).errors := by
  have h := C7_freq_edge_rule
    (SigMFRecording.addAnnotation
      (SigMFRecording.mk' { datatype := "cf32_le" })
      { sampleStart := 0, freqLowerEdge := some 100000000 })
    [] []
    (annotationObjOf { sampleStart := 0, freqLowerEdge := some 100000000 })
    (by rfl)
  exact h.1 (by decide)

/-! ## Claim C8 -/

/-- **C8 counterexample**: the claim says `fromJSON` throws the
missing-required-field error *exactly when* the field is absent; but a
`global` carrying `core:version` present with the (falsy) empty-string
value also throws it. -/
theorem C8_counterexample :
    (JsVal.obj [("core:datatype", .str "cf32_le"),
      ("core:version", .str "")]).getProp "core:version"
      = some (.str "") ∧
    SigMFRecording.fromJSON
      (.obj [("global", .obj [("core:datatype", .str "cf32_le"),
        ("core:version", .str "")])])
      = .error (.missingField "core:version") :=
  ⟨rfl, rfl⟩

/-- **C8 (amended)**: `fromJSON` throws `missingGlobal` exactly when
`global` is absent, falsy or not of object type; it throws the
missing-required-field error naming `core:datatype` (checked first) or
`core:version` exactly when that field is absent *or falsy* in
`global`; otherwise it succeeds, and the captures/annotations of the
returned recording are the input arrays when the fields are arrays and
empty otherwise (no error for that omission). -/
theorem C8_fromJSON_spec (input : JsVal) :
    (SigMFRecording.fromJSON input = .error .missingGlobal ↔
      ((input.getProp "global").map
        (fun g => g.truthy && g.isObjectTypeof)).getD false = false) ∧
    (∀ g, input.getProp "global" = some g →
      (g.truthy && g.isObjectTypeof) = true →
      ((SigMFRecording.fromJSON input = .error (.missingField "core:datatype")
          ↔ ((g.getProp "core:datatype").map JsVal.truthy).getD false
            = false) ∧
       (((g.getProp "core:datatype").map JsVal.truthy).getD false = true →
        (SigMFRecording.fromJSON input = .error (.missingField "core:version")
          ↔ ((g.getProp "core:version").map JsVal.truthy).getD false
            = false)) ∧
       (((g.getProp "core:datatype").map JsVal.truthy).getD false = true →
        ((g.getProp "core:version").map JsVal.truthy).getD false = true →
        SigMFRecording.fromJSON input = .ok {
          global := spreadToPairs g
          captures :=
            match input.getProp "captures" with
            | some (.arr l) => l
            | _ => []
          annotations :=
            match input.getProp "annotations" with
            | some (.arr l) => l
            | _ => [] }))) := by
  cases hg : input.getProp "global" with
  | none =>
    have heval : SigMFRecording.fromJSON input = .error .missingGlobal := by
      unfold SigMFRecording.fromJSON
      rw [hg]
    refine ⟨by simp [heval, hg], ?_⟩
    intro g hgg
    exact absurd hgg (by simp)
  | some g =>
    by_cases hD : (g.truthy && g.isObjectTypeof) = true
    · obtain ⟨hDt, hDo⟩ : g.truthy = true ∧ g.isObjectTypeof = true := by
        simpa using hD
      by_cases hdt : ((g.getProp "core:datatype").map JsVal.truthy).getD false
          = true
      · by_cases hv : ((g.getProp "core:version").map JsVal.truthy).getD false
            = true
        · have heval : SigMFRecording.fromJSON input = .ok {
              global := spreadToPairs g
              captures :=
                match input.getProp "captures" with
                | some (.arr l) => l
                | _ => []
              annotations :=
                match input.getProp "annotations" with
                | some (.arr l) => l
                | _ => [] } := by
            unfold SigMFRecording.fromJSON
            rw [hg]
            dsimp only
            rw [if_neg (not_not_intro ⟨hDt, hDo⟩),
              if_neg (by simp [hdt]), if_neg (by simp [hv])]
          refine ⟨by simp [heval, hg, hD], ?_⟩
          intro g2 hg2 hok2
          injection hg2 with hg3
          subst hg3
          exact ⟨by simp [heval, hdt], fun _ => by simp [heval, hv],
            fun _ _ => heval⟩
        · have hvf : ((g.getProp "core:version").map JsVal.truthy).getD false
              = false := by simpa using hv
          have heval : SigMFRecording.fromJSON input
              = .error (.missingField "core:version") := by
            unfold SigMFRecording.fromJSON
            rw [hg]
            dsimp only
            rw [if_neg (not_not_intro ⟨hDt, hDo⟩),
              if_neg (by simp [hdt]), if_pos hvf]
          refine ⟨by simp [heval, hg, hD], ?_⟩
          intro g2 hg2 hok2
          injection hg2 with hg3
          subst hg3
          exact ⟨by simp [heval, hdt], fun _ => by simp [heval, hvf],
            fun _ hvv => absurd hvv (by simp [hvf])⟩
      · have hdf : ((g.getProp "core:datatype").map JsVal.truthy).getD false
            = false := by simpa using hdt
        have heval : SigMFRecording.fromJSON input
            = .error (.missingField "core:datatype") := by
          unfold SigMFRecording.fromJSON
          rw [hg]
          dsimp only
          rw [if_neg (not_not_intro ⟨hDt, hDo⟩), if_pos hdf]
        refine ⟨by simp [heval, hg, hD], ?_⟩
        intro g2 hg2 hok2
        injection hg2 with hg3
        subst hg3
        exact ⟨by simp [heval, hdf],
          fun hdd => absurd hdd (by simp [hdf]),
          fun hdd _ => absurd hdd (by simp [hdf])⟩
    · have hDf : (g.truthy && g.isObjectTypeof) = false := by simpa using hD
      have heval : SigMFRecording.fromJSON input = .error .missingGlobal := by
        unfold SigMFRecording.fromJSON
        rw [hg]
        dsimp only
        rw [if_pos (by
          intro hcc
          exact hD (by simp [hcc.1, hcc.2]))]
      refine ⟨by simp [heval, hg, hDf], ?_⟩
      intro g2 hg2 hok2
      injection hg2 with hg3
      subst hg3
      exact absurd hok2 hD

/-- Witness for `C8_fromJSON_spec`: a well-formed input with a
non-array `captures` value parses successfully with empty captures. -/
theorem C8_fromJSON_spec_witness :
    SigMFRecording.fromJSON
      (.obj [("global", .obj [("core:datatype", .str "cf32_le"),
        ("core:version", .str "1.2.0")]), ("captures", .str "junk")])
      = .ok {
        global := [("core:datatype", .str "cf32_le"),
          ("core:version", .str "1.2.0")]
        captures := []
        annotations := [] } := by
  have h := (C8_fromJSON_spec
    (.obj [("global", .obj [("core:datatype", .str "cf32_le"),
      ("core:version", .str "1.2.0")]), ("captures", .str "junk")])).2
    (.obj [("core:datatype", .str "cf32_le"),
      ("core:version", .str "1.2.0")])
    rfl (by decide)
  exact h.2.2 (by decide) (by decide)

/-! ## Lemmas: property maps and `addExtension` -/

/-- After `jsSet m k v`, looking up `k` yields `v`. -/
theorem jsGet_jsSet_self (m : List (String × JsVal)) (k : String)
    (v : JsVal) : jsGet (jsSet m k v) k = some v := by
  have key : ((jsSet m k v).find? fun kv => kv.1 == k) = some (k, v) := by
    unfold jsSet
    by_cases h : m.any fun kv => kv.1 == k
    · rw [if_pos h]
      revert h
      induction m with
      | nil => intro h; simp at h
      | cons kv m ih =>
        intro h
        by_cases hk : kv.1 == k
        · simp only [List.map_cons, if_pos hk]
          simp [List.find?_cons]
        · have hk0 : (kv.1 == k) = false := by simpa using hk
          simp only [List.map_cons]
          rw [if_neg hk]
          simp only [List.find?_cons, hk0]
          apply ih
          simp only [List.any_cons, Bool.or_eq_true] at h
          rcases h with h | h
          · exact absurd h hk
          · exact h
    · rw [if_neg h]
      revert h
      induction m with
      | nil => intro _; simp
      | cons kv m ih =>
        intro h
        simp only [List.any_cons, Bool.or_eq_true, not_or] at h
        have hk0 : (kv.1 == k) = false := by simpa using h.1
        simp only [List.cons_append, List.find?_cons, hk0]
        exact ih h.2
  simp [jsGet, key]

/-- One `addExtension` step preserves distinctness of declared
extension names. -/
theorem addExtension_namesDistinct (r : SigMFRecording) (ext : JsVal)
    (r' : SigMFRecording) (hadd : r.addExtension ext = some r')
    (hr : extNamesDistinct r) : extNamesDistinct r' := by
  unfold SigMFRecording.addExtension at hadd
  cases hg : jsGet r.global "core:extensions" with
  | none =>
    rw [hg] at hadd
    dsimp only at hadd
    rw [jsGet_jsSet_self] at hadd
    dsimp only at hadd
    rw [if_neg (by simp)] at hadd
    injection hadd with hadd
    subst hadd
    intro l hl
    rw [jsGet_jsSet_self] at hl
    injection hl with hl
    injection hl with hl
    subst hl
    simp
  | some v =>
    rw [hg] at hadd
    dsimp only at hadd
    by_cases hv : v.truthy
    · rw [if_pos hv] at hadd
      rw [hg] at hadd
      cases v with
      | arr l =>
        dsimp only at hadd
        by_cases hf : (l.find? fun e =>
            optStrictEq (e.getProp "name") (ext.getProp "name")).isSome
        · rw [if_pos hf] at hadd
          injection hadd with hadd
          subst hadd
          intro l' hl'
          exact hr l' hl'
        · rw [if_neg hf] at hadd
          injection hadd with hadd
          subst hadd
          intro l' hl'
          rw [jsGet_jsSet_self] at hl'
          injection hl' with hl'
          injection hl' with hl'
          subst hl'
          rw [List.pairwise_append]
          refine ⟨hr l hg, List.pairwise_singleton _ _, ?_⟩
          intro a ha b hb
          simp only [List.mem_singleton] at hb
          have hfn : (l.find? fun e =>
              optStrictEq (e.getProp "name") (ext.getProp "name")) = none :=
            Option.not_isSome_iff_eq_none.mp hf
          rw [hb]
          simpa using List.find?_eq_none.mp hfn a ha
      | num q => exact Option.noConfusion hadd
      | str s => exact Option.noConfusion hadd
      | bool b => exact Option.noConfusion hadd
      | null => exact Option.noConfusion hadd
      | obj o => exact Option.noConfusion hadd
    · rw [if_neg hv] at hadd
      rw [jsGet_jsSet_self] at hadd
      dsimp only at hadd
      rw [if_neg (by simp)] at hadd
      injection hadd with hadd
      subst hadd
      intro l hl
      rw [jsGet_jsSet_self] at hl
      injection hl with hl
      injection hl with hl
      subst hl
      simp

/-! ## Claim C10 -/

/-- C10: `addExtension` deduplicates by namespace name only.  When the
declared `core:extensions` array already holds an entry whose `name`
strictly equals the new declaration's `name`, the recording is returned
entirely unchanged (the differing `version`/`optional` fields of the
new declaration are ignored); otherwise the declaration is appended at
the end of the array.  Consequently every `addExtension`-only history
that starts from a recording with pairwise-distinct declared names ends
in one: no two declared extensions ever share a name. -/
theorem C10_addExtension_dedup :
    (∀ (r : SigMFRecording) (ext : JsVal) (l : List JsVal),
      jsGet r.global "core:extensions" = some (.arr l) →
      (((l.find? fun e =>
          optStrictEq (e.getProp "name") (ext.getProp "name")).isSome
            = true →
        r.addExtension ext = some r) ∧
       ((l.find? fun e =>
          optStrictEq (e.getProp "name") (ext.getProp "name")) = none →
        r.addExtension ext = some { r with
          global :=
            jsSet r.global "core:extensions" (.arr (l ++ [ext])) }))) ∧
    (∀ (r : SigMFRecording) (exts : List JsVal) (r' : SigMFRecording),
      addExtensions r exts = some r' →
      extNamesDistinct r → extNamesDistinct r') := by
  constructor
  · intro r ext l hget
    have harr : JsVal.truthy (.arr l) = true := rfl
    constructor
    · intro hf
      unfold SigMFRecording.addExtension
      rw [hget]
      dsimp only
      rw [if_pos harr, hget]
      dsimp only
      rw [if_pos hf]
    · intro hf
      unfold SigMFRecording.addExtension
      rw [hget]
      dsimp only
      rw [if_pos harr, hget]
      dsimp only
      rw [if_neg (by simp [hf])]
  · intro r exts
    induction exts generalizing r with
    | nil =>
      intro r' hfold hr
      simp only [addExtensions, List.foldlM_nil] at hfold
      injection hfold with hfold
      subst hfold
      exact hr
    | cons e exts ih =>
      intro r' hfold hr
      simp only [addExtensions, List.foldlM_cons] at hfold
      cases hstep : r.addExtension e with
      | none => rw [hstep] at hfold; exact Option.noConfusion hfold
      | some r1 =>
        rw [hstep] at hfold
        simp only [Option.bind_eq_bind, Option.some_bind] at hfold
        exact ih r1 r' hfold (addExtension_namesDistinct r e r1 hstep hr)

/-- Witness for `C10_addExtension_dedup`: re-declaring extension
`"ns"` with a different version leaves the recording unchanged, and a
two-step history from an empty recording yields distinct names. -/
theorem C10_addExtension_dedup_witness :
    (SigMFRecording.mk [("core:extensions",
        .arr [.obj [("name", .str "ns"), ("version", .str "1.0.0")]])]
        [] []).addExtension
      (.obj [("name", .str "ns"), ("version", .str "2.0.0")])
      = some (SigMFRecording.mk [("core:extensions",
        .arr [.obj [("name", .str "ns"), ("version", .str "1.0.0")]])]
        [] []) ∧
    extNamesDistinct (SigMFRecording.mk [("core:extensions",
      .arr [.obj [("name", .str "a")], .obj [("name", .str "b")]])]
      [] []) := by
  constructor
  · exact ((C10_addExtension_dedup.1
      (SigMFRecording.mk [("core:extensions",
        .arr [.obj [("name", .str "ns"), ("version", .str "1.0.0")]])]
        [] [])
      (.obj [("name", .str "ns"), ("version", .str "2.0.0")])
      [.obj [("name", .str "ns"), ("version", .str "1.0.0")]]
      rfl).1 rfl)
  · exact C10_addExtension_dedup.2 (SigMFRecording.mk [] [] [])
      [.obj [("name", .str "a")], .obj [("name", .str "b")]]
      (SigMFRecording.mk [("core:extensions",
        .arr [.obj [("name", .str "a")], .obj [("name", .str "b")]])]
        [] [])
      rfl
      (fun l hl => Option.noConfusion hl)

/-! ## Lemmas: stream loop -/

/-- `readSamples` with no options on a whole buffer succeeds, with the
buffer's whole-sample count. -/
theorem readSamples_whole (slice : List Nat) (dt : String)
    (info : DatatypeInfo) (hp : parseDatatype dt = some info)
    (hbps : 0 < info.bytesPerSample) :
    ∃ sd, readSamples slice dt none none = .ok sd ∧
      sd.sampleCount = slice.length / info.bytesPerSample := by
  rw [readSamples_eq_ok slice dt info none none hp hbps (by simp)]
  dsimp only
  cases info.isComplex
  · exact ⟨_, by rw [if_neg (by simp)], by simp⟩
  · exact ⟨_, by rw [if_pos rfl], by simp⟩

/-- The stream loop: its slices concatenate (with the final remainder)
to the whole byte stream, every slice is a nonempty multiple of the
sample width, and the final remainder is smaller than one sample. -/
theorem sLoop_spec (bps chunkBytes : Nat) (hbps : 0 < bps)
    (hcb : bps ≤ chunkBytes) (buffer : List Nat)
    (inc : List (List Nat)) (done : Bool) :
    (done = true → inc = [] ∧ buffer.length < bps) →
    (sLoop bps chunkBytes buffer inc done).1.flatten
        ++ (sLoop bps chunkBytes buffer inc done).2
      = buffer ++ inc.flatten ∧
    (∀ sl ∈ (sLoop bps chunkBytes buffer inc done).1,
      0 < sl.length ∧ sl.length % bps = 0) ∧
    (sLoop bps chunkBytes buffer inc done).2.length < bps := by
  induction buffer, inc, done using sLoop.induct bps chunkBytes with
  | case1 buffer inc =>
    intro hdone
    obtain ⟨hinc, hlen⟩ := hdone rfl
    subst hinc
    have hS : sLoop bps chunkBytes buffer [] true = ([], buffer) := by
      unfold sLoop
      rw [if_pos rfl]
    refine ⟨by simp [hS], by simp [hS], by simp only [hS]; exact hlen⟩
  | case2 buffer done h1 h2 h3 =>
    intro hdone
    have hS : sLoop bps chunkBytes buffer [] done = ([], buffer) := by
      unfold sLoop
      rw [if_neg h1, if_pos h2]
      dsimp only
      rw [if_pos h3]
    refine ⟨by simp [hS], by simp [hS],
      by simp only [hS, h3]; exact hbps⟩
  | case3 buffer done h1 h2 h3 cs hcs ih =>
    intro hdone
    have hcs2 : 0 < buffer.length / bps := hcs
    have hdrop : (List.drop (buffer.length / bps * bps) buffer).length
        < bps := by
      have hdm := Nat.div_add_mod buffer.length bps
      have hmod : buffer.length % bps < bps := Nat.mod_lt _ hbps
      have hmc : buffer.length / bps * bps = bps * (buffer.length / bps) :=
        Nat.mul_comm _ _
      simp only [List.length_drop]
      omega
    obtain ⟨ih1, ih2, ih3⟩ := ih (fun _ => ⟨rfl, hdrop⟩)
    have hS : sLoop bps chunkBytes buffer [] done
        = (List.take (buffer.length / bps * bps) buffer
            :: (sLoop bps chunkBytes
              (List.drop (buffer.length / bps * bps) buffer) [] true).1,
          (sLoop bps chunkBytes
            (List.drop (buffer.length / bps * bps) buffer) [] true).2) := by
      conv_lhs => rw [sLoop.eq_def]
      rw [if_neg h1, if_pos h2]
      dsimp only
      rw [if_neg h3, dif_pos hcs2]
    refine ⟨?_, ?_, ?_⟩
    · rw [hS, List.flatten_cons, List.append_assoc, ih1,
        ← List.append_assoc, List.take_append_drop]
    · rw [hS]
      intro sl hsl
      rcases List.mem_cons.mp hsl with rfl | hsl
      · constructor
        · rw [List.length_take]
          have h1' : 0 < buffer.length / bps * bps :=
            Nat.mul_pos hcs2 hbps
          have h2' : buffer.length / bps * bps ≤ buffer.length :=
            Nat.div_mul_le_self _ _
          omega
        · rw [List.length_take,
            Nat.min_eq_left (Nat.div_mul_le_self _ _)]
          exact Nat.mul_mod_left _ _
      · exact ih2 sl hsl
    · rw [hS]
      exact ih3
  | case4 buffer done h1 h2 h3 cs hcs =>
    intro hdone
    have hcs2 : ¬ 0 < buffer.length / bps := hcs
    have h0 : buffer.length / bps = 0 := Nat.eq_zero_of_not_pos hcs2
    have hlen : buffer.length < bps := by
      have hdm := Nat.div_add_mod buffer.length bps
      have hmod : buffer.length % bps < bps := Nat.mod_lt _ hbps
      rw [h0, Nat.mul_zero, Nat.zero_add] at hdm
      omega
    have hS : sLoop bps chunkBytes buffer [] done = ([], buffer) := by
      unfold sLoop
      rw [if_neg h1, if_pos h2]
      dsimp only
      rw [if_neg h3, dif_neg hcs2]
    refine ⟨by simp [hS], by simp [hS], by simp only [hS]; exact hlen⟩
  | case5 buffer done h1 h2 c rest ih =>
    intro hdone
    obtain ⟨ih1, ih2, ih3⟩ := ih (by simp)
    have hS : sLoop bps chunkBytes buffer (c :: rest) done
        = sLoop bps chunkBytes (buffer ++ c) rest false := by
      conv_lhs => rw [sLoop.eq_def]
      rw [if_neg h1, if_pos h2]
    refine ⟨?_, ?_, ?_⟩
    · rw [hS, ih1, List.flatten_cons, List.append_assoc]
    · rw [hS]; exact ih2
    · rw [hS]; exact ih3
  | case6 buffer inc done h1 h2 h3 =>
    intro hdone
    exact absurd hbps (by omega)
  | case7 buffer inc done h1 h2 h3 cs hcs ih =>
    intro hdone
    have hcs2 : 0 < buffer.length / bps := hcs
    obtain ⟨ih1, ih2, ih3⟩ := ih (by simp)
    have hS : sLoop bps chunkBytes buffer inc done
        = (List.take (buffer.length / bps * bps) buffer
            :: (sLoop bps chunkBytes
              (List.drop (buffer.length / bps * bps) buffer) inc false).1,
          (sLoop bps chunkBytes
            (List.drop (buffer.length / bps * bps) buffer) inc false).2) := by
      conv_lhs => rw [sLoop.eq_def]
      rw [if_neg h1, if_neg h2, if_neg h3, dif_pos hcs2]
    refine ⟨?_, ?_, ?_⟩
    · rw [hS, List.flatten_cons, List.append_assoc, ih1,
        ← List.append_assoc, List.take_append_drop]
    · rw [hS]
      intro sl hsl
      rcases List.mem_cons.mp hsl with rfl | hsl
      · constructor
        · rw [List.length_take]
          have h1' : 0 < buffer.length / bps * bps :=
            Nat.mul_pos hcs2 hbps
          have h2' : buffer.length / bps * bps ≤ buffer.length :=
            Nat.div_mul_le_self _ _
          omega
        · rw [List.length_take,
            Nat.min_eq_left (Nat.div_mul_le_self _ _)]
          exact Nat.mul_mod_left _ _
      · exact ih2 sl hsl
    · rw [hS]
      exact ih3
  | case8 buffer inc done h1 h2 h3 cs hcs =>
    intro hdone
    exact absurd
      (Nat.div_pos (le_trans hcb (Nat.le_of_not_lt h2)) hbps) hcs

/-- Dividing a sum of multiples of `bps` termwise equals dividing the
sum. -/
theorem sum_len_div (bps : Nat) (hbps : 0 < bps) :
    ∀ ls : List (List Nat), (∀ sl ∈ ls, sl.length % bps = 0) →
      (ls.map fun sl => sl.length / bps).sum
        = (ls.map List.length).sum / bps := by
  intro ls
  induction ls with
  | nil => intro _; simp
  | cons a ls ih =>
    intro h
    have ha : a.length % bps = 0 := h a (List.mem_cons_self a ls)
    have hrest := ih (fun sl hsl => h sl (List.mem_cons_of_mem _ hsl))
    obtain ⟨k, hk⟩ := Nat.dvd_of_mod_eq_zero ha
    simp only [List.map_cons, List.sum_cons, hrest, hk]
    rw [Nat.mul_add_div hbps, Nat.mul_div_cancel_left _ hbps]

/-- When the whole byte stream is below one chunk, the loop yields all
its whole samples as a single slice. -/
theorem sLoop_small (bps chunkBytes : Nat) :
    ∀ (inc : List (List Nat)) (buffer : List Nat),
      (buffer ++ inc.flatten).length < chunkBytes →
      0 < (buffer ++ inc.flatten).length / bps →
      (sLoop bps chunkBytes buffer inc false).1
        = [(buffer ++ inc.flatten).take
            ((buffer ++ inc.flatten).length / bps * bps)] := by
  intro inc
  induction inc with
  | nil =>
    intro buffer hlt hpos
    simp only [List.flatten_nil, List.append_nil] at hlt hpos ⊢
    have hne : ¬ buffer.length = 0 := by
      intro h0
      rw [h0] at hpos
      simp at hpos
    have hS : sLoop bps chunkBytes
        (List.drop (buffer.length / bps * bps) buffer) [] true
        = ([], List.drop (buffer.length / bps * bps) buffer) := by
      unfold sLoop
      rw [if_pos rfl]
    unfold sLoop
    rw [if_neg (by simp), if_pos hlt]
    dsimp only
    rw [if_neg hne, dif_pos hpos, hS]
  | cons c rest ih =>
    intro buffer hlt hpos
    have hblt : buffer.length < chunkBytes := by
      have hle : buffer.length ≤ (buffer ++ (c :: rest).flatten).length := by
        simp [List.length_append]
      omega
    have hrec := ih (buffer ++ c)
      (by simpa [List.flatten_cons, List.append_assoc] using hlt)
      (by simpa [List.flatten_cons, List.append_assoc] using hpos)
    unfold sLoop
    rw [if_neg (by simp), if_pos hblt]
    dsimp only
    simpa [List.flatten_cons, List.append_assoc] using hrec

/-! ## Claim C6 -/

/-- C6: for a byte source delivered in arbitrary chunks and a valid
datatype, with any chunk size of at least one sample, `streamSamples`
yields only successful reads whose `sampleCount`s sum to the number `N`
of whole samples in the source (trailing bytes short of one sample are
discarded); an empty source (`N = 0`) yields zero chunks, and when the
chunk size exceeds `N > 0` a single chunk is yielded. -/
theorem C6_streamSamples_total (datatype : String) (info : DatatypeInfo)
    (source : List (List Nat)) (chunkSamples : Nat)
    (hp : parseDatatype datatype = some info)
    (hchunk : 1 ≤ chunkSamples) :
    ∃ chunks, streamSamples source datatype chunkSamples = some chunks ∧
      (∀ c ∈ chunks, ∃ sd, c = .ok sd) ∧
      (chunks.map countOf).sum
        = source.flatten.length / info.bytesPerSample ∧
      (source.flatten.length / info.bytesPerSample = 0 → chunks = []) ∧
      (0 < source.flatten.length / info.bytesPerSample →
        source.flatten.length / info.bytesPerSample < chunkSamples →
        chunks.length = 1) := by
  obtain ⟨hbpc, -, hbpsEq, -, -⟩ := parseDatatype_info datatype info hp
  have hbps : 0 < info.bytesPerSample := by
    rw [hbpsEq]
    exact Nat.mul_pos (by split <;> omega) (by omega)
  have hcb : info.bytesPerSample
      ≤ chunkSamples * info.bytesPerSample := by
    calc info.bytesPerSample = 1 * info.bytesPerSample :=
          (one_mul _).symm
      _ ≤ chunkSamples * info.bytesPerSample :=
          Nat.mul_le_mul_right _ hchunk
  obtain ⟨hflatten, hmul, hrem⟩ :=
    sLoop_spec info.bytesPerSample (chunkSamples * info.bytesPerSample)
      hbps hcb [] source false (by simp)
  have hchunks : streamSamples source datatype chunkSamples
      = some ((sLoop info.bytesPerSample
          (chunkSamples * info.bytesPerSample) [] source false).1.map
        fun b => readSamples b datatype none none) := by
    unfold streamSamples
    rw [hp]
    dsimp only
    rw [if_neg (by omega), List.append_nil]
  have hlensum : ((sLoop info.bytesPerSample
        (chunkSamples * info.bytesPerSample) [] source false).1.map
          List.length).sum
      + (sLoop info.bytesPerSample
          (chunkSamples * info.bytesPerSample) [] source false).2.length
      = source.flatten.length := by
    have := congrArg List.length hflatten
    simpa [List.length_append, List.length_flatten] using this
  have hcnt : ∀ b ∈ (sLoop info.bytesPerSample
        (chunkSamples * info.bytesPerSample) [] source false).1,
      countOf (readSamples b datatype none none)
        = b.length / info.bytesPerSample := by
    intro b hb
    obtain ⟨sd, hsd, hc⟩ := readSamples_whole b datatype info hp hbps
    rw [hsd]
    simpa [countOf] using hc
  refine ⟨_, hchunks, ?_, ?_, ?_, ?_⟩
  · intro c hc
    obtain ⟨b, hb, rfl⟩ := List.mem_map.mp hc
    obtain ⟨sd, hsd, -⟩ := readSamples_whole b datatype info hp hbps
    exact ⟨sd, hsd⟩
  · have hmapeq : ((sLoop info.bytesPerSample
          (chunkSamples * info.bytesPerSample) [] source false).1.map
            fun b => countOf (readSamples b datatype none none))
        = ((sLoop info.bytesPerSample
            (chunkSamples * info.bytesPerSample) [] source false).1.map
          fun b => b.length / info.bytesPerSample) :=
      List.map_congr_left hcnt
    rw [List.map_map]
    simp only [Function.comp_def]
    rw [hmapeq]
    rw [sum_len_div info.bytesPerSample hbps _
      (fun sl hsl => (hmul sl hsl).2)]
    obtain ⟨m, hm⟩ := List.dvd_sum
      (l := ((sLoop info.bytesPerSample
        (chunkSamples * info.bytesPerSample) [] source false).1.map
          List.length))
      (fun x hx => by
        obtain ⟨sl, hsl, rfl⟩ := List.mem_map.mp hx
        exact Nat.dvd_of_mod_eq_zero (hmul sl hsl).2)
    rw [hm, Nat.mul_div_cancel_left _ hbps]
    have htot : source.flatten.length
        = info.bytesPerSample * m
          + (sLoop info.bytesPerSample
              (chunkSamples * info.bytesPerSample) [] source false).2.length := by
      omega
    rw [htot, Nat.mul_add_div hbps, Nat.div_eq_of_lt hrem]
    omega
  · intro hN
    cases hr1 : (sLoop info.bytesPerSample
        (chunkSamples * info.bytesPerSample) [] source false).1 with
    | nil => simp [hr1]
    | cons a t =>
      exfalso
      obtain ⟨hapos, hamod⟩ := hmul a (by rw [hr1]; exact List.mem_cons_self _ _)
      have hge : info.bytesPerSample ≤ a.length :=
        Nat.le_of_dvd hapos (Nat.dvd_of_mod_eq_zero hamod)
      have hsum : a.length ≤ ((sLoop info.bytesPerSample
          (chunkSamples * info.bytesPerSample) [] source false).1.map
            List.length).sum := by
        rw [hr1]
        simp only [List.map_cons, List.sum_cons]
        omega
      have hNpos : 0 < source.flatten.length / info.bytesPerSample :=
        Nat.div_pos (by omega) hbps
      omega
  · intro hNpos hNlt
    have hmod : source.flatten.length % info.bytesPerSample
        < info.bytesPerSample := Nat.mod_lt _ hbps
    have hdm := Nat.div_add_mod source.flatten.length info.bytesPerSample
    have hlt : source.flatten.length
        < chunkSamples * info.bytesPerSample := by
      have hstep : info.bytesPerSample
            * (source.flatten.length / info.bytesPerSample + 1)
          ≤ info.bytesPerSample * chunkSamples :=
        Nat.mul_le_mul_left _ (by omega)
      have hcomm : info.bytesPerSample * chunkSamples
          = chunkSamples * info.bytesPerSample := Nat.mul_comm _ _
      have hexp : info.bytesPerSample
            * (source.flatten.length / info.bytesPerSample + 1)
          = info.bytesPerSample
              * (source.flatten.length / info.bytesPerSample)
            + info.bytesPerSample := by ring
      omega
    have hsmall := sLoop_small info.bytesPerSample
      (chunkSamples * info.bytesPerSample) source []
      (by simpa using hlt) (by simpa using hNpos)
    simp only [List.nil_append] at hsmall
    simp [hsmall]

/-- Witness for `C6_streamSamples_total`: datatype `u8`, source chunks
`[[1, 2], [3]]`, chunk size `2`. -/
theorem C6_streamSamples_total_witness :
    ∃ chunks, streamSamples [[1, 2], [3]] "ru8" 2 = some chunks ∧
      (∀ c ∈ chunks, ∃ sd, c = .ok sd) ∧
      (chunks.map countOf).sum
        = (List.flatten [[1, 2], [3]]).length
          / DatatypeInfo.bytesPerSample
            { isComplex := false, format := .int, signed := false,
              bitsPerComponent := 8, bytesPerComponent := 1,
              bytesPerSample := 1, littleEndian := none,
              datatype := "ru8" } ∧
      ((List.flatten [[1, 2], [3]]).length
          / DatatypeInfo.bytesPerSample
            { isComplex := false, format := .int, signed := false,
              bitsPerComponent := 8, bytesPerComponent := 1,
              bytesPerSample := 1, littleEndian := none,
              datatype := "ru8" } = 0 → chunks = []) ∧
      (0 < (List.flatten [[1, 2], [3]]).length
          / DatatypeInfo.bytesPerSample
            { isComplex := false, format := .int, signed := false,
              bitsPerComponent := 8, bytesPerComponent := 1,
              bytesPerSample := 1, littleEndian := none,
              datatype := "ru8" } →
        (List.flatten [[1, 2], [3]]).length
          / DatatypeInfo.bytesPerSample
            { isComplex := false, format := .int, signed := false,
              bitsPerComponent := 8, bytesPerComponent := 1,
              bytesPerSample := 1, littleEndian := none,
              datatype := "ru8" } < 2 →
        chunks.length = 1) :=
  C6_streamSamples_total "ru8"
    { isComplex := false, format := .int, signed := false,
      bitsPerComponent := 8, bytesPerComponent := 1,
      bytesPerSample := 1, littleEndian := none, datatype := "ru8" }
    [[1, 2], [3]] 2 (by decide) (by decide)

/-! ## Lemmas: heap model -/

/-- Structural mutations only ever append to the heap. -/
theorem applyHOps_store_extends (s : Store) (r : RecordingH)
    (ops : List HOp) :
    ∃ t, (applyHOps (s, r) ops).1 = s ++ t := by
  induction ops generalizing s r with
  | nil => exact ⟨[], by simp [applyHOps]⟩
  | cons op ops ih =>
    have hstep : applyHOps (s, r) (op :: ops)
        = applyHOps (applyHOp (s, r) op) ops := by
      simp [applyHOps, List.foldl_cons]
    cases op with
    | addCap pairs =>
      obtain ⟨t, ht⟩ := ih (s ++ [HObj.obj pairs])
        { r with captures := r.captures ++ [.ref s.length] }
      exact ⟨[HObj.obj pairs] ++ t, by
        rw [hstep]
        simpa [applyHOp, List.append_assoc] using ht⟩
    | setGlobal k v =>
      obtain ⟨t, ht⟩ := ih s { r with global := hSet r.global k v }
      exact ⟨t, by rw [hstep]; simpa [applyHOp] using ht⟩

/-- Appending fresh objects to the heap does not change a dereferencing
read whose references are all valid in the original heap. -/
theorem readCaptureField_append (s t : Store) (m : MetadataSnapshot)
    (i : Nat) (k : String)
    (hv : validRefsB s m.captures = true) :
    readCaptureField (s ++ t) m i k = readCaptureField s m i k := by
  unfold readCaptureField
  cases hc : m.captures.get? i with
  | none => rfl
  | some v =>
    cases v with
    | ref a =>
      have hmem : HVal.ref a ∈ m.captures := List.get?_mem hc
      have ha : a < s.length := by
        have := List.all_eq_true.mp hv _ hmem
        simpa using this
      dsimp only
      rw [List.get?_eq_getElem?, List.get?_eq_getElem?,
        List.getElem?_append_left ha]
    | num q => rfl
    | str s2 => rfl
    | bool b => rfl
    | null => rfl

/-! ## Claim C9 -/

/-- C9: counterexample.  `toMetadata()` is only a shallow copy: the
capture objects stay shared by reference, so mutating a field of an
existing capture through the recording after the snapshot was taken
changes what the snapshot observes — here `core:frequency` was absent
from the snapshot's capture when it was taken and reads back `100`
after the recording is mutated. -/
theorem C9_counterexample :
    readCaptureField [HObj.obj [("core:sample_start", .num 0)]]
      (toMetadataH ⟨[("core:datatype", .str "cf32_le")], [.ref 0], []⟩)
      0 "core:frequency" = none ∧
    readCaptureField
      (setCaptureFieldH [HObj.obj [("core:sample_start", .num 0)]]
        ⟨[("core:datatype", .str "cf32_le")], [.ref 0], []⟩
        0 "core:frequency" (.num 100))
      (toMetadataH ⟨[("core:datatype", .str "cf32_le")], [.ref 0], []⟩)
      0 "core:frequency" = some (.num 100) :=
  ⟨rfl, rfl⟩

/-- C9 (amended): `toMetadata()` is a shallow snapshot.  Its three
containers are fresh copies, so any later sequence of structural
mutations of the recording — pushing new captures (which only allocates
fresh heap objects) or assigning top-level global keys (which does not
touch the heap) — leaves every heap observation made through the
earlier snapshot unchanged, provided the snapshot's references were
valid; but interior mutation of a shared capture object does leak into
the snapshot (see the counterexample). -/
theorem C9_toMetadata_shallow (s : Store) (r : RecordingH)
    (ops : List HOp) (i : Nat) (k : String)
    (hv : validRefsB s (toMetadataH r).captures = true) :
    readCaptureField (applyHOps (s, r) ops).1 (toMetadataH r) i k
      = readCaptureField s (toMetadataH r) i k := by
  obtain ⟨t, ht⟩ := applyHOps_store_extends s r ops
  rw [ht]
  exact readCaptureField_append s t _ i k hv

/-- Witness for `C9_toMetadata_shallow`: on a one-capture recording, a
push of a second capture followed by a top-level global assignment
leaves the earlier snapshot's observed capture field unchanged. -/
theorem C9_toMetadata_shallow_witness :
    validRefsB [HObj.obj [("core:frequency", .num 1)]]
      (toMetadataH ⟨[("core:datatype", .str "cf32_le")],
        [.ref 0], []⟩).captures = true ∧
    readCaptureField
      (applyHOps ([HObj.obj [("core:frequency", .num 1)]],
        (⟨[("core:datatype", .str "cf32_le")], [.ref 0], []⟩ :
          RecordingH))
        [.addCap [("core:sample_start", .num 5)],
         .setGlobal "core:version" (.str "1.2.0")]).1
      (toMetadataH ⟨[("core:datatype", .str "cf32_le")], [.ref 0], []⟩)
      0 "core:frequency"
      = readCaptureField [HObj.obj [("core:frequency", .num 1)]]
        (toMetadataH ⟨[("core:datatype", .str "cf32_le")], [.ref 0], []⟩)
        0 "core:frequency" :=
  ⟨rfl, C9_toMetadata_shallow _ _ _ 0 "core:frequency" rfl⟩

/-! ## Lemmas: JSON characters and whitespace -/

/-- Facts about decimal digit characters. -/
theorem digit_char_facts : ∀ d, d < 10 →
    isWsC (Char.ofNat (48 + d)) = false ∧
    charDigit? (Char.ofNat (48 + d)) = some d ∧
    (Char.ofNat (48 + d)).toNat = 48 + d ∧
    Char.ofNat (48 + d) ≠ 'n' ∧ Char.ofNat (48 + d) ≠ 't' ∧
    Char.ofNat (48 + d) ≠ 'f' ∧ Char.ofNat (48 + d) ≠ '"' ∧
    Char.ofNat (48 + d) ≠ '[' ∧ Char.ofNat (48 + d) ≠ '{' ∧
    Char.ofNat (48 + d) ≠ '-' := by decide

theorem skipWs_cons_not {c : Char} (l : List Char)
    (h : isWsC c = false) : skipWs (c :: l) = c :: l := by
  simp [skipWs, h]

theorem skipWs_append_of_all {pre : List Char} (l : List Char)
    (h : ∀ c ∈ pre, isWsC c = true) :
    skipWs (pre ++ l) = skipWs l := by
  induction pre with
  | nil => rfl
  | cons c cs ih =>
    have hc := h c (List.mem_cons_self _ _)
    simp only [List.cons_append, skipWs, hc, if_pos]
    exact ih fun c hc2 => h c (List.mem_cons_of_mem _ hc2)

theorem wsIndent_ws (d : Nat) : ∀ c ∈ wsIndent d, isWsC c = true := by
  intro c hc
  rw [wsIndent] at hc
  rw [List.eq_of_mem_replicate hc]
  rfl

theorem wsIndent_length (d : Nat) : (wsIndent d).length = 2 * d := by
  simp [wsIndent]

/-- The parser only looks at the input through `skipWs`. -/
theorem parseJM_congr (fuel : Nat) (m : PMode) (s s' : List Char)
    (h : skipWs s = skipWs s') :
    parseJM fuel m s = parseJM fuel m s' := by
  cases fuel with
  | zero => rfl
  | succ fuel =>
    cases m with
    | top => simp only [parseJM]; rw [h]
    | arrRest acc => simp only [parseJM]; rw [h]
    | objRest acc => simp only [parseJM]; rw [h]

/-! ## Lemmas: decimal rendering -/

theorem natCharsAux_digits : ∀ fuel n, n < 10 ^ fuel → 0 < fuel →
    natCharsAux fuel n ≠ [] ∧
    ∀ c ∈ natCharsAux fuel n, ∃ d, d < 10 ∧ c = Char.ofNat (48 + d) := by
  intro fuel
  induction fuel with
  | zero => intro n _ h; omega
  | succ fuel ih =>
    intro n hn _
    by_cases h10 : n < 10
    · rw [natCharsAux, if_pos h10]
      refine ⟨by simp, ?_⟩
      intro c hc
      simp only [List.mem_singleton] at hc
      exact ⟨n, h10, hc⟩
    · rw [natCharsAux, if_neg h10]
      have hfuel : 0 < fuel := by
        by_contra h0
        have : fuel = 0 := by omega
        subst this
        simp at hn
        omega
      have hdiv : n / 10 < 10 ^ fuel := by
        rw [Nat.div_lt_iff_lt_mul (by norm_num)]
        calc n < 10 ^ (fuel + 1) := hn
          _ = 10 ^ fuel * 10 := by ring
      obtain ⟨hne, hdig⟩ := ih (n / 10) hdiv hfuel
      constructor
      · simp
      · intro c hc
        rcases List.mem_append.mp hc with hc | hc
        · exact hdig c hc
        · simp only [List.mem_singleton] at hc
          exact ⟨n % 10, Nat.mod_lt _ (by norm_num), hc⟩

theorem digitsVal_append (ds es : List Char) (acc : Nat) :
    digitsVal (ds ++ es) acc =
      (digitsVal ds acc).bind fun v => digitsVal es v := by
  induction ds generalizing acc with
  | nil => rfl
  | cons c cs ih =>
    simp only [List.cons_append, digitsVal]
    cases charDigit? c with
    | none => rfl
    | some d => exact ih _

theorem digitsVal_natCharsAux : ∀ fuel n acc, n < 10 ^ fuel → 0 < fuel →
    digitsVal (natCharsAux fuel n) acc
      = some (acc * 10 ^ (natCharsAux fuel n).length + n) := by
  intro fuel
  induction fuel with
  | zero => intro n _ h; omega
  | succ fuel ih =>
    intro n acc hn _
    by_cases h10 : n < 10
    · rw [natCharsAux, if_pos h10]
      simp only [digitsVal, (digit_char_facts n h10).2.1]
      simp [pow_one]
    · rw [natCharsAux, if_neg h10]
      have hfuel : 0 < fuel := by
        by_contra h0
        have : fuel = 0 := by omega
        subst this
        simp at hn
        omega
      have hdiv : n / 10 < 10 ^ fuel := by
        rw [Nat.div_lt_iff_lt_mul (by norm_num)]
        calc n < 10 ^ (fuel + 1) := hn
          _ = 10 ^ fuel * 10 := by ring
      rw [digitsVal_append, ih (n / 10) acc hdiv hfuel]
      simp only [Option.some_bind, digitsVal,
        (digit_char_facts (n % 10) (Nat.mod_lt _ (by norm_num))).2.1,
        List.length_append, List.length_singleton]
      congr 1
      have hdm := Nat.div_add_mod n 10
      rw [pow_succ]
      ring_nf
      omega

theorem takeDigits_append (ds rest : List Char) (acc v : Nat)
    (hval : digitsVal ds acc = some v) (hrest : headNotDigit rest) :
    takeDigits (ds ++ rest) acc = (v, rest) := by
  induction ds generalizing acc with
  | nil =>
    simp only [digitsVal] at hval
    injection hval with hval
    subst hval
    cases rest with
    | nil => rfl
    | cons c cs =>
      simp only [List.nil_append, takeDigits, hrest c rfl]
  | cons c cs ih =>
    simp only [digitsVal] at hval
    cases hc : charDigit? c with
    | none => rw [hc] at hval; exact absurd hval (by simp)
    | some d =>
      rw [hc] at hval
      simp only [List.cons_append, takeDigits, hc]
      exact ih _ hval

/-- Parsing the decimal rendering of a natural number. -/
theorem natChars_spec (n : Nat) :
    natChars n ≠ [] ∧
    (∀ c ∈ natChars n, ∃ d, d < 10 ∧ c = Char.ofNat (48 + d)) ∧
    digitsVal (natChars n) 0 = some n := by
  have hlt : n < 10 ^ (n + 1) := by
    calc n < n + 1 := by omega
      _ ≤ 10 ^ (n + 1) := Nat.le_of_lt (Nat.lt_pow_self (by norm_num) _)
  obtain ⟨h1, h2⟩ := natCharsAux_digits (n + 1) n hlt (by omega)
  refine ⟨h1, h2, ?_⟩
  rw [natChars, digitsVal_natCharsAux (n + 1) n 0 hlt (by omega)]
  simp

/-! ## Lemmas: JSON tokens -/

theorem dropPrefix?_append (ps rest : List Char) :
    dropPrefix? ps (ps ++ rest) = some rest := by
  induction ps with
  | nil => rfl
  | cons p ps ih => simp only [List.cons_append, dropPrefix?, if_pos]; exact ih

theorem parseStringBody_append (cs rest : List Char)
    (h : ∀ c ∈ cs, 31 < c.toNat ∧ c ≠ '"' ∧ c ≠ '\\') :
    parseStringBody (cs ++ '"' :: rest) = some (cs, rest) := by
  induction cs with
  | nil => simp [parseStringBody]
  | cons c cs ih =>
    obtain ⟨h1, h2, h3⟩ := h c (List.mem_cons_self _ _)
    simp only [List.cons_append, parseStringBody]
    rw [if_neg h2, if_neg (by push_neg; exact ⟨h3, by omega⟩)]
    simp only [List.append_eq]
    rw [ih fun c hc => h c (List.mem_cons_of_mem _ hc)]
    rfl

theorem strOkB_spec (s : String) (h : strOkB s = true) :
    ∀ c ∈ s.data, 31 < c.toNat ∧ c.toNat < 128 ∧ c ≠ '"' ∧ c ≠ '\\' := by
  intro c hc
  have h2 := List.all_eq_true.mp h c hc
  simp only [Bool.and_eq_true, decide_eq_true_eq, Bool.not_eq_true',
    beq_eq_false_iff_ne] at h2
  exact ⟨h2.1.1.1, h2.1.1.2, h2.1.2, h2.2⟩

theorem mapM_some_mem {α β : Type} (f : α → Option β) :
    ∀ (l : List α) (ys : List β), l.mapM f = some ys →
      ∀ y ∈ ys, ∃ x ∈ l, f x = some y := by
  intro l
  induction l with
  | nil =>
    intro ys h y hy
    simp only [List.mapM_nil, pure] at h
    injection h with h
    subst h
    simp at hy
  | cons x l ih =>
    intro ys h y hy
    simp only [List.mapM_cons] at h
    cases hx : f x with
    | none => rw [hx] at h; simp at h
    | some b =>
      rw [hx] at h
      cases hl : l.mapM f with
      | none => rw [hl] at h; simp at h
      | some bs =>
        rw [hl] at h
        simp only [Option.bind_eq_bind, Option.some_bind, pure] at h
        injection h with h
        subst h
        rcases List.mem_cons.mp hy with rfl | hy
        · exact ⟨x, List.mem_cons_self _ _, hx⟩
        · obtain ⟨a, ha, hfa⟩ := ih bs hl y hy
          exact ⟨a, List.mem_cons_of_mem _ ha, hfa⟩

theorem digit_ne_brackets : ∀ d, d < 10 →
    Char.ofNat (48 + d) ≠ ']' ∧ Char.ofNat (48 + d) ≠ '}' := by decide

theorem intChars_facts (n : ℤ) :
    intChars n ≠ [] ∧
    ∀ c ∈ intChars n,
      c.toNat < 128 ∧ isWsC c = false ∧ c ≠ ']' ∧ c ≠ '}' := by
  have hdig : ∀ m : Nat, ∀ c ∈ natChars m,
      c.toNat < 128 ∧ isWsC c = false ∧ c ≠ ']' ∧ c ≠ '}' := by
    intro m c hc
    obtain ⟨d, hd, rfl⟩ := (natChars_spec m).2.1 c hc
    obtain ⟨hw, -, ht, -⟩ := digit_char_facts d hd
    obtain ⟨hb1, hb2⟩ := digit_ne_brackets d hd
    exact ⟨by omega, hw, hb1, hb2⟩
  rw [intChars]
  by_cases hneg : n < 0
  · rw [if_pos hneg]
    refine ⟨by simp, ?_⟩
    intro c hc
    rcases List.mem_cons.mp hc with rfl | hc
    · exact ⟨by decide, by decide, by decide, by decide⟩
    · exact hdig _ c hc
  · rw [if_neg hneg]
    exact ⟨(natChars_spec _).1, hdig _⟩

/-- The serialiser emits only ASCII (so the UTF-8 encoding is the byte
map and the decoder recovers the characters). -/
theorem printJF_ascii : ∀ fuel v d out, printJF fuel v d = some out →
    ∀ c ∈ out, c.toNat < 128 := by
  intro fuel
  induction fuel with
  | zero => intro v d out h; exact absurd h (by simp [printJF])
  | succ fuel ih =>
    intro v d out h c hc
    have hind : ∀ d2, ∀ c2 ∈ wsIndent d2, Char.toNat c2 < 128 := by
      intro d2 c2 hc2
      rw [wsIndent] at hc2
      rw [List.eq_of_mem_replicate hc2]
      decide
    cases v with
    | null =>
      simp only [printJF] at h
      injection h with h
      subst h
      fin_cases hc <;> decide
    | bool b =>
      cases b <;> simp only [printJF] at h <;> injection h with h <;>
        subst h <;> fin_cases hc <;> decide
    | num q =>
      simp only [printJF] at h
      split at h
      · injection h with h
        subst h
        exact ((intChars_facts q.num).2 c hc).1
      · exact absurd h (by simp)
    | str s =>
      simp only [printJF] at h
      split at h
      case isTrue hok =>
        injection h with h
        subst h
        rcases List.mem_cons.mp hc with rfl | hc
        · decide
        rcases List.mem_append.mp hc with hc | hc
        · exact (strOkB_spec s hok c hc).2.1
        · simp only [List.mem_singleton] at hc
          subst hc
          decide
      case isFalse => exact absurd h (by simp)
    | arr l =>
      cases l with
      | nil =>
        simp only [printJF] at h
        injection h with h
        subst h
        fin_cases hc <;> decide
      | cons v0 vs =>
        simp only [printJF, Option.bind_eq_bind] at h
        cases h0 : printJF fuel v0 (d + 1) with
        | none => rw [h0] at h; simp at h
        | some it0 =>
          rw [h0] at h
          cases hm : vs.mapM fun w => printJF fuel w (d + 1) with
          | none => rw [hm] at h; simp at h
          | some its =>
            rw [hm] at h
            simp only [Option.some_bind, pure] at h
            injection h with h
            subst h
            rcases List.mem_cons.mp hc with rfl | hc
            · decide
            rcases List.mem_cons.mp hc with rfl | hc
            · decide
            rcases List.mem_append.mp hc with hc | hc
            · rcases List.mem_append.mp hc with hc | hc
              · rcases List.mem_append.mp hc with hc | hc
                · exact hind _ c hc
                · exact ih v0 (d + 1) it0 h0 c hc
              · obtain ⟨it, hit, hcin⟩ := List.mem_flatMap.mp hc
                obtain ⟨w, hw, hfw⟩ := mapM_some_mem _ vs its hm it hit
                rcases List.mem_cons.mp hcin with rfl | hcin
                · decide
                rcases List.mem_cons.mp hcin with rfl | hcin
                · decide
                rcases List.mem_append.mp hcin with hcin | hcin
                · exact hind _ c hcin
                · exact ih w (d + 1) it hfw c hcin
            · rcases List.mem_cons.mp hc with rfl | hc
              · decide
              rcases List.mem_append.mp hc with hc | hc
              · exact hind _ c hc
              · simp only [List.mem_singleton] at hc
                subst hc
                decide
    | obj pairs =>
      cases pairs with
      | nil =>
        simp only [printJF] at h
        injection h with h
        subst h
        fin_cases hc <;> decide
      | cons kv0 kvs =>
        simp only [printJF, Option.bind_eq_bind] at h
        split at h
        case isFalse => exact absurd h (by simp)
        case isTrue hok =>
          obtain ⟨hnd, hok0, hoks⟩ := hok
          cases h0 : printJF fuel kv0.2 (d + 1) with
          | none => rw [h0] at h; simp at h
          | some it0 =>
            rw [h0] at h
            cases hm : kvs.mapM fun kv =>
                (printJF fuel kv.2 (d + 1)).map ((kv.1, ·)) with
            | none => rw [hm] at h; simp at h
            | some its =>
              rw [hm] at h
              simp only [Option.some_bind, pure] at h
              injection h with h
              subst h
              have hkey : ∀ (k : String), strOkB k = true →
                  ∀ c2 ∈ keyPart k, Char.toNat c2 < 128 := by
                intro k hk c2 hc2
                rcases List.mem_cons.mp hc2 with rfl | hc2
                · decide
                rcases List.mem_append.mp hc2 with hc2 | hc2
                · exact (strOkB_spec k hk c2 hc2).2.1
                · fin_cases hc2 <;> decide
              rcases List.mem_cons.mp hc with rfl | hc
              · decide
              rcases List.mem_cons.mp hc with rfl | hc
              · decide
              rcases List.mem_append.mp hc with hc | hc
              · rcases List.mem_append.mp hc with hc | hc
                · rcases List.mem_append.mp hc with hc | hc
                  · rcases List.mem_append.mp hc with hc | hc
                    · exact hind _ c hc
                    · exact hkey kv0.1 hok0 c hc
                  · exact ih kv0.2 (d + 1) it0 h0 c hc
                · obtain ⟨p, hp, hcin⟩ := List.mem_flatMap.mp hc
                  obtain ⟨kv, hkv, hfkv⟩ := mapM_some_mem _ kvs its hm p hp
                  cases hpr : printJF fuel kv.2 (d + 1) with
                  | none => rw [hpr] at hfkv; simp at hfkv
                  | some itv =>
                    rw [hpr] at hfkv
                    simp only [Option.map_some'] at hfkv
                    injection hfkv with hfkv
                    subst hfkv
                    rcases List.mem_cons.mp hcin with rfl | hcin
                    · decide
                    rcases List.mem_cons.mp hcin with rfl | hcin
                    · decide
                    rcases List.mem_append.mp hcin with hcin | hcin
                    · rcases List.mem_append.mp hcin with hcin | hcin
                      · exact hind _ c hcin
                      · exact hkey kv.1 (List.all_eq_true.mp hoks kv hkv)
                          c hcin
                    · exact ih kv.2 (d + 1) itv hpr c hcin
              · rcases List.mem_cons.mp hc with rfl | hc
                · decide
                rcases List.mem_append.mp hc with hc | hc
                · exact hind _ c hc
                · simp only [List.mem_singleton] at hc
                  subst hc
                  decide

/-- The serialiser's output begins with a non-whitespace character
that is not a closing bracket. -/
theorem printJF_first (fuel : Nat) (v : JsVal) (d : Nat)
    (out : List Char) (h : printJF fuel v d = some out) :
    ∃ c cs, out = c :: cs ∧ isWsC c = false ∧ c ≠ ']' ∧ c ≠ '}' := by
  cases fuel with
  | zero => exact absurd h (by simp [printJF])
  | succ fuel =>
    cases v with
    | null =>
      simp only [printJF] at h
      injection h with h
      subst h
      exact ⟨_, _, rfl, by decide, by decide, by decide⟩
    | bool b =>
      cases b <;> simp only [printJF] at h <;> injection h with h <;>
        subst h <;> exact ⟨_, _, rfl, by decide, by decide, by decide⟩
    | num q =>
      simp only [printJF] at h
      split at h
      · injection h with h
        subst h
        obtain ⟨hne, hfacts⟩ := intChars_facts q.num
        cases hi : intChars q.num with
        | nil => exact absurd hi hne
        | cons c cs =>
          obtain ⟨-, hw, hb1, hb2⟩ :=
            hfacts c (by rw [hi]; exact List.mem_cons_self _ _)
          exact ⟨c, cs, rfl, hw, hb1, hb2⟩
      · exact absurd h (by simp)
    | str s =>
      simp only [printJF] at h
      split at h
      · injection h with h
        subst h
        exact ⟨_, _, rfl, by decide, by decide, by decide⟩
      · exact absurd h (by simp)
    | arr l =>
      cases l with
      | nil =>
        simp only [printJF] at h
        injection h with h
        subst h
        exact ⟨_, _, rfl, by decide, by decide, by decide⟩
      | cons v0 vs =>
        simp only [printJF, Option.bind_eq_bind] at h
        cases h0 : printJF fuel v0 (d + 1) with
        | none => rw [h0] at h; simp at h
        | some it0 =>
          rw [h0] at h
          cases hm : vs.mapM fun w => printJF fuel w (d + 1) with
          | none => rw [hm] at h; simp at h
          | some its =>
            rw [hm] at h
            simp only [Option.some_bind, pure] at h
            injection h with h
            subst h
            exact ⟨_, _, rfl, by decide, by decide, by decide⟩
    | obj pairs =>
      cases pairs with
      | nil =>
        simp only [printJF] at h
        injection h with h
        subst h
        exact ⟨_, _, rfl, by decide, by decide, by decide⟩
      | cons kv0 kvs =>
        simp only [printJF, Option.bind_eq_bind] at h
        split at h
        case isFalse => exact absurd h (by simp)
        case isTrue =>
          cases h0 : printJF fuel kv0.2 (d + 1) with
          | none => rw [h0] at h; simp at h
          | some it0 =>
            rw [h0] at h
            cases hm : kvs.mapM fun kv =>
                (printJF fuel kv.2 (d + 1)).map ((kv.1, ·)) with
            | none => rw [hm] at h; simp at h
            | some its =>
              rw [hm] at h
              simp only [Option.some_bind, pure] at h
              injection h with h
              subst h
              exact ⟨_, _, rfl, by decide, by decide, by decide⟩

/-- Parsing a serialised integer. -/
theorem parse_num (fuel : Nat) (n : ℤ) (rest : List Char)
    (hfuel : 0 < fuel) (hrest : headNotDigit rest) :
    parseJM fuel .top (intChars n ++ rest) = some (.num (n : ℚ), rest) := by
  obtain ⟨f, rfl⟩ : ∃ f, fuel = f + 1 := ⟨fuel - 1, by omega⟩
  by_cases hneg : n < 0
  · rw [intChars, if_pos hneg]
    obtain ⟨hne, hdig, hval⟩ := natChars_spec n.natAbs
    obtain ⟨c0, cs, hcons⟩ : ∃ c0 cs, natChars n.natAbs = c0 :: cs := by
      cases h : natChars n.natAbs with
      | nil => exact absurd h hne
      | cons a l => exact ⟨a, l, rfl⟩
    obtain ⟨d0, hd0, hc0⟩ := hdig c0 (by
      rw [hcons]; exact List.mem_cons_self _ _)
    have hcd : charDigit? c0 = some d0 := by
      rw [hc0]; exact (digit_char_facts d0 hd0).2.1
    have hcs : digitsVal cs d0 = some n.natAbs := by
      rw [hcons] at hval
      simp only [digitsVal, hcd] at hval
      simpa using hval
    rw [hcons]
    simp only [parseJM, List.cons_append]
    rw [skipWs_cons_not _ (by decide)]
    simp only []
    rw [if_neg (by decide), if_neg (by decide), if_neg (by decide),
      if_neg (by decide), if_neg (by decide), if_neg (by decide),
      if_pos (by decide)]
    rw [hcd]
    simp only []
    rw [takeDigits_append cs rest d0 n.natAbs hcs hrest]
    dsimp only
    have hcast : (-((n.natAbs : ℕ) : ℚ)) = ((n : ℤ) : ℚ) := by
      have h1 : ((n.natAbs : ℕ) : ℤ) = -n :=
        Int.ofNat_natAbs_of_nonpos (by omega)
      rw [← Int.cast_natCast, h1]
      push_cast
      ring
    rw [hcast]
  · rw [intChars, if_neg hneg]
    obtain ⟨hne, hdig, hval⟩ := natChars_spec n.toNat
    obtain ⟨c0, cs, hcons⟩ : ∃ c0 cs, natChars n.toNat = c0 :: cs := by
      cases h : natChars n.toNat with
      | nil => exact absurd h hne
      | cons a l => exact ⟨a, l, rfl⟩
    obtain ⟨d0, hd0, hc0⟩ := hdig c0 (by
      rw [hcons]; exact List.mem_cons_self _ _)
    obtain ⟨hws, hcd0, -, hn', ht', hf', hq', hlb', hob', hm'⟩ :=
      digit_char_facts d0 hd0
    have hcd : charDigit? c0 = some d0 := by rw [hc0]; exact hcd0
    have hcs : digitsVal cs d0 = some n.toNat := by
      rw [hcons] at hval
      simp only [digitsVal, hcd] at hval
      simpa using hval
    rw [hcons]
    subst hc0
    simp only [parseJM, List.cons_append]
    rw [skipWs_cons_not _ hws]
    simp only []
    rw [if_neg hn', if_neg ht', if_neg hf', if_neg hq', if_neg hlb',
      if_neg hob', if_neg hm', hcd0]
    simp only []
    rw [takeDigits_append cs rest d0 n.toNat hcs hrest]
    dsimp only
    have hcast : (((n.toNat : ℕ) : ℚ)) = ((n : ℤ) : ℚ) := by
      rw [← Int.cast_natCast, Int.toNat_of_nonneg (by omega)]
    rw [hcast]

theorem headNotDigit_cons {c : Char} (l : List Char)
    (hc : charDigit? c = none) : headNotDigit (c :: l) := by
  intro c2 h2
  injection h2 with h2
  subst h2
  exact hc

theorem nlIndent_ws (d : Nat) :
    ∀ c ∈ '\n' :: wsIndent d, isWsC c = true := by
  intro c hc
  rcases List.mem_cons.mp hc with rfl | hc
  · decide
  · exact wsIndent_ws d c hc

theorem jsSet_fresh (m : List (String × JsVal)) (k : String) (v : JsVal)
    (h : ∀ k2 ∈ m.map Prod.fst, k2 ≠ k) : jsSet m k v = m ++ [(k, v)] := by
  have hne : ¬ (m.any fun kv => kv.1 == k) = true := by
    intro hx
    obtain ⟨kv, hkv, hbeq⟩ := List.any_eq_true.mp hx
    exact h kv.1 (List.mem_map.mpr ⟨kv, hkv, rfl⟩) (by simpa using hbeq)
  rw [jsSet, if_neg hne]

theorem mapM_cons_some {α β : Type} (f : α → Option β) (x : α)
    (l : List α) (ys : List β) (h : (x :: l).mapM f = some ys) :
    ∃ y ys2, f x = some y ∧ l.mapM f = some ys2 ∧ ys = y :: ys2 := by
  simp only [List.mapM_cons] at h
  cases hx : f x with
  | none => rw [hx] at h; simp at h
  | some y =>
    rw [hx] at h
    cases hl : l.mapM f with
    | none => rw [hl] at h; simp at h
    | some ys2 =>
      rw [hl] at h
      simp only [Option.bind_eq_bind, Option.some_bind, pure] at h
      injection h with h
      exact ⟨y, ys2, rfl, rfl, h.symm⟩

/-- Parsing the serialised tail of a non-empty array: the remaining
items (each preceded by `",\n"` and indentation) and the closing
bracket line. -/
theorem parse_arrRest (pf d : Nat)
    (ihS1 : ∀ v d2 out rest fuel, printJF pf v d2 = some out →
      out.length + 1 ≤ fuel → headNotDigit rest →
      parseJM fuel .top (out ++ rest) = some (v, rest)) :
    ∀ (items : List JsVal) (its : List (List Char)) (acc : List JsVal)
      (rest : List Char) (fuel : Nat),
      items.mapM (fun w => printJF pf w (d + 1)) = some its →
      (its.flatMap fun it =>
        ',' :: '\n' :: (wsIndent (d + 1) ++ it)).length + 1 ≤ fuel →
      headNotDigit rest →
      parseJM fuel (.arrRest acc)
        ((its.flatMap fun it => ',' :: '\n' :: (wsIndent (d + 1) ++ it))
          ++ ('\n' :: (wsIndent d ++ (']' :: rest))))
        = some (.arr (acc ++ items), rest) := by
  intro items
  induction items with
  | nil =>
    intro its acc rest fuel hm hfuel hrest
    simp only [List.mapM_nil, pure] at hm
    injection hm with hm
    subst hm
    obtain ⟨f, rfl⟩ : ∃ f, fuel = f + 1 := ⟨fuel - 1, by omega⟩
    simp only [List.flatMap_nil, List.nil_append]
    simp only [parseJM]
    have hsw : skipWs ('\n' :: (wsIndent d ++ (']' :: rest)))
        = ']' :: rest := by
      rw [show ('\n' :: (wsIndent d ++ (']' :: rest)))
          = ('\n' :: wsIndent d) ++ (']' :: rest) from rfl]
      rw [skipWs_append_of_all _ (nlIndent_ws d),
        skipWs_cons_not _ (by decide)]
    rw [hsw]
    simp
  | cons w items2 ih =>
    intro its acc rest fuel hm hfuel hrest
    obtain ⟨it, its2, hpw, hm2, rfl⟩ := mapM_cons_some _ w items2 its hm
    obtain ⟨f, rfl⟩ : ∃ f, fuel = f + 1 := ⟨fuel - 1, by omega⟩
    simp only [List.flatMap_cons, List.cons_append, List.append_assoc]
    simp only [parseJM]
    rw [skipWs_cons_not _ (by decide)]
    simp only [List.head?_cons, List.tail_cons]
    rw [if_neg (by decide), if_pos trivial]
    have hlen : (it.length + (2 * (d + 1) + 2))
        + ((its2.flatMap fun it =>
            ',' :: '\n' :: (wsIndent (d + 1) ++ it)).length + 1)
        ≤ f + 1 := by
      have := hfuel
      simp only [List.flatMap_cons, List.length_append, List.length_cons,
        wsIndent_length] at this
      omega
    have hrest2 : headNotDigit
        ((its2.flatMap fun it => ',' :: '\n' :: (wsIndent (d + 1) ++ it))
          ++ ('\n' :: (wsIndent d ++ (']' :: rest)))) := by
      cases its2 with
      | nil =>
        simp only [List.flatMap_nil, List.nil_append]
        exact headNotDigit_cons _ (by decide)
      | cons it2 its3 =>
        simp only [List.flatMap_cons, List.cons_append]
        exact headNotDigit_cons _ (by decide)
    have hcong : parseJM f .top
        ('\n' :: (wsIndent (d + 1) ++ (it
          ++ ((its2.flatMap fun it =>
              ',' :: '\n' :: (wsIndent (d + 1) ++ it))
            ++ ('\n' :: (wsIndent d ++ (']' :: rest)))))))
        = parseJM f .top (it
          ++ ((its2.flatMap fun it =>
              ',' :: '\n' :: (wsIndent (d + 1) ++ it))
            ++ ('\n' :: (wsIndent d ++ (']' :: rest))))) := by
      apply parseJM_congr
      rw [show ('\n' :: (wsIndent (d + 1) ++ (it
          ++ ((its2.flatMap fun it =>
              ',' :: '\n' :: (wsIndent (d + 1) ++ it))
            ++ ('\n' :: (wsIndent d ++ (']' :: rest)))))))
          = ('\n' :: wsIndent (d + 1)) ++ (it
          ++ ((its2.flatMap fun it =>
              ',' :: '\n' :: (wsIndent (d + 1) ++ it))
            ++ ('\n' :: (wsIndent d ++ (']' :: rest))))) from rfl]
      rw [skipWs_append_of_all _ (nlIndent_ws (d + 1))]
    rw [hcong]
    rw [ihS1 w (d + 1) it _ f hpw (by omega) hrest2]
    simp only [Option.bind_eq_bind, Option.some_bind]
    rw [ih its2 (acc ++ [w]) rest f hm2 (by omega) hrest]
    simp

/-- Parsing the serialised tail of a non-empty object: the remaining
key/value lines and the closing brace line.  The accumulated and
remaining keys are pairwise distinct, so the parser's last-key-wins
assignment is a plain append. -/
theorem parse_objRest (pf d : Nat)
    (ihS1 : ∀ v d2 out rest fuel, printJF pf v d2 = some out →
      out.length + 1 ≤ fuel → headNotDigit rest →
      parseJM fuel .top (out ++ rest) = some (v, rest)) :
    ∀ (pairs : List (String × JsVal)) (its : List (String × List Char))
      (acc : List (String × JsVal)) (rest : List Char) (fuel : Nat),
      pairs.mapM (fun kv => (printJF pf kv.2 (d + 1)).map ((kv.1, ·)))
        = some its →
      (∀ kv ∈ pairs, strOkB kv.1 = true) →
      ((acc.map Prod.fst) ++ (pairs.map Prod.fst)).Nodup →
      (its.flatMap fun p => ',' :: '\n' :: (wsIndent (d + 1)
        ++ ('"' :: (p.1.data ++ ('"' :: ':' :: ' ' :: p.2))))).length
        + 1 ≤ fuel →
      headNotDigit rest →
      parseJM fuel (.objRest acc)
        ((its.flatMap fun p => ',' :: '\n' :: (wsIndent (d + 1)
          ++ ('"' :: (p.1.data ++ ('"' :: ':' :: ' ' :: p.2)))))
          ++ ('\n' :: (wsIndent d ++ ('}' :: rest))))
        = some (.obj (acc ++ pairs), rest) := by
  intro pairs
  induction pairs with
  | nil =>
    intro its acc rest fuel hm hoks hnd hfuel hrest
    simp only [List.mapM_nil, pure] at hm
    injection hm with hm
    subst hm
    obtain ⟨f, rfl⟩ : ∃ f, fuel = f + 1 := ⟨fuel - 1, by omega⟩
    simp only [List.flatMap_nil, List.nil_append]
    simp only [parseJM]
    have hsw : skipWs ('\n' :: (wsIndent d ++ ('}' :: rest)))
        = '}' :: rest := by
      rw [show ('\n' :: (wsIndent d ++ ('}' :: rest)))
          = ('\n' :: wsIndent d) ++ ('}' :: rest) from rfl]
      rw [skipWs_append_of_all _ (nlIndent_ws d),
        skipWs_cons_not _ (by decide)]
    rw [hsw]
    simp
  | cons kv0 pairs2 ih =>
    intro its acc rest fuel hm hoks hnd hfuel hrest
    obtain ⟨p0, its2, hf0, hm2, rfl⟩ := mapM_cons_some _ kv0 pairs2 its hm
    obtain ⟨itv, hpv, hp0⟩ : ∃ itv, printJF pf kv0.2 (d + 1) = some itv
        ∧ p0 = (kv0.1, itv) := by
      cases hpr : printJF pf kv0.2 (d + 1) with
      | none => rw [hpr] at hf0; simp at hf0
      | some itv =>
        rw [hpr] at hf0
        simp only [Option.map_some'] at hf0
        injection hf0 with hf0
        exact ⟨itv, rfl, hf0.symm⟩
    subst hp0
    obtain ⟨f, rfl⟩ : ∃ f, fuel = f + 1 := ⟨fuel - 1, by omega⟩
    simp only [List.flatMap_cons, List.cons_append, List.append_assoc]
    simp only [parseJM]
    rw [skipWs_cons_not _ (by decide)]
    simp only [List.head?_cons, List.tail_cons]
    rw [if_neg (by decide), if_pos trivial]
    have hsw1 : skipWs ('\n' :: (wsIndent (d + 1)
        ++ ('"' :: (kv0.1.data ++ ('"' :: ':' :: ' ' :: (itv
          ++ ((its2.flatMap fun p => ',' :: '\n' :: (wsIndent (d + 1)
              ++ ('"' :: (p.1.data ++ ('"' :: ':' :: ' ' :: p.2)))))
            ++ ('\n' :: (wsIndent d ++ ('}' :: rest))))))))))
        = '"' :: (kv0.1.data ++ ('"' :: ':' :: ' ' :: (itv
          ++ ((its2.flatMap fun p => ',' :: '\n' :: (wsIndent (d + 1)
              ++ ('"' :: (p.1.data ++ ('"' :: ':' :: ' ' :: p.2)))))
            ++ ('\n' :: (wsIndent d ++ ('}' :: rest))))))) := by
      rw [show ('\n' :: (wsIndent (d + 1)
          ++ ('"' :: (kv0.1.data ++ ('"' :: ':' :: ' ' :: (itv
            ++ ((its2.flatMap fun p => ',' :: '\n' :: (wsIndent (d + 1)
                ++ ('"' :: (p.1.data ++ ('"' :: ':' :: ' ' :: p.2)))))
              ++ ('\n' :: (wsIndent d ++ ('}' :: rest))))))))))
          = ('\n' :: wsIndent (d + 1))
            ++ ('"' :: (kv0.1.data ++ ('"' :: ':' :: ' ' :: (itv
              ++ ((its2.flatMap fun p => ',' :: '\n' :: (wsIndent (d + 1)
                  ++ ('"' :: (p.1.data ++ ('"' :: ':' :: ' ' :: p.2)))))
                ++ ('\n' :: (wsIndent d ++ ('}' :: rest))))))))
          from rfl]
      rw [skipWs_append_of_all _ (nlIndent_ws (d + 1))]
      rw [skipWs_cons_not _ (by decide)]
    rw [hsw1]
    simp only [List.head?_cons, List.tail_cons]
    rw [if_pos trivial]
    have hok0 := hoks kv0 (List.mem_cons_self _ _)
    rw [parseStringBody_append kv0.1.data _
      (fun c hc => by
        obtain ⟨h1, -, h3, h4⟩ := strOkB_spec kv0.1 hok0 c hc
        exact ⟨h1, h3, h4⟩)]
    simp only [Option.bind_eq_bind, Option.some_bind]
    rw [skipWs_cons_not _ (by decide)]
    simp only [List.head?_cons, List.tail_cons]
    rw [if_pos trivial]
    have hrest2 : headNotDigit
        ((its2.flatMap fun p => ',' :: '\n' :: (wsIndent (d + 1)
          ++ ('"' :: (p.1.data ++ ('"' :: ':' :: ' ' :: p.2)))))
          ++ ('\n' :: (wsIndent d ++ ('}' :: rest)))) := by
      cases its2 with
      | nil =>
        simp only [List.flatMap_nil, List.nil_append]
        exact headNotDigit_cons _ (by decide)
      | cons it2 its3 =>
        simp only [List.flatMap_cons, List.cons_append]
        exact headNotDigit_cons _ (by decide)
    have hlen : (kv0.1.data.length + itv.length + (2 * (d + 1) + 6))
        + ((its2.flatMap fun p => ',' :: '\n' :: (wsIndent (d + 1)
            ++ ('"' :: (p.1.data ++ ('"' :: ':' :: ' ' :: p.2))))).length
          + 1) ≤ f + 1 := by
      have hexp : (((kv0.1, itv) :: its2).flatMap fun p =>
          ',' :: '\n' :: (wsIndent (d + 1)
            ++ ('"' :: (p.1.data ++ ('"' :: ':' :: ' ' :: p.2))))).length
          = (2 * (d + 1) + kv0.1.data.length + itv.length + 6)
            + (its2.flatMap fun p => ',' :: '\n' :: (wsIndent (d + 1)
              ++ ('"' :: (p.1.data ++ ('"' :: ':' :: ' ' :: p.2))))).length := by
        simp only [List.flatMap_cons, List.length_append, List.length_cons,
          wsIndent_length]
        ring
      have h2 := hfuel
      rw [hexp] at h2
      omega
    have hcong : parseJM f .top (' ' :: (itv
        ++ ((its2.flatMap fun p => ',' :: '\n' :: (wsIndent (d + 1)
            ++ ('"' :: (p.1.data ++ ('"' :: ':' :: ' ' :: p.2)))))
          ++ ('\n' :: (wsIndent d ++ ('}' :: rest))))))
        = parseJM f .top (itv
          ++ ((its2.flatMap fun p => ',' :: '\n' :: (wsIndent (d + 1)
              ++ ('"' :: (p.1.data ++ ('"' :: ':' :: ' ' :: p.2)))))
            ++ ('\n' :: (wsIndent d ++ ('}' :: rest))))) := by
      apply parseJM_congr
      rw [show (' ' :: (itv
          ++ ((its2.flatMap fun p => ',' :: '\n' :: (wsIndent (d + 1)
              ++ ('"' :: (p.1.data ++ ('"' :: ':' :: ' ' :: p.2)))))
            ++ ('\n' :: (wsIndent d ++ ('}' :: rest))))))
          = [' '] ++ (itv
          ++ ((its2.flatMap fun p => ',' :: '\n' :: (wsIndent (d + 1)
              ++ ('"' :: (p.1.data ++ ('"' :: ':' :: ' ' :: p.2)))))
            ++ ('\n' :: (wsIndent d ++ ('}' :: rest))))) from rfl]
      rw [skipWs_append_of_all _ (by decide)]
    rw [hcong]
    rw [ihS1 kv0.2 (d + 1) itv _ f hpv (by omega) hrest2]
    simp only [Option.bind_eq_bind, Option.some_bind]
    rw [show (⟨kv0.1.data⟩ : String) = kv0.1 from rfl]
    have hfresh : ∀ k2 ∈ acc.map Prod.fst, k2 ≠ kv0.1 := by
      obtain ⟨-, -, hdisj⟩ := List.nodup_append.mp hnd
      intro k2 hk2 he
      exact hdisj hk2 (by
        rw [he, List.map_cons]
        exact List.mem_cons_self _ _)
    rw [jsSet_fresh acc kv0.1 kv0.2 hfresh]
    have hnd2 : (((acc ++ [(kv0.1, kv0.2)]).map Prod.fst)
        ++ pairs2.map Prod.fst).Nodup := by
      simpa [List.map_append, List.append_assoc] using hnd
    rw [ih its2 (acc ++ [(kv0.1, kv0.2)]) rest f hm2
      (fun kv hkv => hoks kv (List.mem_cons_of_mem _ hkv)) hnd2
      (by omega) hrest]
    simp


/-- A serialised value followed by non-digit input parses back to the
value with the trailing input untouched (soundness of `printJF` against
`parseJM`, by induction on the printer's fuel). -/
theorem parse_printJF : ∀ (pfuel : Nat) (v : JsVal) (d : Nat)
    (out rest : List Char) (fuel : Nat),
    printJF pfuel v d = some out →
    out.length + 1 ≤ fuel →
    headNotDigit rest →
    parseJM fuel .top (out ++ rest) = some (v, rest) := by
  intro pfuel
  induction pfuel with
  | zero =>
    intro v d out rest fuel hp
    exact absurd hp (by simp [printJF])
  | succ pfuel ih =>
    intro v d out rest fuel hp hfuel hrest
    cases v with
    | null =>
      simp only [printJF] at hp
      injection hp with hp
      subst hp
      obtain ⟨f, rfl⟩ : ∃ f, fuel = f + 1 := ⟨fuel - 1, by omega⟩
      simp only [parseJM, List.cons_append, List.nil_append]
      rw [skipWs_cons_not _ (by decide)]
      simp only []
      rw [if_pos (by decide)]
      rw [show ('u' :: 'l' :: 'l' :: rest)
          = ['u', 'l', 'l'] ++ rest from rfl, dropPrefix?_append]
      simp
    | bool b =>
      cases b with
      | true =>
        simp only [printJF] at hp
        injection hp with hp
        subst hp
        obtain ⟨f, rfl⟩ : ∃ f, fuel = f + 1 := ⟨fuel - 1, by omega⟩
        simp only [parseJM, List.cons_append, List.nil_append]
        rw [skipWs_cons_not _ (by decide)]
        simp only []
        rw [if_neg (by decide), if_pos (by decide)]
        rw [show ('r' :: 'u' :: 'e' :: rest)
            = ['r', 'u', 'e'] ++ rest from rfl, dropPrefix?_append]
        simp
      | false =>
        simp only [printJF] at hp
        injection hp with hp
        subst hp
        obtain ⟨f, rfl⟩ : ∃ f, fuel = f + 1 := ⟨fuel - 1, by omega⟩
        simp only [parseJM, List.cons_append, List.nil_append]
        rw [skipWs_cons_not _ (by decide)]
        simp only []
        rw [if_neg (by decide), if_neg (by decide), if_pos (by decide)]
        rw [show ('a' :: 'l' :: 's' :: 'e' :: rest)
            = ['a', 'l', 's', 'e'] ++ rest from rfl, dropPrefix?_append]
        simp
    | num q =>
      simp only [printJF] at hp
      by_cases hc : q.den = 1 ∧ -(10 ^ 21 : ℤ) < q.num ∧ q.num < 10 ^ 21
      · rw [if_pos hc] at hp
        injection hp with hp
        subst hp
        rw [parse_num fuel q.num rest (by omega) hrest]
        have hq : ((q.num : ℤ) : ℚ) = q := by
          rw [← Rat.den_eq_one_iff]
          exact hc.1
        rw [hq]
      · rw [if_neg hc] at hp
        exact absurd hp (by simp)
    | str s =>
      simp only [printJF] at hp
      by_cases hok : strOkB s
      · rw [if_pos hok] at hp
        injection hp with hp
        subst hp
        obtain ⟨f, rfl⟩ : ∃ f, fuel = f + 1 := ⟨fuel - 1, by omega⟩
        simp only [parseJM, List.cons_append]
        rw [skipWs_cons_not _ (by decide)]
        simp only []
        rw [if_neg (by decide), if_neg (by decide), if_neg (by decide),
          if_pos (by decide)]
        rw [show ((s.data ++ ['"']) ++ rest) = s.data ++ ('"' :: rest)
            by simp]
        rw [parseStringBody_append s.data rest (fun c hc => by
          obtain ⟨h1, -, h3, h4⟩ := strOkB_spec s hok c hc
          exact ⟨h1, h3, h4⟩)]
        simp only [Option.map_some']
      · rw [if_neg hok] at hp
        exact absurd hp (by simp)
    | arr l =>
      cases l with
      | nil =>
        simp only [printJF] at hp
        injection hp with hp
        subst hp
        obtain ⟨f, rfl⟩ : ∃ f, fuel = f + 1 := ⟨fuel - 1, by omega⟩
        simp only [parseJM, List.cons_append, List.nil_append]
        rw [skipWs_cons_not _ (by decide)]
        simp only []
        rw [if_neg (by decide), if_neg (by decide), if_neg (by decide),
          if_neg (by decide), if_pos (by decide)]
        rw [skipWs_cons_not _ (by decide)]
        simp only [List.head?_cons, List.tail_cons]
        rw [if_pos trivial]
      | cons v0 vs =>
        simp only [printJF] at hp
        cases hp0 : printJF pfuel v0 (d + 1) with
        | none => rw [hp0] at hp; simp at hp
        | some it0 =>
          rw [hp0] at hp
          cases hpm : vs.mapM (fun w => printJF pfuel w (d + 1)) with
          | none => rw [hpm] at hp; simp at hp
          | some its =>
            rw [hpm] at hp
            simp only [Option.bind_eq_bind, Option.some_bind, pure] at hp
            injection hp with hp
            subst hp
            obtain ⟨f, rfl⟩ : ∃ f, fuel = f + 1 := ⟨fuel - 1, by omega⟩
            simp only [List.cons_append, List.append_assoc,
              List.singleton_append, List.nil_append] at hfuel ⊢
            simp only [parseJM]
            rw [skipWs_cons_not _ (by decide)]
            simp only []
            rw [if_neg (by decide), if_neg (by decide), if_neg (by decide),
              if_neg (by decide), if_pos (by decide)]
            obtain ⟨c0, cs0, rfl, hc0ws, hc0rb, hc0cb⟩ :=
              printJF_first pfuel v0 (d + 1) it0 hp0
            have hsw : skipWs ('\n' :: (wsIndent (d + 1) ++ ((c0 :: cs0)
                ++ ((its.flatMap fun it =>
                    ',' :: '\n' :: (wsIndent (d + 1) ++ it))
                  ++ ('\n' :: (wsIndent d ++ (']' :: rest)))))))
                = c0 :: (cs0
                  ++ ((its.flatMap fun it =>
                      ',' :: '\n' :: (wsIndent (d + 1) ++ it))
                    ++ ('\n' :: (wsIndent d ++ (']' :: rest))))) := by
              rw [show ('\n' :: (wsIndent (d + 1) ++ ((c0 :: cs0)
                  ++ ((its.flatMap fun it =>
                      ',' :: '\n' :: (wsIndent (d + 1) ++ it))
                    ++ ('\n' :: (wsIndent d ++ (']' :: rest)))))))
                  = ('\n' :: wsIndent (d + 1)) ++ ((c0 :: cs0)
                  ++ ((its.flatMap fun it =>
                      ',' :: '\n' :: (wsIndent (d + 1) ++ it))
                    ++ ('\n' :: (wsIndent d ++ (']' :: rest)))))
                  from rfl]
              rw [skipWs_append_of_all _ (nlIndent_ws (d + 1))]
              rw [List.cons_append, skipWs_cons_not _ hc0ws]
            rw [hsw]
            simp only [List.head?_cons, List.tail_cons]
            rw [if_neg (by simp only [Option.some.injEq]; exact hc0rb)]
            have hrest2 : headNotDigit
                ((its.flatMap fun it =>
                    ',' :: '\n' :: (wsIndent (d + 1) ++ it))
                  ++ ('\n' :: (wsIndent d ++ (']' :: rest)))) := by
              cases its with
              | nil =>
                simp only [List.flatMap_nil, List.nil_append]
                exact headNotDigit_cons _ (by decide)
              | cons it2 its3 =>
                simp only [List.flatMap_cons, List.cons_append]
                exact headNotDigit_cons _ (by decide)
            have hcong : parseJM f .top
                ('\n' :: (wsIndent (d + 1) ++ ((c0 :: cs0)
                  ++ ((its.flatMap fun it =>
                      ',' :: '\n' :: (wsIndent (d + 1) ++ it))
                    ++ ('\n' :: (wsIndent d ++ (']' :: rest)))))))
                = parseJM f .top ((c0 :: cs0)
                  ++ ((its.flatMap fun it =>
                      ',' :: '\n' :: (wsIndent (d + 1) ++ it))
                    ++ ('\n' :: (wsIndent d ++ (']' :: rest))))) := by
              apply parseJM_congr
              rw [show ('\n' :: (wsIndent (d + 1) ++ ((c0 :: cs0)
                  ++ ((its.flatMap fun it =>
                      ',' :: '\n' :: (wsIndent (d + 1) ++ it))
                    ++ ('\n' :: (wsIndent d ++ (']' :: rest)))))))
                  = ('\n' :: wsIndent (d + 1)) ++ ((c0 :: cs0)
                  ++ ((its.flatMap fun it =>
                      ',' :: '\n' :: (wsIndent (d + 1) ++ it))
                    ++ ('\n' :: (wsIndent d ++ (']' :: rest)))))
                  from rfl]
              rw [skipWs_append_of_all _ (nlIndent_ws (d + 1))]
            have hlen : ((c0 :: cs0).length + (2 * (d + 1) + 2))
                + ((its.flatMap fun it =>
                    ',' :: '\n' :: (wsIndent (d + 1) ++ it)).length + 1)
                ≤ f + 1 := by
              have := hfuel
              simp only [List.length_cons, List.length_append,
                wsIndent_length] at this ⊢
              omega
            rw [hcong]
            rw [ih v0 (d + 1) (c0 :: cs0) _ f hp0 (by
              simp only [List.length_cons] at hlen ⊢; omega) hrest2]
            simp only [Option.bind_eq_bind, Option.some_bind]
            rw [parse_arrRest pfuel d ih vs its [v0] rest f hpm
              (by omega) hrest]
            simp
    | obj l =>
      cases l with
      | nil =>
        simp only [printJF] at hp
        injection hp with hp
        subst hp
        obtain ⟨f, rfl⟩ : ∃ f, fuel = f + 1 := ⟨fuel - 1, by omega⟩
        simp only [parseJM, List.cons_append, List.nil_append]
        rw [skipWs_cons_not _ (by decide)]
        simp only []
        rw [if_neg (by decide), if_neg (by decide), if_neg (by decide),
          if_neg (by decide), if_neg (by decide), if_pos (by decide)]
        rw [skipWs_cons_not _ (by decide)]
        simp only [List.head?_cons, List.tail_cons]
        rw [if_pos trivial]
      | cons kv0 kvs =>
        simp only [printJF] at hp
        by_cases hg : ((kv0 :: kvs).map Prod.fst).Nodup ∧ strOkB kv0.1
            ∧ (kvs.all fun kv => strOkB kv.1)
        · rw [if_pos hg] at hp
          cases hp0 : printJF pfuel kv0.2 (d + 1) with
          | none => rw [hp0] at hp; simp at hp
          | some it0 =>
            rw [hp0] at hp
            cases hpm : kvs.mapM (fun kv =>
                (printJF pfuel kv.2 (d + 1)).map ((kv.1, ·))) with
            | none => rw [hpm] at hp; simp at hp
            | some its =>
              rw [hpm] at hp
              simp only [Option.bind_eq_bind, Option.some_bind, pure] at hp
              injection hp with hp
              subst hp
              obtain ⟨f, rfl⟩ : ∃ f, fuel = f + 1 := ⟨fuel - 1, by omega⟩
              have hfun : (fun p : String × List Char =>
                  ',' :: '\n' :: (wsIndent (d + 1) ++ keyPart p.1 ++ p.2))
                  = fun p : String × List Char =>
                  ',' :: '\n' :: (wsIndent (d + 1)
                    ++ ('"' :: (p.1.data ++ ('"' :: ':' :: ' ' :: p.2)))) := by
                funext p
                simp [keyPart, List.append_assoc]
              rw [hfun] at hfuel ⊢
              simp only [keyPart, List.cons_append, List.append_assoc,
                List.singleton_append, List.nil_append] at hfuel ⊢
              simp only [parseJM]
              rw [skipWs_cons_not _ (by decide)]
              simp only []
              rw [if_neg (by decide), if_neg (by decide), if_neg (by decide),
                if_neg (by decide), if_neg (by decide), if_pos (by decide)]
              have hsw : skipWs ('\n' :: (wsIndent (d + 1)
                  ++ ('"' :: (kv0.1.data ++ ('"' :: ':' :: ' ' :: (it0
                    ++ ((its.flatMap fun p => ',' :: '\n' :: (wsIndent (d + 1)
                        ++ ('"' :: (p.1.data ++ ('"' :: ':' :: ' ' :: p.2)))))
                      ++ ('\n' :: (wsIndent d ++ ('}' :: rest))))))))))
                  = '"' :: (kv0.1.data ++ ('"' :: ':' :: ' ' :: (it0
                    ++ ((its.flatMap fun p => ',' :: '\n' :: (wsIndent (d + 1)
                        ++ ('"' :: (p.1.data ++ ('"' :: ':' :: ' ' :: p.2)))))
                      ++ ('\n' :: (wsIndent d ++ ('}' :: rest))))))) := by
                rw [show ('\n' :: (wsIndent (d + 1)
                    ++ ('"' :: (kv0.1.data ++ ('"' :: ':' :: ' ' :: (it0
                      ++ ((its.flatMap fun p => ',' :: '\n' :: (wsIndent (d + 1)
                          ++ ('"' :: (p.1.data ++ ('"' :: ':' :: ' ' :: p.2)))))
                        ++ ('\n' :: (wsIndent d ++ ('}' :: rest))))))))))
                    = ('\n' :: wsIndent (d + 1))
                      ++ ('"' :: (kv0.1.data ++ ('"' :: ':' :: ' ' :: (it0
                      ++ ((its.flatMap fun p => ',' :: '\n' :: (wsIndent (d + 1)
                          ++ ('"' :: (p.1.data ++ ('"' :: ':' :: ' ' :: p.2)))))
                        ++ ('\n' :: (wsIndent d ++ ('}' :: rest))))))))
                    from rfl]
                rw [skipWs_append_of_all _ (nlIndent_ws (d + 1))]
                rw [skipWs_cons_not _ (by decide)]
              rw [hsw]
              simp only [List.head?_cons, List.tail_cons]
              rw [if_neg (by decide), if_pos trivial]
              rw [parseStringBody_append kv0.1.data _
                (fun c hc => by
                  obtain ⟨h1, -, h3, h4⟩ := strOkB_spec kv0.1 hg.2.1 c hc
                  exact ⟨h1, h3, h4⟩)]
              simp only [Option.bind_eq_bind, Option.some_bind]
              rw [skipWs_cons_not _ (by decide)]
              simp only [List.head?_cons, List.tail_cons]
              rw [if_pos trivial]
              have hrest2 : headNotDigit
                  ((its.flatMap fun p => ',' :: '\n' :: (wsIndent (d + 1)
                    ++ ('"' :: (p.1.data ++ ('"' :: ':' :: ' ' :: p.2)))))
                    ++ ('\n' :: (wsIndent d ++ ('}' :: rest)))) := by
                cases its with
                | nil =>
                  simp only [List.flatMap_nil, List.nil_append]
                  exact headNotDigit_cons _ (by decide)
                | cons it2 its3 =>
                  simp only [List.flatMap_cons, List.cons_append]
                  exact headNotDigit_cons _ (by decide)
              have hlen : (kv0.1.data.length + it0.length + (2 * (d + 1) + 6))
                  + ((its.flatMap fun p => ',' :: '\n' :: (wsIndent (d + 1)
                      ++ ('"' :: (p.1.data ++ ('"' :: ':' :: ' ' :: p.2))))).length
                    + 1) ≤ f + 1 := by
                have h2 := hfuel
                simp only [List.length_cons, List.length_append,
                  wsIndent_length] at h2 ⊢
                omega
              have hcong : parseJM f .top (' ' :: (it0
                  ++ ((its.flatMap fun p => ',' :: '\n' :: (wsIndent (d + 1)
                      ++ ('"' :: (p.1.data ++ ('"' :: ':' :: ' ' :: p.2)))))
                    ++ ('\n' :: (wsIndent d ++ ('}' :: rest))))))
                  = parseJM f .top (it0
                    ++ ((its.flatMap fun p => ',' :: '\n' :: (wsIndent (d + 1)
                        ++ ('"' :: (p.1.data ++ ('"' :: ':' :: ' ' :: p.2)))))
                      ++ ('\n' :: (wsIndent d ++ ('}' :: rest))))) := by
                apply parseJM_congr
                rw [show (' ' :: (it0
                    ++ ((its.flatMap fun p => ',' :: '\n' :: (wsIndent (d + 1)
                        ++ ('"' :: (p.1.data ++ ('"' :: ':' :: ' ' :: p.2)))))
                      ++ ('\n' :: (wsIndent d ++ ('}' :: rest))))))
                    = [' '] ++ (it0
                    ++ ((its.flatMap fun p => ',' :: '\n' :: (wsIndent (d + 1)
                        ++ ('"' :: (p.1.data ++ ('"' :: ':' :: ' ' :: p.2)))))
                      ++ ('\n' :: (wsIndent d ++ ('}' :: rest))))) from rfl]
                rw [skipWs_append_of_all _ (by decide)]
              rw [hcong]
              rw [ih kv0.2 (d + 1) it0 _ f hp0 (by omega) hrest2]
              simp only [Option.bind_eq_bind, Option.some_bind]
              rw [show (⟨kv0.1.data⟩ : String) = kv0.1 from rfl]
              rw [show jsSet [] kv0.1 kv0.2 = [(kv0.1, kv0.2)]
                from by simp [jsSet]]
              rw [parse_objRest pfuel d ih kvs its [(kv0.1, kv0.2)] rest f hpm
                (fun kv hkv => List.all_eq_true.mp hg.2.2 kv hkv)
                (by simpa using hg.1) (by omega) hrest]
              simp
        · rw [if_neg hg] at hp
          exact absurd hp (by simp)

/-- `jsonParse` inverts `jsonStringify` on every value the serialiser
accepts. -/
theorem jsonParse_print (v : JsVal) (out : List Char)
    (h : jsonStringify v = some out) : jsonParse out = some v := by
  have h2 := parse_printJF (2 ^ 64) v 0 out [] (out.length + 1) h
    (by omega) (fun c hc => by simp at hc)
  rw [List.append_nil] at h2
  simp only [jsonParse, h2]
  rfl

/-- `takeWhile` passes over a prefix whose elements all satisfy the
predicate. -/
theorem takeWhile_append_of_all {α : Type} {p : α → Bool}
    (l1 l2 : List α) (h : ∀ a ∈ l1, p a = true) :
    (l1 ++ l2).takeWhile p = l1 ++ l2.takeWhile p := by
  induction l1 with
  | nil => rfl
  | cons a l ih =>
    simp only [List.cons_append, List.takeWhile_cons,
      h a (List.mem_cons_self _ _), if_true]
    rw [ih (fun a2 ha2 => h a2 (List.mem_cons_of_mem _ ha2))]

/-- `takeWhile (b != 0)` of a zero run is empty. -/
theorem takeWhile_ne_zero_replicate (k : Nat) :
    (List.replicate k 0).takeWhile (fun b => decide (b ≠ 0)) = [] := by
  cases k with
  | zero => rfl
  | succ k2 =>
    rw [show List.replicate (k2 + 1) 0 = 0 :: List.replicate k2 0 from rfl]
    rw [List.takeWhile_cons, if_neg (by decide)]

/-- `dropWhile` is the identity when no element satisfies the
predicate. -/
theorem dropWhile_of_all_neg {p : Char → Bool} (l : List Char)
    (h : ∀ a ∈ l, p a = false) : l.dropWhile p = l := by
  cases l with
  | nil => rfl
  | cons a l2 =>
    exact List.dropWhile_cons_of_neg (by
      rw [h a (List.mem_cons_self _ _)]; exact Bool.false_ne_true)

/-- `trim` is the identity on a string with no whitespace at all. -/
theorem trimChars_of_no_ws (cs : List Char)
    (h : ∀ c ∈ cs, isWsC c = false) : trimChars cs = cs := by
  rw [trimChars, dropWhile_of_all_neg _ h,
    dropWhile_of_all_neg _ (fun c hc => h c (List.mem_reverse.mp hc)),
    List.reverse_reverse]

/-- A `mapM` over `Option` whose steps all succeed is the plain map. -/
theorem mapM_eq_map_of_some {α β : Type} (f : α → Option β) (g : α → β)
    (l : List α) (h : ∀ a ∈ l, f a = some (g a)) :
    l.mapM f = some (l.map g) := by
  induction l with
  | nil => rfl
  | cons a l2 ih =>
    rw [List.mapM_cons, h a (List.mem_cons_self _ _),
      ih (fun a2 h2 => h a2 (List.mem_cons_of_mem _ h2))]
    rfl

/-- ASCII round trip of the modelled UTF-8 decoder. -/
theorem utf8DecodeAscii_map (cs : List Char)
    (h : ∀ c ∈ cs, c.toNat < 128) :
    utf8DecodeAscii (cs.map Char.toNat) = some cs := by
  induction cs with
  | nil => rfl
  | cons c cs2 ih =>
    simp only [List.map_cons, utf8DecodeAscii]
    rw [if_pos (h c (List.mem_cons_self _ _))]
    rw [ih (fun c2 h2 => h c2 (List.mem_cons_of_mem _ h2))]
    simp [Char.ofNat_toNat]

/-- `Map.set` with a key absent from the map appends. -/
theorem mapSet_fresh (m : List (String × List Nat)) (k : String)
    (v : List Nat) (h : ∀ k2 ∈ m.map Prod.fst, k2 ≠ k) :
    mapSet m k v = m ++ [(k, v)] := by
  have hne : ¬ (m.any fun kv => kv.1 == k) = true := by
    intro hx
    obtain ⟨kv, hkv, hbeq⟩ := List.any_eq_true.mp hx
    exact h kv.1 (List.mem_map.mpr ⟨kv, hkv, rfl⟩) (by simpa using hbeq)
  rw [mapSet, if_neg hne]

/-- A list ends with its own suffix. -/
theorem endsWithL_append (a b : List Char) :
    endsWithL (a ++ b) b = true := by
  rw [endsWithL,
    if_pos (by simp only [List.length_append]; omega)]
  have h : (a ++ b).length - b.length = a.length := by
    simp only [List.length_append]; omega
  rw [h, List.drop_left]
  simp

/-- A list does not end with a same-length suffix different from its
own. -/
theorem endsWithL_append_ne (a b c : List Char)
    (hlen : b.length = c.length) (hne : (b == c) = false) :
    endsWithL (a ++ b) c = false := by
  rw [endsWithL,
    if_pos (by simp only [List.length_append]; omega)]
  have h : (a ++ b).length - c.length = a.length := by
    simp only [List.length_append]; omega
  rw [h, List.drop_left]
  exact hne

/-- Stripping the single leading directory component of
`dir ++ "/" ++ rest`. -/
theorem stripTopDir_concat (dir rest : String) (h1 : dir.data ≠ [])
    (h2 : ∀ c ∈ dir.data, c ≠ '/') :
    stripTopDir (dir ++ "/" ++ rest) = rest := by
  have hdata : (dir ++ "/" ++ rest).data
      = dir.data ++ ('/' :: rest.data) := by
    rw [String.data_append, String.data_append]
    simp [List.append_assoc]
  rw [stripTopDir]
  simp only [hdata]
  have htw : (dir.data ++ ('/' :: rest.data)).takeWhile
      (fun c => decide (c ≠ '/')) = dir.data := by
    rw [takeWhile_append_of_all _ _ (fun a ha => by
      simpa using h2 a ha)]
    rw [List.takeWhile_cons, if_neg (by decide)]
    simp
  rw [htw]
  rw [List.drop_left' rfl]
  rw [if_pos ⟨h1, rfl⟩]
  rfl

/-- `octChars` writes exactly `w` digits. -/
theorem octChars_length : ∀ w n, (octChars w n).length = w := by
  intro w
  induction w with
  | zero => intro n; rfl
  | succ w ih => intro n; simp [octChars, ih]

/-- Every byte of `octChars` is an ASCII octal digit. -/
theorem octChars_digits : ∀ w n, ∀ b ∈ octChars w n, 48 ≤ b ∧ b ≤ 55 := by
  intro w
  induction w with
  | zero => intro n b hb; simp [octChars] at hb
  | succ w ih =>
    intro n b hb
    simp only [octChars, List.mem_append, List.mem_singleton] at hb
    rcases hb with hb | rfl
    · exact ih _ b hb
    · have := Nat.mod_lt n (show 0 < 8 by decide)
      omega

/-- The character of an ASCII octal-digit byte: its code point, its
position between `'0'` and `'7'`, and that it is neither whitespace nor
`NUL`. -/
theorem char_octal_facts (b : Nat) (h1 : 48 ≤ b) (h2 : b ≤ 55) :
    (Char.ofNat b).toNat = b ∧ ('0' ≤ Char.ofNat b ∧ Char.ofNat b ≤ '7')
      ∧ isWsC (Char.ofNat b) = false ∧ (Char.ofNat b).toNat ≠ 0 := by
  interval_cases b <;> exact ⟨rfl, by decide, by decide, by decide⟩

/-- `parseInt(_, 8)` folds octal-digit characters left to right. -/
theorem takeOctal_append_digits (d1 d2 : List Char) (acc : Nat)
    (h : ∀ c ∈ d1, '0' ≤ c ∧ c ≤ '7') :
    takeOctal (d1 ++ d2) acc = takeOctal d2 (takeOctal d1 acc) := by
  induction d1 generalizing acc with
  | nil => rfl
  | cons c cs ih =>
    have hc := h c (List.mem_cons_self _ _)
    simp only [List.cons_append, takeOctal]
    rw [if_pos hc, if_pos hc]
    exact ih _ (fun c2 hc2 => h c2 (List.mem_cons_of_mem _ hc2))

/-- Octal rendering/parsing round trip below the width bound. -/
theorem takeOctal_octChars : ∀ w n acc, n < 8 ^ w →
    takeOctal ((octChars w n).map Char.ofNat) acc
      = acc * 8 ^ w + n := by
  intro w
  induction w with
  | zero =>
    intro n acc hn
    interval_cases n
    simp [octChars, takeOctal]
  | succ w ih =>
    intro n acc hn
    have h8 : n % 8 < 8 := Nat.mod_lt n (by decide)
    obtain ⟨hto, hle, -, -⟩ :=
      char_octal_facts (48 + n % 8) (by omega) (by omega)
    rw [octChars, List.map_append]
    rw [takeOctal_append_digits _ _ _ (fun c hcm => by
      obtain ⟨b, hb, rfl⟩ := List.mem_map.mp hcm
      obtain ⟨hb1, hb2⟩ := octChars_digits w (n / 8) b hb
      exact (char_octal_facts b hb1 hb2).2.1)]
    rw [ih (n / 8) acc (by
      rw [pow_succ] at hn
      exact Nat.div_lt_of_lt_mul (by omega))]
    simp only [List.map_cons, List.map_nil, takeOctal]
    rw [if_pos hle, hto]
    have h48 : 48 + n % 8 - 48 = n % 8 := by omega
    rw [h48, pow_succ]
    conv_rhs => rw [← Nat.div_add_mod n 8]
    ring

/-- Decoding the NUL-padded name field recovers a NUL-free name. -/
theorem decodeString_padded (p : String) (k : Nat)
    (h : ∀ c ∈ p.data, c.toNat ≠ 0) :
    decodeString (p.data.map Char.toNat ++ List.replicate k 0) = p := by
  rw [decodeString]
  rw [takeWhile_append_of_all _ _ (fun b hb => by
    obtain ⟨c, hc, rfl⟩ := List.mem_map.mp hb
    simpa using h c hc)]
  rw [takeWhile_ne_zero_replicate, List.append_nil,
    List.map_map]
  have : (Char.ofNat ∘ Char.toNat) = id := by
    funext c
    simp [Function.comp, Char.ofNat_toNat]
  rw [this, List.map_id]

/-- Decoding a zero run yields the empty string. -/
theorem decodeString_replicate_zero (k : Nat) :
    decodeString (List.replicate k 0) = "" := by
  rw [decodeString, takeWhile_ne_zero_replicate]
  rfl

/-- The octal size field decodes to the encoded size below `8 ^ 11`. -/
theorem decodeOctal_size (n : Nat) (hn : n < 8 ^ 11) :
    decodeOctal (octChars 11 n ++ [0]) = n := by
  rw [decodeOctal, decodeString]
  rw [takeWhile_append_of_all _ _ (fun b hb => by
    have := (octChars_digits 11 n b hb).1
    simpa using by omega)]
  rw [show ([0] : List Nat).takeWhile (fun b => decide (b ≠ 0)) = []
    from rfl, List.append_nil]
  rw [show (⟨((octChars 11 n).map Char.ofNat : List Char)⟩ : String).data
    = (octChars 11 n).map Char.ofNat from rfl]
  rw [trimChars_of_no_ws _ (fun c hcm => by
    obtain ⟨b, hb, rfl⟩ := List.mem_map.mp hcm
    obtain ⟨hb1, hb2⟩ := octChars_digits 11 n b hb
    exact (char_octal_facts b hb1 hb2).2.2.1)]
  rw [takeOctal_octChars 11 n 0 hn]
  omega

/-- The header laid out as nested appends. -/
theorem tarHeader_shape (p : String) (s : Nat) :
    tarHeader p s
      = (p.data.map Char.toNat ++ List.replicate (100 - p.data.length) 0)
        ++ (List.replicate 24 0
        ++ (octChars 11 s
        ++ (0 :: (List.replicate 12 0
        ++ (List.replicate 8 32
        ++ (48 :: List.replicate 355 0)))))) := by
  simp only [tarHeader, List.length_map]
  generalize (p.data.map Char.toNat
    ++ List.replicate (100 - p.data.length) 0) = N
  simp only [List.append_assoc, List.singleton_append,
    List.cons_append, List.nil_append]

/-- The padded name field has width 100. -/
theorem tarHeader_nameLen (p : String) (hlen : p.data.length ≤ 100) :
    (p.data.map Char.toNat
      ++ List.replicate (100 - p.data.length) 0).length = 100 := by
  simp only [List.length_append, List.length_map, List.length_replicate]
  omega

/-- A header block is exactly 512 bytes for paths within the name
field. -/
theorem tarHeader_length (p : String) (s : Nat)
    (hlen : p.data.length ≤ 100) : (tarHeader p s).length = 512 := by
  rw [tarHeader_shape]
  simp only [List.length_append, List.length_replicate, List.length_map,
    List.length_cons, octChars_length]
  omega

/-- The name field decodes back to the path. -/
theorem tarHeader_name (p : String) (s : Nat)
    (hlen : p.data.length ≤ 100) (hnz : ∀ c ∈ p.data, c.toNat ≠ 0) :
    decodeString ((tarHeader p s).take 100) = p := by
  rw [tarHeader_shape, List.take_left' (tarHeader_nameLen p hlen)]
  exact decodeString_padded p _ hnz

/-- Bytes 124 onward of the header: the size field then the rest. -/
theorem tarHeader_drop124 (p : String) (s : Nat)
    (hlen : p.data.length ≤ 100) :
    (tarHeader p s).drop 124
      = octChars 11 s
        ++ (0 :: (List.replicate 12 0
        ++ (List.replicate 8 32
        ++ (48 :: List.replicate 355 0)))) := by
  rw [tarHeader_shape]
  rw [show (124:ℕ) = 100 + 24 from rfl, ← List.drop_drop,
    List.drop_left' (tarHeader_nameLen p hlen),
    List.drop_left' (by simp)]

/-- The size field holds the octal rendering of the size. -/
theorem tarHeader_sizeField (p : String) (s : Nat)
    (hlen : p.data.length ≤ 100) :
    ((tarHeader p s).drop 124).take 12 = octChars 11 s ++ [0] := by
  rw [tarHeader_drop124 p s hlen]
  rw [show (12:ℕ) = (octChars 11 s).length + 1 by rw [octChars_length]]
  rw [List.take_append]
  rfl

/-- Bytes 156 onward of the header: the typeflag then NULs. -/
theorem tarHeader_drop156 (p : String) (s : Nat)
    (hlen : p.data.length ≤ 100) :
    (tarHeader p s).drop 156 = 48 :: List.replicate 355 0 := by
  rw [show (156:ℕ) = 124 + 32 from rfl, ← List.drop_drop,
    tarHeader_drop124 p s hlen]
  rw [show (32:ℕ) = (octChars 11 s).length + 21 by rw [octChars_length]]
  rw [List.drop_append, List.drop_succ_cons]
  rw [show (20:ℕ) = 12 + 8 from rfl, ← List.drop_drop,
    List.drop_left' (by simp), List.drop_left' (by simp)]

/-- The prefix field (offsets 345-499) is all NUL. -/
theorem tarHeader_prefixField (p : String) (s : Nat)
    (hlen : p.data.length ≤ 100) :
    decodeString (((tarHeader p s).drop 345).take 155) = "" := by
  rw [show (345:ℕ) = 156 + 189 from rfl, ← List.drop_drop,
    tarHeader_drop156 p s hlen]
  rw [show (189:ℕ) = 188 + 1 by omega, List.drop_succ_cons,
    List.drop_replicate, List.take_replicate]
  exact decodeString_replicate_zero _

/-- The typeflag byte is `'0'` (48). -/
theorem tarHeader_typeflag (p : String) (s : Nat)
    (hlen : p.data.length ≤ 100) :
    (tarHeader p s).getD 156 0 = 48 := by
  rw [List.getD_eq_getElem?_getD, ← List.head?_drop,
    tarHeader_drop156 p s hlen]
  rfl

/-- A header block is never all-zero: the typeflag byte is 48. -/
theorem tarHeader_not_zero (p : String) (s : Nat)
    (hlen : p.data.length ≤ 100) :
    ((tarHeader p s).all fun b => decide (b = 0)) = false := by
  apply Bool.eq_false_iff.mpr
  intro hall
  have h48 : (48:ℕ) ∈ tarHeader p s := by
    have hm : (48:ℕ) ∈ (tarHeader p s).drop 156 := by
      rw [tarHeader_drop156 p s hlen]
      exact List.mem_cons_self _ _
    exact List.mem_of_mem_drop hm
  have := List.all_eq_true.mp hall 48 h48
  simp at this

/-- The archive body parses file by file: each well-formed header
yields one regular-file entry carrying exactly the stored content. -/
theorem parseTarGo_Tar : ∀ (files : List (String × List Nat))
    (fuel : Nat),
    (∀ f ∈ files, f.1.data ≠ [] ∧ f.1.data.length ≤ 100
      ∧ (∀ c ∈ f.1.data, c.toNat ≠ 0) ∧ f.2.length < 8 ^ 11) →
    files.length + 1 ≤ fuel →
    parseTarGo fuel
      ((files.flatMap fun f =>
        tarHeader f.1 f.2.length ++ (f.2
          ++ List.replicate (padLen f.2.length) 0))
        ++ List.replicate 1024 0)
      = files.map fun f => ⟨f.1, f.2.length, f.2, true⟩ := by
  intro files
  induction files with
  | nil =>
    intro fuel hg hfuel
    obtain ⟨fl, rfl⟩ : ∃ f2, fuel = f2 + 1 := ⟨fuel - 1, by omega⟩
    simp only [List.flatMap_nil, List.nil_append, parseTarGo]
    rw [if_pos (show (512:ℕ) ≤ (List.replicate 1024 (0:ℕ)).length by
      rw [List.length_replicate]; omega)]
    rw [List.take_replicate, show ((512:ℕ) ⊓ 1024) = 512 from by decide]
    rw [if_pos (by
      apply List.all_eq_true.mpr
      intro b hb
      simpa using List.eq_of_mem_replicate hb)]
    simp
  | cons f0 files2 ih =>
    intro fuel hg hfuel
    obtain ⟨hne, hlen, hnz, hsz⟩ := hg f0 (List.mem_cons_self _ _)
    obtain ⟨fl, rfl⟩ : ∃ f2, fuel = f2 + 1 := ⟨fuel - 1, by
      simp only [List.length_cons] at hfuel; omega⟩
    simp only [List.flatMap_cons, List.append_assoc]
    simp only [parseTarGo]
    have hhl := tarHeader_length f0.1 f0.2.length hlen
    rw [if_pos (by
      simp only [List.length_append, hhl]; omega)]
    rw [List.take_left' hhl]
    rw [if_neg (by
      rw [tarHeader_not_zero f0.1 f0.2.length hlen]
      exact Bool.false_ne_true)]
    rw [tarHeader_name f0.1 f0.2.length hlen hnz]
    rw [tarHeader_prefixField f0.1 f0.2.length hlen]
    rw [if_neg (show ¬(("":String) ≠ "") from by simp)]
    rw [tarHeader_sizeField f0.1 f0.2.length hlen]
    rw [decodeOctal_size f0.2.length hsz]
    rw [tarHeader_typeflag f0.1 f0.2.length hlen]
    rw [List.drop_left' hhl]
    have hrec : parseTarGo fl
        ((files2.flatMap fun f =>
          tarHeader f.1 f.2.length ++ (f.2
            ++ List.replicate (padLen f.2.length) 0))
          ++ List.replicate 1024 0)
        = files2.map fun f => ⟨f.1, f.2.length, f.2, true⟩ :=
      ih fl (fun f hf => hg f (List.mem_cons_of_mem _ hf)) (by
        simp only [List.length_cons] at hfuel; omega)
    by_cases hpos : 0 < f0.2.length
    · rw [if_pos hpos]
      rw [List.take_left]
      have harith : (f0.2.length + 511) / 512 * 512
          = f0.2.length + padLen f0.2.length := by
        rw [padLen]; omega
      rw [harith, ← List.drop_drop, List.drop_left,
        List.drop_left' (by simp)]
      rw [hrec]
      simp
    · rw [if_neg hpos]
      have hnil : f0.2 = [] :=
        List.eq_nil_of_length_eq_zero (by omega)
      rw [if_pos (Or.inl rfl)]
      rw [hnil]
      rw [show List.replicate (padLen ([] : List Nat).length) (0:ℕ) = []
        from rfl]
      simp only [List.nil_append]
      rw [hrec]
      simp [hnil]

/-- Every header block spans at least 512 bytes. -/
theorem tarHeader_length_ge (p : String) (s : Nat) :
    512 ≤ (tarHeader p s).length := by
  rw [tarHeader_shape]
  simp only [List.length_append, List.length_replicate, List.length_map,
    List.length_cons, octChars_length]
  omega

/-- The archive is at least one block per file plus the terminator. -/
theorem Tar_length_ge (files : List (String × List Nat)) :
    512 * files.length + 1024 ≤ (Tar files).length := by
  rw [Tar]
  have h : ∀ fs : List (String × List Nat),
      512 * fs.length ≤ (fs.flatMap fun f =>
        tarHeader f.1 f.2.length ++ f.2
          ++ List.replicate (padLen f.2.length) 0).length := by
    intro fs
    induction fs with
    | nil => simp
    | cons f0 fs2 ih =>
      simp only [List.flatMap_cons, List.length_append, List.length_cons]
      have h512 := tarHeader_length_ge f0.1 f0.2.length
      omega
  have h2 := h files
  simp only [List.length_append, List.length_replicate]
  omega

/-- `parseTar` recovers exactly the stored files from an archive of
well-formed names and sizes. -/
theorem parseTar_Tar (files : List (String × List Nat))
    (hg : ∀ f ∈ files, f.1.data ≠ [] ∧ f.1.data.length ≤ 100
      ∧ (∀ c ∈ f.1.data, c.toNat ≠ 0) ∧ f.2.length < 8 ^ 11) :
    parseTar (Tar files)
      = files.map fun f => ⟨f.1, f.2.length, f.2, true⟩ := by
  have hlen := Tar_length_ge files
  have hshape : Tar files
      = (files.flatMap fun f =>
          tarHeader f.1 f.2.length ++ (f.2
            ++ List.replicate (padLen f.2.length) 0))
        ++ List.replicate 1024 0 := by
    rw [Tar]
    simp only [List.append_assoc]
  rw [parseTar, hshape]
  rw [hshape] at hlen
  exact parseTarGo_Tar files _ hg (by omega)

/-- One bucketing step on a `.sigmf-meta` entry appends to the meta
map under a fresh base name. -/
theorem bucketStep_meta (dn nm : String) (bytes : List Nat) (sz : Nat)
    (hdn1 : dn.data ≠ []) (hdn2 : ∀ c ∈ dn.data, c ≠ '/') :
    ∀ (acc : List (String × List Nat) × List (String × List Nat))
      (entries : List TarEntry),
    (∀ k ∈ acc.1.map Prod.fst, k ≠ nm) →
    List.foldl
      (fun maps entry =>
        if ¬ entry.isFile then maps
        else
          let name := stripTopDir entry.name
          if endsWithL name.data ".sigmf-meta".data then
            (mapSet maps.1 ⟨name.data.take (name.data.length - 11)⟩
              entry.data, maps.2)
          else if endsWithL name.data ".sigmf-data".data then
            (maps.1, mapSet maps.2
              ⟨name.data.take (name.data.length - 11)⟩ entry.data)
          else maps)
      acc
      ((⟨dn ++ "/" ++ nm ++ ".sigmf-meta", sz, bytes, true⟩ : TarEntry)
        :: entries)
      = List.foldl
        (fun maps entry =>
          if ¬ entry.isFile then maps
          else
            let name := stripTopDir entry.name
            if endsWithL name.data ".sigmf-meta".data then
              (mapSet maps.1 ⟨name.data.take (name.data.length - 11)⟩
                entry.data, maps.2)
            else if endsWithL name.data ".sigmf-data".data then
              (maps.1, mapSet maps.2
                ⟨name.data.take (name.data.length - 11)⟩ entry.data)
            else maps)
        (acc.1 ++ [(nm, bytes)], acc.2) entries := by
  intro acc entries hfresh
  rw [List.foldl_cons]
  congr 1
  simp only []
  rw [if_neg (by simp)]
  rw [String.append_assoc, stripTopDir_concat dn _ hdn1 hdn2]
  rw [String.data_append]
  rw [endsWithL_append, if_pos rfl]
  have hk : (nm.data ++ ".sigmf-meta".data).length - 11
      = nm.data.length := by
    simp only [List.length_append,
      show (".sigmf-meta".data.length = 11) from by decide]
    omega
  rw [hk, List.take_left]
  rw [show (⟨nm.data⟩ : String) = nm from rfl]
  rw [mapSet_fresh acc.1 nm bytes hfresh]

/-- One bucketing step on a `.sigmf-data` entry appends to the data
map under a fresh base name. -/
theorem bucketStep_data (dn nm : String) (bytes : List Nat) (sz : Nat)
    (hdn1 : dn.data ≠ []) (hdn2 : ∀ c ∈ dn.data, c ≠ '/') :
    ∀ (acc : List (String × List Nat) × List (String × List Nat))
      (entries : List TarEntry),
    (∀ k ∈ acc.2.map Prod.fst, k ≠ nm) →
    List.foldl
      (fun maps entry =>
        if ¬ entry.isFile then maps
        else
          let name := stripTopDir entry.name
          if endsWithL name.data ".sigmf-meta".data then
            (mapSet maps.1 ⟨name.data.take (name.data.length - 11)⟩
              entry.data, maps.2)
          else if endsWithL name.data ".sigmf-data".data then
            (maps.1, mapSet maps.2
              ⟨name.data.take (name.data.length - 11)⟩ entry.data)
          else maps)
      acc
      ((⟨dn ++ "/" ++ nm ++ ".sigmf-data", sz, bytes, true⟩ : TarEntry)
        :: entries)
      = List.foldl
        (fun maps entry =>
          if ¬ entry.isFile then maps
          else
            let name := stripTopDir entry.name
            if endsWithL name.data ".sigmf-meta".data then
              (mapSet maps.1 ⟨name.data.take (name.data.length - 11)⟩
                entry.data, maps.2)
            else if endsWithL name.data ".sigmf-data".data then
              (maps.1, mapSet maps.2
                ⟨name.data.take (name.data.length - 11)⟩ entry.data)
            else maps)
        (acc.1, acc.2 ++ [(nm, bytes)]) entries := by
  intro acc entries hfresh
  rw [List.foldl_cons]
  congr 1
  simp only []
  rw [if_neg (by simp)]
  rw [String.append_assoc, stripTopDir_concat dn _ hdn1 hdn2]
  rw [String.data_append]
  rw [endsWithL_append_ne nm.data ".sigmf-data".data ".sigmf-meta".data
    (by decide) (by decide)]
  rw [if_neg (by simp)]
  rw [endsWithL_append, if_pos rfl]
  have hk : (nm.data ++ ".sigmf-data".data).length - 11
      = nm.data.length := by
    simp only [List.length_append,
      show (".sigmf-data".data.length = 11) from by decide]
    omega
  rw [hk, List.take_left]
  rw [show (⟨nm.data⟩ : String) = nm from rfl]
  rw [mapSet_fresh acc.2 nm bytes hfresh]

/-- Bucketing the interleaved meta/data entries of distinct recordings
extends both maps in order. -/
theorem bucketFiles_flat (dn : String) (hdn1 : dn.data ≠ [])
    (hdn2 : ∀ c ∈ dn.data, c ≠ '/') :
    ∀ (rs : List (ArchiveOptions × List Nat))
      (acc : List (String × List Nat) × List (String × List Nat)),
    (∀ rb ∈ rs, ∀ k ∈ acc.1.map Prod.fst, k ≠ rb.1.name) →
    (∀ rb ∈ rs, ∀ k ∈ acc.2.map Prod.fst, k ≠ rb.1.name) →
    (rs.map fun rb => rb.1.name).Nodup →
    List.foldl
      (fun maps entry =>
        if ¬ entry.isFile then maps
        else
          let name := stripTopDir entry.name
          if endsWithL name.data ".sigmf-meta".data then
            (mapSet maps.1 ⟨name.data.take (name.data.length - 11)⟩
              entry.data, maps.2)
          else if endsWithL name.data ".sigmf-data".data then
            (maps.1, mapSet maps.2
              ⟨name.data.take (name.data.length - 11)⟩ entry.data)
          else maps)
      acc
      (rs.flatMap fun rb =>
        [(⟨dn ++ "/" ++ rb.1.name ++ ".sigmf-meta", rb.2.length, rb.2,
            true⟩ : TarEntry),
         ⟨dn ++ "/" ++ rb.1.name ++ ".sigmf-data", rb.1.data.length,
            rb.1.data, true⟩])
      = (acc.1 ++ rs.map fun rb => (rb.1.name, rb.2),
         acc.2 ++ rs.map fun rb => (rb.1.name, rb.1.data)) := by
  intro rs
  induction rs with
  | nil =>
    intro acc h1 h2 hnd
    simp
  | cons rb rs2 ih =>
    intro acc h1 h2 hnd
    simp only [List.map_cons, List.nodup_cons] at hnd
    simp only [List.flatMap_cons, List.cons_append, List.nil_append]
    rw [bucketStep_meta dn rb.1.name rb.2 rb.2.length hdn1 hdn2 acc _
      (h1 rb (List.mem_cons_self _ _))]
    rw [bucketStep_data dn rb.1.name rb.1.data rb.1.data.length hdn1
      hdn2 (acc.1 ++ [(rb.1.name, rb.2)], acc.2) _
      (fun k hk => h2 rb (List.mem_cons_self _ _) k hk)]
    simp only []
    have hfr1 : ∀ rb2 ∈ rs2, ∀ k ∈
        ((acc.1 ++ [(rb.1.name, rb.2)]).map Prod.fst), k ≠ rb2.1.name := by
      intro rb2 hrb2 k hk
      rcases List.mem_map.mp hk with ⟨kv, hkv, rfl⟩
      rcases List.mem_append.mp hkv with hkv | hkv
      · exact h1 rb2 (List.mem_cons_of_mem _ hrb2) _
          (List.mem_map_of_mem _ hkv)
      · have hkv2 : kv = (rb.1.name, rb.2) := by simpa using hkv
        rw [hkv2]
        intro he
        have he2 : rb.1.name = rb2.1.name := he
        exact hnd.1 (he2 ▸ List.mem_map_of_mem (fun x => x.1.name) hrb2)
    have hfr2 : ∀ rb2 ∈ rs2, ∀ k ∈
        ((acc.2 ++ [(rb.1.name, rb.1.data)]).map Prod.fst),
        k ≠ rb2.1.name := by
      intro rb2 hrb2 k hk
      rcases List.mem_map.mp hk with ⟨kv, hkv, rfl⟩
      rcases List.mem_append.mp hkv with hkv | hkv
      · exact h2 rb2 (List.mem_cons_of_mem _ hrb2) _
          (List.mem_map_of_mem _ hkv)
      · have hkv2 : kv = (rb.1.name, rb.1.data) := by simpa using hkv
        rw [hkv2]
        intro he
        have he2 : rb.1.name = rb2.1.name := he
        exact hnd.1 (he2 ▸ List.mem_map_of_mem (fun x => x.1.name) hrb2)
    rw [ih (acc.1 ++ [(rb.1.name, rb.2)],
        acc.2 ++ [(rb.1.name, rb.1.data)]) hfr1 hfr2 hnd.2]
    simp [List.append_assoc]

/-- Looking up a recording name in the data map built from recordings
with distinct names. -/
theorem mapGet_pairs (rs : List (ArchiveOptions × List Nat))
    (rb : ArchiveOptions × List Nat) (hmem : rb ∈ rs)
    (hnd : (rs.map fun x => x.1.name).Nodup) :
    mapGet (rs.map fun x => (x.1.name, x.1.data)) rb.1.name
      = some rb.1.data := by
  induction rs with
  | nil => cases hmem
  | cons x rs2 ih =>
    simp only [List.map_cons, List.nodup_cons] at hnd
    rcases List.mem_cons.mp hmem with rfl | hmem2
    · rw [mapGet, List.map_cons, List.find?_cons_of_pos _ (by simp)]
      rfl
    · rw [mapGet, List.map_cons, List.find?_cons_of_neg _ (by
        simp only [beq_iff_eq]
        intro he
        exact hnd.1 (he ▸ List.mem_map_of_mem (fun y => y.1.name) hmem2))]
      exact ih hmem2 hnd.2

/-- Decoding and parsing every bucketed meta file succeeds and
reconstructs the recordings in order. -/
theorem readAssemble (maps2 : List (String × List Nat)) :
    ∀ (rs : List (ArchiveOptions × List Nat)),
    (∀ rb ∈ rs, (∃ mj, jsonStringify rb.1.metadata = some mj
      ∧ rb.2 = mj.map Char.toNat)) →
    (∀ rb ∈ rs, mapGet maps2 rb.1.name = some rb.1.data) →
    (rs.map fun rb => (rb.1.name, rb.2)).mapM (fun kv => do
        let chars ← utf8DecodeAscii kv.2
        let metadata ← jsonParse chars
        pure (⟨kv.1, metadata, (mapGet maps2 kv.1).getD []⟩
          : ArchiveEntry))
      = some (rs.map fun rb =>
          (⟨rb.1.name, rb.1.metadata, rb.1.data⟩ : ArchiveEntry)) := by
  intro rs
  induction rs with
  | nil => intro h1 h2; rfl
  | cons rb rs2 ih =>
    intro h1 h2
    obtain ⟨mj, hmj0, hb⟩ := h1 rb (List.mem_cons_self _ _)
    have ih2 := ih (fun x hx => h1 x (List.mem_cons_of_mem _ hx))
      (fun x hx => h2 x (List.mem_cons_of_mem _ hx))
    simp only [List.map_cons, List.mapM_cons]
    rw [hb]
    rw [utf8DecodeAscii_map mj
      (printJF_ascii (2 ^ 64) rb.1.metadata 0 mj hmj0)]
    simp only [Option.bind_eq_bind, Option.some_bind]
    rw [jsonParse_print rb.1.metadata mj hmj0]
    simp only [Option.bind_eq_bind, Option.some_bind]
    rw [h2 rb (List.mem_cons_self _ _)]
    simp only [Option.bind_eq_bind] at ih2
    rw [ih2]
    simp

/-- C4 (amended): under the stated well-formedness conditions —
distinct NUL-free names, paths fitting the 100-byte name field, sizes
below the 12-digit octal bound, and serialisable metadata — reading
back a created archive yields one entry per input recording with the
same name, metadata and data. -/
theorem C4_archive_round_trip (recordings : List ArchiveOptions)
    (archiveName : Option String) (dn : String)
    (hdn : dn = archiveName.getD
      (((recordings.head?.map (·.name)).getD "recording")))
    (hnodup : (recordings.map fun r => r.name).Nodup)
    (hdn1 : dn.data ≠ [])
    (hdn2 : ∀ c ∈ dn.data, c ≠ '/' ∧ c.toNat ≠ 0)
    (hrec : ∀ r ∈ recordings,
      (∀ c ∈ r.name.data, c.toNat ≠ 0)
      ∧ dn.data.length + 12 + r.name.data.length ≤ 100
      ∧ r.data.length < 8 ^ 11
      ∧ ∃ mj, jsonStringify r.metadata = some mj
          ∧ mj.length < 8 ^ 11) :
    (createArchive recordings archiveName).bind readArchive
      = some (recordings.map fun r =>
          (⟨r.name, r.metadata, r.data⟩ : ArchiveEntry)) := by
  have hrsnd : ((recordings.map fun r =>
      (r, ((jsonStringify r.metadata).getD []).map Char.toNat)).map
        fun rb => rb.1.name).Nodup := by
    simpa [List.map_map, Function.comp] using hnodup
  have hgood : ∀ f ∈ (recordings.map (fun r => [(dn ++ "/" ++ r.name ++ ".sigmf-meta",
          ((jsonStringify r.metadata).getD []).map Char.toNat),
        (dn ++ "/" ++ r.name ++ ".sigmf-data", r.data)])).flatten,
      f.1.data ≠ [] ∧ f.1.data.length ≤ 100
      ∧ (∀ c ∈ f.1.data, c.toNat ≠ 0) ∧ f.2.length < 8 ^ 11 := by
    intro f hf
    rw [List.mem_flatten] at hf
    obtain ⟨l, hl, hfl⟩ := hf
    obtain ⟨r, hr, rfl⟩ := List.mem_map.mp hl
    obtain ⟨hnz, hlen, hdata, mj, hmj, hmjlen⟩ := hrec r hr
    have hpath : ∀ sfx : String, (∀ c ∈ sfx.data, c.toNat ≠ 0) →
        sfx.data.length = 11 →
        (dn ++ "/" ++ r.name ++ sfx).data ≠ []
        ∧ (dn ++ "/" ++ r.name ++ sfx).data.length ≤ 100
        ∧ (∀ c ∈ (dn ++ "/" ++ r.name ++ sfx).data, c.toNat ≠ 0) := by
      intro sfx hs hs11
      have hdata2 : (dn ++ "/" ++ r.name ++ sfx).data
          = dn.data ++ ('/' :: (r.name.data ++ sfx.data)) := by
        simp [String.data_append, List.append_assoc,
          show ("/" : String).data = ['/'] from rfl]
      refine ⟨?_, ?_, ?_⟩
      · rw [hdata2]
        simp
      · rw [hdata2]
        simp only [List.length_append, List.length_cons, hs11]
        omega
      · rw [hdata2]
        intro c hc
        rcases List.mem_append.mp hc with hc | hc
        · exact (hdn2 c hc).2
        · rcases List.mem_cons.mp hc with rfl | hc
          · decide
          · rcases List.mem_append.mp hc with hc | hc
            · exact hnz c hc
            · exact hs c hc
    simp only [List.mem_cons, List.mem_singleton] at hfl
    rcases hfl with rfl | hfl
    · obtain ⟨ha, hb, hc⟩ := hpath ".sigmf-meta" (by decide) (by decide)
      refine ⟨ha, hb, hc, ?_⟩
      simp only [List.length_map]
      rw [hmj]
      simpa using hmjlen
    · rcases hfl with rfl | hfl
      · obtain ⟨ha, hb, hc⟩ := hpath ".sigmf-data" (by decide) (by decide)
        exact ⟨ha, hb, hc, hdata⟩
      · cases hfl
  have hent : (((recordings.map (fun r => [(dn ++ "/" ++ r.name ++ ".sigmf-meta",
          ((jsonStringify r.metadata).getD []).map Char.toNat),
        (dn ++ "/" ++ r.name ++ ".sigmf-data", r.data)])).flatten).map fun f =>
        (⟨f.1, f.2.length, f.2, true⟩ : TarEntry))
      = ((recordings.map fun r =>
          (r, ((jsonStringify r.metadata).getD []).map
            Char.toNat)).flatMap fun rb =>
        [(⟨dn ++ "/" ++ rb.1.name ++ ".sigmf-meta", rb.2.length, rb.2,
            true⟩ : TarEntry),
         ⟨dn ++ "/" ++ rb.1.name ++ ".sigmf-data", rb.1.data.length,
            rb.1.data, true⟩]) := by
    rw [← List.flatMap_def, List.map_flatMap, List.flatMap_map]
    exact congrArg _ (funext fun r => rfl)
  have hbucket : bucketFiles (parseTar (Tar
        ((recordings.map (fun r => [(dn ++ "/" ++ r.name ++ ".sigmf-meta",
          ((jsonStringify r.metadata).getD []).map Char.toNat),
        (dn ++ "/" ++ r.name ++ ".sigmf-data", r.data)])).flatten)))
      = ((recordings.map fun r =>
            (r, ((jsonStringify r.metadata).getD []).map
              Char.toNat)).map fun rb => (rb.1.name, rb.2),
         (recordings.map fun r =>
            (r, ((jsonStringify r.metadata).getD []).map
              Char.toNat)).map fun rb => (rb.1.name, rb.1.data)) := by
    rw [parseTar_Tar _ hgood, hent, bucketFiles]
    rw [bucketFiles_flat dn hdn1 (fun c hc => (hdn2 c hc).1) _ ([], [])
      (by intro rb hrb k hk; simp at hk)
      (by intro rb hrb k hk; simp at hk) hrsnd]
    simp
  have hca : createArchive recordings archiveName
      = some (Tar ((recordings.map (fun r => [(dn ++ "/" ++ r.name ++ ".sigmf-meta",
          ((jsonStringify r.metadata).getD []).map Char.toNat),
        (dn ++ "/" ++ r.name ++ ".sigmf-data", r.data)])).flatten)) := by
    simp only [createArchive, ← hdn]
    rw [mapM_eq_map_of_some _ (fun r => [(dn ++ "/" ++ r.name ++ ".sigmf-meta",
          ((jsonStringify r.metadata).getD []).map Char.toNat),
        (dn ++ "/" ++ r.name ++ ".sigmf-data", r.data)]) recordings (by
      intro r hr
      obtain ⟨-, -, -, mj, hmj, -⟩ := hrec r hr
      simp [hmj])]
    rfl
  rw [hca]
  simp only [Option.bind_eq_bind, Option.some_bind]
  rw [readArchive]
  simp only [hbucket]
  rw [readAssemble _ _
    (by
      intro rb hrb
      obtain ⟨r, hr, rfl⟩ := List.mem_map.mp hrb
      obtain ⟨-, -, -, mj, hmj, -⟩ := hrec r hr
      exact ⟨mj, hmj, by simp [hmj]⟩)
    (fun rb hrb => mapGet_pairs _ rb hrb hrsnd)]
  simp only [List.map_map]
  rfl

/-- C4: counterexample — two recordings that share the name `"a"`
collapse to a single archive entry: the `Map.set` bucketing of
`readArchive` overwrites the first recording's files, so the read-back
archive has one entry, not one per input recording as claimed. -/
theorem C4_counterexample :
    ((createArchive [⟨"a", .obj [], []⟩, ⟨"a", .obj [], []⟩] none).bind
      readArchive).map List.length = some 1 := by
  have hca : createArchive
      [⟨"a", .obj [], []⟩, ⟨"a", .obj [], []⟩] none
      = some (Tar [("a/a.sigmf-meta", [123, 125]),
          ("a/a.sigmf-data", []),
          ("a/a.sigmf-meta", [123, 125]), ("a/a.sigmf-data", [])]) := by
    rfl
  rw [hca]
  simp only [Option.bind_eq_bind, Option.some_bind]
  simp only [readArchive,
    parseTar_Tar [("a/a.sigmf-meta", [123, 125]),
      ("a/a.sigmf-data", []),
      ("a/a.sigmf-meta", [123, 125]), ("a/a.sigmf-data", [])]
      (by decide)]
  rfl

/-- Witness: the amended C4 theorem applied to one concrete
recording. -/
theorem C4_archive_round_trip_witness :
    (createArchive [⟨"a", .obj [], [5]⟩] none).bind readArchive
      = some [(⟨"a", .obj [], [5]⟩ : ArchiveEntry)] := by
  have h := C4_archive_round_trip [⟨"a", .obj [], [5]⟩] none "a" rfl
    (by decide) (by decide) (by decide)
    (by
      intro r hr
      have hr2 : r = ⟨"a", .obj [], [5]⟩ := by simpa using hr
      subst hr2
      refine ⟨by decide, by decide, by decide,
        ⟨['{', '}'], rfl, by decide⟩⟩)
  exact h


end SigMF
